import Mathlib

/-!
# go-zero-rrzu: the api generator (`tools/goctl/apigen/core.go`)

A shallow embedding of the schema extractor, the artifact renderer and the
incremental merge engine, followed by the properties proved about them.

Conventions of the embedding
* A Go `string` is a sequence of bytes: `Str := List Nat` (each element a byte
  value).  Go source literals are UTF-8, so a literal is written `B "..."`.
* A file read through `bufio.Reader.ReadString('\n')` is the list of the reads
  still to come (`reads`): every newline-terminated line in turn, then the
  unterminated remainder, which is the read that comes with `io.EOF`.  Once the
  list is exhausted every further read is the empty string with `io.EOF`.
* A run-time fault (index or slice bound out of range) is `none`.
* Functions of other packages whose behaviour depends on Unicode tables or whose
  source is not part of `core.go` are parameters: `toLower`/`toUpper` for
  `strings.ToLower`/`strings.ToUpper`, `camel` for
  `stringx.String.ToCamelWithStartLower`, and the constants `INSERT`, `UPDATE`,
  `QUERY`.
* The generators return the text they write to the artifact file.
-/

namespace Apigen

/-! ## Strings -/

/-- A Go string: its bytes. -/
abbrev Str := List Nat

/-- UTF-8 encoding of one code point. -/
def utf8EncodeRune (c : Char) : Str :=
  let n := c.toNat
  if n < 0x80 then [n]
  else if n < 0x800 then [0xC0 + n / 64, 0x80 + n % 64]
  else if n < 0x10000 then [0xE0 + n / 4096, 0x80 + (n / 64) % 64, 0x80 + n % 64]
  else [0xF0 + n / 262144, 0x80 + (n / 4096) % 64, 0x80 + (n / 64) % 64, 0x80 + n % 64]

/-- The bytes of a source literal. -/
def B (s : String) : Str := s.data.flatMap utf8EncodeRune

/-- Go `strings.Contains(s, substr)`. -/
def Contains : Str → Str → Bool
  | [], substr => substr.isEmpty
  | c :: cs, substr => substr.isPrefixOf (c :: cs) || Contains cs substr

/-- The ASCII white space of `unicode.IsSpace`: tab, newline, vertical tab, form feed,
carriage return, space. -/
def asciiSpace (c : Nat) : Bool :=
  c = 9 || c = 10 || c = 11 || c = 12 || c = 13 || c = 32

/-- The two-byte white space of `unicode.IsSpace`: U+0085 and U+00A0. -/
def space2 (a b : Nat) : Bool :=
  a = 0xC2 && (b = 0x85 || b = 0xA0)

/-- The three-byte white space of `unicode.IsSpace`: U+1680, U+2000..U+200A, U+2028,
U+2029, U+202F, U+205F, U+3000. -/
def space3 (a b c : Nat) : Bool :=
  (a = 0xE1 && b = 0x9A && c = 0x80)
    || (a = 0xE2 && b = 0x80 && ((0x80 ≤ c && c ≤ 0x8A) || c = 0xA8 || c = 0xA9 || c = 0xAF))
    || (a = 0xE2 && b = 0x81 && c = 0x9F)
    || (a = 0xE3 && b = 0x80 && c = 0x80)

/-- Go `strings.TrimLeftFunc(s, unicode.IsSpace)`. -/
def trimLeft : Str → Str
  | [] => []
  | [a] => if asciiSpace a then [] else [a]
  | [a, b] =>
    if asciiSpace a then trimLeft [b]
    else if space2 a b then []
    else [a, b]
  | a :: b :: c :: r =>
    if asciiSpace a then trimLeft (b :: c :: r)
    else if space2 a b then trimLeft (c :: r)
    else if space3 a b c then trimLeft r
    else a :: b :: c :: r

/-- The white space stripped from the end of a string, read backwards. -/
def trimLeftRev : Str → Str
  | [] => []
  | [a] => if asciiSpace a then [] else [a]
  | [b, a] =>
    if asciiSpace b then trimLeftRev [a]
    else if space2 a b then []
    else [b, a]
  | c :: b :: a :: r =>
    if asciiSpace c then trimLeftRev (b :: a :: r)
    else if space2 b c then trimLeftRev (a :: r)
    else if space3 a b c then trimLeftRev r
    else c :: b :: a :: r

/-- Go `strings.TrimRightFunc(s, unicode.IsSpace)`. -/
def trimRight (s : Str) : Str := (trimLeftRev s.reverse).reverse

/-- Go `strings.TrimSpace(s)`: leading and trailing white space removed. -/
def TrimSpace (s : Str) : Str := trimRight (trimLeft s)

/-- Go `strings.ToUpper` on a one-byte string: an ASCII letter is upper-cased, a byte
that is not ASCII is invalid UTF-8 on its own and becomes U+FFFD. -/
def toUpperByte (c : Nat) : Str :=
  if c < 0x80 then (if 97 ≤ c ∧ c ≤ 122 then [c - 32] else [c]) else [0xEF, 0xBF, 0xBD]

/-- Go `strings.ToLower` on a one-byte string. -/
def toLowerByte (c : Nat) : Str :=
  if c < 0x80 then (if 65 ≤ c ∧ c ≤ 90 then [c + 32] else [c]) else [0xEF, 0xBF, 0xBD]

def FirstUpper : Str → Str
  | [] => []
  | c :: cs => toUpperByte c ++ cs

def FirstToLower : Str → Str
  | [] => []
  | c :: cs => toLowerByte c ++ cs

def isInSlice (slice : List Str) (s : Str) : Bool :=
  slice.any (fun x => TrimSpace x == TrimSpace s)

/-- The format verb `%d`. -/
def itoa (n : Int) : Str := B (toString n)

/-! ## The reader -/

/-- The reads `ReadString('\n')` will return for a file: each newline-terminated line,
then the unterminated remainder (the read that comes with `io.EOF`). -/
def reads : Str → List Str
  | [] => [[]]
  | c :: cs =>
    if c = 10 then [10] :: reads cs
    else
      match reads cs with
      | [] => [[c]]
      | l :: ls => (c :: l) :: ls

/-! ## Data model -/

/-- The field of a message. -/
structure MessageField where
  Typ : Str
  Name : Str
  Comment : Str
  ColumnName : Str
  deriving DecidableEq, Repr

structure Message where
  Name : Str
  Comment : Str
  Fields : List MessageField
  deriving DecidableEq, Repr

structure EnumField where
  name : Str
  tag : Int
  deriving DecidableEq, Repr

structure Enum where
  Name : Str
  Comment : Str
  Fields : List EnumField
  deriving DecidableEq, Repr

structure Schema where
  Syntax : Str
  ServiceName : Str
  Dir : Str
  Imports : List Str
  Messages : List Message
  CusMessages : List Message
  Enums : List Enum
  GenerateCurdMethod : List Str
  deriving DecidableEq, Repr

/-- A database column; the three `sql.NullInt64` facets are optional integers. -/
structure Column where
  TableName : Str
  TableComment : Str
  ColumnName : Str
  IsNullable : Str
  DataType : Str
  CharacterMaximumLength : Option Int
  NumericPrecision : Option Int
  NumericScale : Option Int
  ColumnType : Str
  ColumnComment : Str
  deriving DecidableEq, Repr

def NewMessageField (typ name comment columnName : Str) : MessageField :=
  { Typ := typ, Name := name, Comment := comment, ColumnName := columnName }

/-- `Message.AppendField`: never fails. -/
def Message.AppendField (m : Message) (mf : MessageField) : Message :=
  { m with Fields := m.Fields ++ [mf] }

/-! ## Enums -/

/-- The regular expression of `NewEnumField`, `[^\w]+`, replaced by an underscore: every
maximal run of bytes other than ASCII letters, digits and the underscore becomes one
underscore (every byte of a rune that is not ASCII belongs to a rune outside `\w`). -/
def isWord (c : Nat) : Bool :=
  (48 ≤ c && c ≤ 57) || (65 ≤ c && c ≤ 90) || (97 ≤ c && c ≤ 122) || c = 95

def replaceNonWord : Str → Str
  | [] => []
  | [c] => if isWord c then [c] else [95]
  | c :: d :: r =>
    if isWord c then c :: replaceNonWord (d :: r)
    else if isWord d then 95 :: replaceNonWord (d :: r)
    else replaceNonWord (d :: r)

def NewEnumField (toUpper : Str → Str) (name : Str) (tag : Int) : EnumField :=
  { name := replaceNonWord (toUpper name), tag := tag }

/-- `EnumField.String`. -/
def EnumField.String (ef : EnumField) : Str :=
  ef.name ++ B " = " ++ itoa ef.tag

/-- `Enum.String`. -/
def Enum.String (e : Enum) : Str :=
  B "// " ++ e.Comment ++ B " \n"
    ++ B "enum " ++ e.Name ++ B " \x7b\n"
    ++ e.Fields.flatMap (fun f => B "  " ++ f.String ++ B ";\n")
    ++ B "\x7d\n"

/-- `Enum.AppendField`: an error when the tag is already in use. -/
def Enum.AppendField (e : Enum) (ef : EnumField) : Except Str Enum :=
  match e.Fields.find? (fun f => f.tag == ef.tag) with
  | some f => .error (B "tag `" ++ itoa ef.tag ++ B "` is already in use by field `" ++ f.name ++ B "`")
  | none => .ok { e with Fields := e.Fields ++ [ef] }

/-- The loop of `newEnumFromStrings`, from index `i` on. -/
def newEnumFromStringsLoop (toUpper : Str → Str) (e : Enum) (i : Nat) : List Str → Except Str Enum
  | [] => .ok e
  | s :: ss =>
    match e.AppendField (NewEnumField toUpper s i) with
    | .error err => .error err
    | .ok e1 => newEnumFromStringsLoop toUpper e1 (i + 1) ss

def newEnumFromStrings (toUpper : Str → Str) (name comment : Str) (ss : List Str) : Except Str Enum :=
  newEnumFromStringsLoop toUpper { Name := name, Comment := comment, Fields := [] } 0 ss

/-! ## Rendering of a message -/

/-- `Message.String`. -/
def Message.String (m : Message) : Str :=
  B "  " ++ m.Name ++ B " \x7b\n"
    ++ m.Fields.flatMap (fun f =>
        B "    " ++ FirstUpper f.Name ++ B "   " ++ f.Typ ++ B "  `json:\"" ++ f.ColumnName
          ++ B "\"`  ; //" ++ f.Comment ++ B "\n")
    ++ B "  \x7d\n"

/-- The fields `GenApiDefault` prints: the bookkeeping columns are left out, the name is
camel-cased and an empty comment becomes the name. -/
def defaultFields (camel : Str → Str) (fields : List MessageField) : List MessageField :=
  fields.filterMap (fun field =>
    if isInSlice [B "version", B "del_state", B "delete_time"] field.Name then none
    else
      let name := camel field.Name
      some { field with Name := name, Comment := if field.Comment = [] then name else field.Comment })

def Message.GenApiDefault (camel : Str → Str) (m : Message) : Str :=
  Message.String { m with Fields := defaultFields camel m.Fields } ++ B "\n"

def Message.GenApiDefaultResp (m : Message) : Str :=
  B "  Create" ++ FirstUpper m.Name ++ B "Resp \x7b\n"
    ++ B "    Id   int64  `json:\"id\"`   \n"
    ++ B "  \x7d\n"

def Message.GenApiUpdateReq (camel : Str → Str) (m : Message) : Str :=
  B "  Update" ++ FirstUpper m.Name ++ B "Req \x7b\n"
    ++ m.Fields.flatMap (fun f =>
        B "    " ++ FirstUpper (camel f.Name) ++ B "   " ++ f.Typ ++ B "  `json:\"" ++ f.ColumnName
          ++ B "\"`   //" ++ f.Comment ++ B "\n")
    ++ B "  \x7d\n"

def Message.GenApiUpdateResp (m : Message) : Str :=
  B "  Update" ++ FirstUpper m.Name ++ B "Resp \x7b\n"
    ++ B "    Id   int64  `json:\"id\"`   \n"
    ++ B "  \x7d\n"

def Message.GenApiQueryListReq (m : Message) : Str :=
  B "  Query" ++ FirstUpper m.Name ++ B "Req \x7b\n"
    ++ B "    Id   int64  `form:\"id,optional\"`   \n"
    ++ B "    PageNo   int64  `form:\"page_no,optional\"`   \n"
    ++ B "    PageSize   int64  `form:\"page_size,optional\"`   \n"
    ++ B "  \x7d\n"

def Message.GenApiQueryListResp (m : Message) : Str :=
  B "  Query" ++ FirstUpper m.Name ++ B "Resp \x7b\n"
    ++ (B "    " ++ (m.Name ++ B "List") ++ B "   []" ++ FirstUpper m.Name ++ B "  `json:\""
          ++ (FirstToLower m.Name ++ B "_list") ++ B "\"`   \n")
    ++ B "    CurrPage   int64  `json:\"curr_page\"`   \n"
    ++ B "    TotalPage   int64  `json:\"total_page\"`   \n"
    ++ B "    TotalCount   int64  `json:\"total_count\"`   \n"
    ++ B "  \x7d\n"

/-! ## The params artifact -/

/-- The six generated types of one table message, as both `CreateParamString` and
`UpdateParamString` write them after the line `type (`. -/
def messageTypes (camel : Str → Str) (m : Message) : Str :=
  m.GenApiDefault camel ++ B "\n"
    ++ m.GenApiDefaultResp ++ B "\n"
    ++ m.GenApiUpdateReq camel ++ B "\n"
    ++ m.GenApiUpdateResp ++ B "\n"
    ++ m.GenApiQueryListReq ++ B "\n"
    ++ m.GenApiQueryListResp

/-- The banner line of a table message and the opening `type (`. -/
def messageBanner (m : Message) : Str :=
  B "//--------------------------------" ++ m.Comment ++ B "--------------------------------" ++ B "\n"
    ++ B "type (\n"

/-- The banner line of a custom message and the opening `type (`. -/
def cusBanner (m : Message) : Str :=
  B "//--------------------------------" ++ B "customize_proto" ++ m.Name
    ++ B "--------------------------------" ++ B "\n"
    ++ B "type (\n"

/-- `Schema.CreateParamString`: the fresh params artifact. -/
def Schema.CreateParamString (camel : Str → Str) (s : Schema) : Str :=
  B "syntax = \"" ++ s.Syntax ++ B "\"\n"
    ++ B "\n"
    ++ B "// Already Exist Table:\n"
    ++ s.Messages.flatMap (fun m => B "// " ++ m.Name ++ B "\n")
    ++ B "// Exist Table End\n"
    ++ B "\n"
    ++ B "// Proto Customize Type:\n"
    ++ s.CusMessages.flatMap (fun m => B "// " ++ m.Name ++ B "\n")
    ++ B "// Customize Type End\n"
    ++ B "\n"
    ++ B "// Type Record Start\n"
    ++ s.Messages.flatMap (fun m => messageBanner m ++ messageTypes camel m)
    ++ B ")" ++ B "\n\n"
    ++ s.CusMessages.flatMap (fun m => cusBanner m ++ m.GenApiDefault camel ++ B ")" ++ B "\n\n")
    ++ B "// Type Record End\n"

/-- The loops at lines 452-465 and 497-510: each read is written; the loop ends after
the first read that contains the marker, or at end of file. -/
def copyThrough (marker : Str) : List Str → Str × List Str
  | [] => ([], [])
  | line :: rest =>
    if Contains line marker || rest.isEmpty then (line, rest)
    else
      let r := copyThrough marker rest
      (line ++ r.1, r.2)

/-- What a registry loop leaves behind: the names collected, the text written, the end
line when the end sentinel was met, and the reads still to come. -/
structure Registry where
  names : List Str
  written : Str
  endLine : Option Str
  rest : List Str
  deriving DecidableEq, Repr

/-- The loops at lines 469-484 and 514-529: a read that contains the end marker ends the
loop and becomes `endLine`; any other read is sliced with `line[3:]`, which faults when
the read is shorter than three bytes, then written; end of file ends the loop. -/
def scanRegistry (marker : Str) : List Str → Option Registry
  | [] =>
    if Contains [] marker then some { names := [], written := [], endLine := some [], rest := [] }
    else none
  | line :: rest =>
    if Contains line marker then some { names := [], written := [], endLine := some line, rest := rest }
    else if line.length < 3 then none
    else if rest.isEmpty then some { names := [line.drop 3], written := line, endLine := none, rest := [] }
    else
      match scanRegistry marker rest with
      | none => none
      | some r => some { r with names := line.drop 3 :: r.names, written := line ++ r.written }

/-- The loops at lines 542-556 (and 788-801 of `UpdateString`): reads are written until
one contains the marker, which is not written, or until end of file. -/
def copyBody (marker : Str) : List Str → Str
  | [] => []
  | line :: rest =>
    if Contains line marker then []
    else if rest.isEmpty then line
    else line ++ copyBody marker rest

/-- The type block `UpdateParamString` appends for a table message. -/
def messageBlock (camel : Str → Str) (m : Message) : Str :=
  messageBanner m ++ messageTypes camel m ++ B ")" ++ B "\n\n"

/-- The type block `UpdateParamString` appends for a custom message. -/
def cusBlock (camel : Str → Str) (m : Message) : Str :=
  cusBanner m ++ m.GenApiDefault camel ++ B "\n" ++ B ")" ++ B "\n\n"

/-- `Schema.UpdateParamString` on the text of the existing params artifact: the text
written back, or `none` when the scan faults. -/
def Schema.UpdateParamString (camel : Str → Str) (s : Schema) (file : Str) : Option Str :=
  let p1 := copyThrough (B "Already Exist Table") (reads file)
  match scanRegistry (B "Exist Table End") p1.2 with
  | none => none
  | some r2 =>
    let existTableName := r2.names
    let endLine1 := r2.endLine.getD []
    let newTables := s.Messages.filter (fun m => !isInSlice existTableName m.Name)
    let p4 := copyThrough (B "Proto Customize Type") r2.rest
    match scanRegistry (B "Customize Type End") p4.2 with
    | none => none
    | some r5 =>
      let existFieldName := r5.names
      let endLine2 := r5.endLine.getD endLine1
      let newFields := s.CusMessages.filter (fun m => !isInSlice existFieldName m.Name)
      some (p1.1 ++ r2.written
        ++ newTables.flatMap (fun m => B "// " ++ m.Name ++ B "\n")
        ++ endLine1
        ++ p4.1 ++ r5.written
        ++ newFields.flatMap (fun m => B "// " ++ m.Name ++ B "\n")
        ++ endLine2
        ++ copyBody (B "Type Record End") r5.rest
        ++ newTables.flatMap (messageBlock camel)
        ++ newFields.flatMap (cusBlock camel)
        ++ B "// Type Record End\n")

/-! ## The service artifact -/

/-- The create endpoint of a message (lines 654-656 and 819-821). -/
def createEntry (m : Message) : Str :=
  B "\t@doc  \"" ++ m.Name ++ B "创建[auto]\"\n"
    ++ B "\t@handler  create" ++ m.Name ++ B "\n"
    ++ B "\tpost /" ++ FirstUpper m.Name ++ B "/create" ++ B " (" ++ m.Name
    ++ B ") returns (Create" ++ FirstUpper m.Name ++ B "Resp); \n\n"

/-- The update endpoint of a message (lines 659-661 and 824-826). -/
def updateEntry (m : Message) : Str :=
  B "\t@doc  \"" ++ m.Name ++ B "更新[auto]\"\n"
    ++ B "\t@handler  update" ++ m.Name ++ B "\n"
    ++ B "\tpost /" ++ FirstUpper m.Name ++ B "/update" ++ B " (Update" ++ m.Name
    ++ B "Req) returns (Update" ++ FirstUpper m.Name ++ B "Resp); \n\n"

/-- The query-list and query-detail endpoints of a message (lines 645-651, 664-670,
810-816 and 829-835). -/
def queryEntries (m : Message) : Str :=
  B "\t@doc  \"" ++ m.Name ++ B "列表查找[auto]\"\n"
    ++ B "\t@handler  query" ++ m.Name ++ B "List\n"
    ++ B "\tget /" ++ FirstUpper m.Name ++ B "/query" ++ B " (Query" ++ FirstUpper m.Name
    ++ B "Req) returns (Query" ++ m.Name ++ B "Resp); \n\n"
    ++ B "\t@doc  \"" ++ m.Name ++ B "查找[auto]\"\n"
    ++ B "\t@handler  query" ++ m.Name ++ B "\n"
    ++ B "\tget /" ++ FirstUpper m.Name ++ B " (Query" ++ FirstUpper m.Name ++ B "Req) returns ("
    ++ FirstUpper m.Name ++ B "); \n\n"

/-- The endpoint declarations of one message: what `CreateString` (lines 642-672) and
`UpdateString` (lines 806-837) add to `funcTpl` for it. -/
def serviceEntry (INSERT UPDATE QUERY : Str) (s : Schema) (m : Message) : Str :=
  B "\t//-----------------------" ++ m.Comment ++ B "----------------------- \n"
    ++ (if s.GenerateCurdMethod.length = 1 ∧ TrimSpace (s.GenerateCurdMethod.headD []) = [] then
          queryEntries m
        else
          (if isInSlice s.GenerateCurdMethod INSERT then createEntry m else [])
            ++ (if isInSlice s.GenerateCurdMethod UPDATE then updateEntry m else [])
            ++ (if isInSlice s.GenerateCurdMethod QUERY then queryEntries m else []))

/-- `Schema.CreateString`: the fresh service artifact. -/
def Schema.CreateString (INSERT UPDATE QUERY : Str) (s : Schema) : Str :=
  B "syntax = \"" ++ s.Syntax ++ B "\"\n"
    ++ B "\n"
    ++ B "import (\n"
    ++ (B "\t\"" ++ (s.ServiceName ++ B "Param.api") ++ B "\" \n")
    ++ B ")"
    ++ B "\n"
    ++ B "// Already Exist Table:\n"
    ++ s.Messages.flatMap (fun m => B "// " ++ m.Name ++ B "\n")
    ++ B "// Exist Table End\n"
    ++ B "\n"
    ++ (if s.Enums.length > 0 then
          B "// Enums Record Start\n"
            ++ s.Enums.flatMap (fun e => e.String ++ B "\n")
            ++ B "// Enums Record End\n"
        else [])
    ++ B "\n"
    ++ B "// ------------------------------------ \n"
    ++ B "// api Func\n"
    ++ B "// ------------------------------------ \n\n"
    ++ (B "service " ++ s.ServiceName ++ B "\x7b\n"
          ++ s.Messages.flatMap (serviceEntry INSERT UPDATE QUERY s)
          ++ B "\t // Service Record End\n"
          ++ B "\x7d")

/-- The regular expression `^enum [A-Za-z0-9]*` on one read and the slice `[5:]` of its
match: the letters and digits that follow a leading `enum `. -/
def isAlnum (c : Nat) : Bool :=
  (48 ≤ c && c ≤ 57) || (65 ≤ c && c ≤ 90) || (97 ≤ c && c ≤ 122)

def enumText (line : Str) : Option Str :=
  if (B "enum ").isPrefixOf line then some ((line.drop 5).takeWhile isAlnum) else none

/-- What the enum loop of `UpdateString` leaves behind. -/
structure EnumScan where
  names : List Str
  written : Str
  endLine : Option Str
  rest : List Str
  deriving DecidableEq, Repr

/-- The loop at lines 751-776: a read containing `Enums Record End` ends the loop and
becomes `endLine`; a read containing `api Func` is written and ends the loop; any other
read is written and, when it starts an enum, its name is collected. -/
def scanEnums : List Str → EnumScan
  | [] => { names := [], written := [], endLine := none, rest := [] }
  | line :: rest =>
    if Contains line (B "Enums Record End") then
      { names := [], written := [], endLine := some line, rest := rest }
    else if Contains line (B "api Func") then
      { names := [], written := line, endLine := none, rest := rest }
    else if rest.isEmpty then
      { names := (enumText line).toList, written := line, endLine := none, rest := [] }
    else
      let r := scanEnums rest
      { r with names := (enumText line).toList ++ r.names, written := line ++ r.written }

/-- `Schema.UpdateString` on the text of the existing service artifact: the text written
back, or `none` when the scan faults. -/
def Schema.UpdateString (INSERT UPDATE QUERY : Str) (s : Schema) (file : Str) : Option Str :=
  let p1 := copyThrough (B "Already Exist Table") (reads file)
  match scanRegistry (B "Exist Table End") p1.2 with
  | none => none
  | some r2 =>
    let existTableName := r2.names
    let endLine1 := r2.endLine.getD []
    let newTables := s.Messages.filter (fun m => !isInSlice existTableName m.Name)
    let r3 := scanEnums r2.rest
    let endLine2 := r3.endLine.getD endLine1
    some (p1.1 ++ r2.written
      ++ newTables.flatMap (fun m => B "// " ++ m.Name ++ B "\n")
      ++ endLine1
      ++ (if s.Messages.length > 0 then endLine1 else [])
      ++ r3.written
      ++ (if s.Enums.length > 0 then
            (s.Enums.filter (fun e => !isInSlice r3.names e.Name)).flatMap (fun e => e.String ++ B "\n")
              ++ endLine2
          else [])
      ++ copyBody (B "Service Record End") r3.rest
      ++ (newTables.flatMap (serviceEntry INSERT UPDATE QUERY s)
            ++ B "\t // Service Record End\n"
            ++ B "\x7d"))

/-! ## Column mode: the field type mapper -/

/-- The group of `(.+?)\)` once the opening parenthesis is matched: scanning for the first
closing parenthesis; a newline before it ends the attempt. -/
def untilClose : Str → Option Str
  | [] => none
  | c :: cs =>
    if c = 41 then some []
    else if c = 10 then none
    else (untilClose cs).map (fun g => c :: g)

/-- The lazy group `.+?` followed by `\)`: at least one byte that is not a newline, then
the bytes up to the first closing parenthesis. -/
def lazyGroup : Str → Option Str
  | [] => none
  | c :: cs => if c = 10 then none else (untilClose cs).map (fun g => c :: g)

/-- Bytes of the character class `[enum|set]`. -/
def enumClass (c : Nat) : Bool :=
  c = 101 || c = 110 || c = 117 || c = 109 || c = 124 || c = 115 || c = 116

/-- Group 1 of `regexp.MustCompile("[enum|set]\((.+?)\)").FindStringSubmatch(s)`: the
leftmost place where a byte of the class is followed by an opening parenthesis, a lazy
non-empty group and a closing parenthesis; `none` when there is no match. -/
def findEnumList : Str → Option Str
  | [] => none
  | c :: cs =>
    match (if enumClass c then
            (match cs with
             | 40 :: r => lazyGroup r
             | _ => none)
           else none) with
    | some g => some g
    | none => findEnumList cs

/-- Go `strings.FieldsFunc` with the separator test of `parseColumn` (a comma or a single
quote): the non-empty pieces between separators. `cur` is the piece being read. -/
def fieldsLoop (cur : Str) : Str → List Str
  | [] => if cur.isEmpty then [] else [cur]
  | c :: cs =>
    if c = 44 || c = 39 then
      (if cur.isEmpty then fieldsLoop [] cs else cur :: fieldsLoop [] cs)
    else fieldsLoop (cur ++ [c]) cs

def enumFields (s : Str) : List Str := fieldsLoop [] s

/-- What a call of `parseColumn` leaves behind: the schema and the message as they are on
return, and the error returned (`none` for `nil`). -/
structure Parsed where
  schema : Schema
  msg : Message
  err : Option Str
  deriving DecidableEq, Repr

/-- The error of an unmapped type. -/
def noCompatibleType (col : Column) : Str :=
  B "no compatible go type found for `" ++ col.DataType ++ B "`. column: `" ++ col.TableName
    ++ B "`.`" ++ col.ColumnName ++ B "`"

/-- The end of `parseColumn` (lines 1109-1119), after the switch has set `fieldType`. -/
def finishColumn (s : Schema) (msg : Message) (col : Column) (fieldType : Str) : Parsed :=
  if fieldType = [] then { schema := s, msg := msg, err := some (noCompatibleType col) }
  else
    { schema := s
      msg := msg.AppendField (NewMessageField fieldType col.ColumnName col.ColumnComment col.ColumnName)
      err := none }

/-- `parseColumn`; `none` is the fault of indexing the empty match of the enum pattern. -/
def parseColumn (toLower toUpper : Str → Str) (s : Schema) (msg : Message) (col : Column) :
    Option Parsed :=
  let typ := toLower col.DataType
  if typ ∈ [B "char", B "varchar", B "text", B "longtext", B "mediumtext", B "tinytext"] then
    some (finishColumn s msg col (B "string"))
  else if typ ∈ [B "enum", B "set"] then
    match findEnumList col.ColumnType with
    | none => none
    | some group =>
      let enumName : Str := []
      match newEnumFromStrings toUpper enumName col.ColumnComment (enumFields group) with
      | .error err => some { schema := s, msg := msg, err := some err }
      | .ok enum => some (finishColumn { s with Enums := s.Enums ++ [enum] } msg col enumName)
  else if typ ∈ [B "blob", B "mediumblob", B "longblob", B "varbinary", B "binary"] then
    some (finishColumn s msg col (B "bytes"))
  else if typ ∈ [B "date", B "time", B "datetime", B "timestamp"] then
    some (finishColumn s msg col (B "int64"))
  else if typ = B "bool" then
    some (finishColumn s msg col (B "bool"))
  else if typ ∈ [B "tinyint", B "smallint", B "int", B "mediumint", B "bigint"] then
    some (finishColumn s msg col (B "int64"))
  else if typ = B "decimal" then
    some (finishColumn s msg col (B "string"))
  else if typ = B "double" then
    some (finishColumn s msg col (B "float64"))
  else if typ = B "float" then
    some (finishColumn s msg col (B "float64"))
  else
    some (finishColumn s msg col [])


/-! ## Column mode: grouping the columns -/

/-- The constant `synatx`. -/
def synatx : Str := B "v1"

/-- The map `messageMap` of `typesFromColumns`, its keys in the order they were added. -/
abbrev MessageMap := List (Str × Message)

/-- The message held under a key. -/
def mapGet (key : Str) : MessageMap → Option Message
  | [] => none
  | (k, m) :: rest => if k = key then some m else mapGet key rest

/-- The map once the message under a key is replaced (the map holds pointers, and
`parseColumn` writes through the pointer). -/
def mapSet (key : Str) (msg : Message) (mm : MessageMap) : MessageMap :=
  mm.map (fun p => if p.1 = key then (p.1, msg) else p)

/-- The state the column loop of `typesFromColumns` leaves behind. -/
structure ColumnsRun where
  schema : Schema
  messageMap : MessageMap
  err : Option Str
  deriving DecidableEq, Repr

/-- The loop over the columns (lines 204-222); `none` is a fault inside `parseColumn`. -/
def typesFromColumnsLoop (snakeToCamel toLower toUpper : Str → Str) (ignoreTables : List Str) :
    Schema → MessageMap → List Column → Option ColumnsRun
  | s, mm, [] => some { schema := s, messageMap := mm, err := none }
  | s, mm, c :: cs =>
    if c.TableName ∈ ignoreTables then
      typesFromColumnsLoop snakeToCamel toLower toUpper ignoreTables s mm cs
    else
      let messageName := snakeToCamel c.TableName
      let mm1 :=
        match mapGet messageName mm with
        | some _ => mm
        | none => mm ++ [(messageName, { Name := messageName, Comment := c.TableComment, Fields := [] })]
      let msg := (mapGet messageName mm1).getD
        { Name := messageName, Comment := c.TableComment, Fields := [] }
      match parseColumn toLower toUpper s msg c with
      | none => none
      | some p =>
        match p.err with
        | some e => some { schema := p.schema, messageMap := mapSet messageName p.msg mm1, err := some e }
        | none =>
          typesFromColumnsLoop snakeToCamel toLower toUpper ignoreTables p.schema
            (mapSet messageName p.msg mm1) cs

/-- What a call of an extractor leaves behind: the schema as it is on return and the error
returned (`none` for `nil`). -/
structure Extracted where
  schema : Schema
  err : Option Str
  deriving DecidableEq, Repr

/-- `typesFromColumns`. The order in which `range messageMap` visits the messages is not
fixed by the language: `enumerate` is that order, applied to the messages of the map.
`none` is a fault. -/
def typesFromColumns (snakeToCamel toLower toUpper : Str → Str)
    (enumerate : List Message → List Message) (s : Schema) (cols : List Column)
    (ignoreTables : List Str) : Option Extracted :=
  match typesFromColumnsLoop snakeToCamel toLower toUpper ignoreTables s [] cols with
  | none => none
  | some r =>
    match r.err with
    | some e => some { schema := r.schema, err := some e }
    | none =>
      some { schema := { r.schema with
                          Messages := r.schema.Messages ++ enumerate (r.messageMap.map Prod.snd) }
             err := none }

/-- Go `a < b` on strings: the order of the bytes, a proper prefix first. -/
def strLt : Str → Str → Bool
  | [], [] => false
  | [], _ :: _ => true
  | _ :: _, [] => false
  | a :: as, b :: bs => a < b || (a = b && strLt as bs)

/-- `MessageCollection.Less`, on the two messages it indexes. -/
def MessageCollection.Less (a b : Message) : Bool := strLt a.Name b.Name

/-- `EnumCollection.Less`, on the two enums it indexes. -/
def EnumCollection.Less (a b : Enum) : Bool := strLt a.Name b.Name

/-- `GenerateSchema` from the answer of the database on: `columns` is what `dbSchema` and
`dbColumns` return, `sortImports`, `sortMessages` and `sortEnums` are `sort.Sort` on the
three collections. `none` is a fault. -/
def GenerateSchema (snakeToCamel toLower toUpper : Str → Str)
    (enumerate : List Message → List Message) (sortImports : List Str → List Str)
    (sortMessages : List Message → List Message) (sortEnums : List Enum → List Enum)
    (columns : Except Str (List Column)) (ignoreTables : List Str) (serviceName dir : Str) :
    Option (Except Str Schema) :=
  match columns with
  | .error e => some (.error e)
  | .ok cols =>
    if cols.length = 0 then some (.error (B "no columns to genertor!!!"))
    else
      let s : Schema :=
        { Syntax := synatx, ServiceName := serviceName, Dir := dir, Imports := [], Messages := [],
          CusMessages := [], Enums := [], GenerateCurdMethod := [] }
      match typesFromColumns snakeToCamel toLower toUpper enumerate s cols ignoreTables with
      | none => none
      | some r =>
        match r.err with
        | some e => some (.error e)
        | none =>
          some (.ok { r.schema with
            Imports := sortImports r.schema.Imports
            Messages := sortMessages r.schema.Messages
            Enums := sortEnums r.schema.Enums })

/-! ## Definition-block mode -/

/-- The end of a run that may fault or never end. -/
inductive Run (α : Type) where
  | done (a : α)
  | fault
  | diverges
  deriving DecidableEq, Repr

/-- Go `strings.Replace(s, "//", "", -1)`. -/
def removeSlashes : Str → Str
  | [] => []
  | [c] => [c]
  | c :: d :: r =>
    if c = 47 ∧ d = 47 then removeSlashes r
    else c :: removeSlashes (d :: r)

/-- Go `strings.Split(s, sep)` for a one-byte separator. -/
def splitByte (sep : Nat) : Str → List Str
  | [] => [[]]
  | c :: cs =>
    if c = sep then [] :: splitByte sep cs
    else
      match splitByte sep cs with
      | [] => [[c]]
      | l :: ls => (c :: l) :: ls

/-- The inner loop of the directive scan (lines 130-139): every read up to the one that
contains `Struct Gen End` gives a name; the error of the read is ignored, so at end of
file the loop reads the empty string for ever. -/
def directiveNames : List Str → Run (List Str × List Str)
  | [] => .diverges
  | line :: rest =>
    if Contains line (B "Struct Gen End") then .done ([], rest)
    else
      match directiveNames rest with
      | .done r => .done (TrimSpace (removeSlashes line) :: r.1, r.2)
      | .fault => .fault
      | .diverges => .diverges

/-- The directive scan (lines 118-142): the names listed and the reads left. The read that
comes with `io.EOF` ends the outer loop before it is looked at. -/
def directiveScan : List Str → Run (List Str × List Str)
  | [] => .done ([], [])
  | line :: rest =>
    if rest.isEmpty then .done ([], [])
    else if Contains line (B "Api Struct Gen") then directiveNames rest
    else directiveScan rest

/-- The field of one line of a message block (lines 170-182), `some none` when the line is
skipped, `none` when an index is out of range. -/
def protoField (camelToSnake : Str → Str) (line : Str) : Option (Option MessageField) :=
  let i2 := splitByte 32 line
  let repeated : Bool := i2.length = 8 && i2[2]? == some (B "repeated")
  let n := if repeated then 3 else 2
  let i2 := if repeated then i2.set 3 (B "[]*" ++ i2.getD 3 []) else i2
  if i2.length < 7 then some none
  else
    match i2[n]? with
    | none => none
    | some typ =>
      if Contains typ (B "//") then some none
      else
        match i2[n + 1]?, i2[n + 4]? with
        | some name, some comment =>
          some (some (NewMessageField typ name (removeSlashes comment) (camelToSnake name)))
        | _, _ => none

/-- The field loop (lines 169-185) over the lines of a block between its first and its
last. -/
def protoFields (camelToSnake : Str → Str) : List Str → Option (List MessageField)
  | [] => some []
  | line :: rest =>
    match protoField camelToSnake line, protoFields camelToSnake rest with
    | some (some f), some fs => some (f :: fs)
    | some none, some fs => some fs
    | _, _ => none

/-- The loop over the listed names (lines 152-188). `find v text` is element 0 of
`regexp.MustCompile("message " + v + "[\s]*{[^}]+}").FindStringSubmatch(text)`, `none` when
there is no match: the code then indexes an empty slice. -/
def protoMessages (find : Str → Str → Option Str) (snakeToCamel camelToSnake : Str → Str)
    (text : Str) : List Message → List Str → Option (List Message)
  | acc, [] => some acc
  | acc, v :: vs =>
    match find v text with
    | none => none
    | some block =>
      if block = [] then protoMessages find snakeToCamel camelToSnake text acc vs
      else
        match protoFields camelToSnake (splitByte 10 block).tail.dropLast with
        | none => none
        | some fields =>
          protoMessages find snakeToCamel camelToSnake text
            (acc ++ [{ Name := snakeToCamel v, Comment := [], Fields := fields }]) vs

/-- `typesFromProto` on the text of the proto file: the schema it leaves behind (it returns
no error once the file is open). -/
def typesFromProto (find : Str → Str → Option Str) (snakeToCamel camelToSnake : Str → Str)
    (s : Schema) (file : Str) : Run Schema :=
  match directiveScan (reads file) with
  | .fault => .fault
  | .diverges => .diverges
  | .done scan =>
    match protoMessages find snakeToCamel camelToSnake scan.2.flatten s.CusMessages scan.1 with
    | none => .fault
    | some msgs => .done { s with CusMessages := msgs }

/-- `GenerateProtoType`; `s` is `none` for a nil schema and `proto` is `none` when the file
cannot be opened (the error is printed and the schema returned as it is). -/
def GenerateProtoType (find : Str → Str → Option Str) (snakeToCamel camelToSnake : Str → Str)
    (sortImports : List Str → List Str) (sortMessages : List Message → List Message)
    (sortEnums : List Enum → List Enum) (s : Option Schema) (serviceName : Str)
    (proto : Option Str) (dir : Str) : Run Schema :=
  let s0 : Schema := s.getD
    { Syntax := [], ServiceName := [], Dir := dir, Imports := [], Messages := [],
      CusMessages := [], Enums := [], GenerateCurdMethod := [] }
  let s1 : Schema := { s0 with Syntax := synatx, ServiceName := serviceName }
  let sorted (x : Schema) : Schema :=
    { x with Imports := sortImports x.Imports, Messages := sortMessages x.Messages
             Enums := sortEnums x.Enums }
  match proto with
  | none => .done (sorted s1)
  | some file =>
    match typesFromProto find snakeToCamel camelToSnake s1 file with
    | .done s2 => .done (sorted s2)
    | .fault => .fault
    | .diverges => .diverges

/-- The pattern `message <name>[\s]*{[^}]+}` at the start of a text, for a name that
stands for itself in a pattern (letters, digits, underscores): what follows the name. -/
def blockAfterName : Str → Option Str
  | [] => none
  | c :: cs =>
    if c = 9 ∨ c = 10 ∨ c = 12 ∨ c = 13 ∨ c = 32 then (blockAfterName cs).map (fun b => c :: b)
    else if c = 123 then
      let body := cs.takeWhile (fun x => x ≠ 125)
      if body.isEmpty then none
      else if (cs.drop body.length).head? = some 125 then some (123 :: (body ++ [125]))
      else none
    else none

/-- The leftmost match of the pattern `message <name>[\s]*{[^}]+}` in a text, for a name
that stands for itself in a pattern. -/
def findMessageBlock (name : Str) : Str → Option Str
  | [] => none
  | c :: cs =>
    match (if (B "message " ++ name).isPrefixOf (c :: cs) then
            (blockAfterName ((c :: cs).drop (B "message " ++ name).length)).map
              (fun b => B "message " ++ name ++ b)
           else none) with
    | some b => some b
    | none => findMessageBlock name cs

/-! ## Definition-block mode: the directive scan, step by step -/

/-- `bufio.Reader.ReadString` on the reads that are left: the next read; once the file is
exhausted every further call returns the empty string (with `io.EOF`). -/
def readString : List Str → Str × List Str
  | [] => ([], [])
  | l :: ls => (l, ls)

/-- The inner loop of the directive scan (lines 130-139) run for at most `fuel` iterations
from the reads that are left and the names collected so far: `.ok` is the state at
`break Loop`, `.error` holds the names collected when the iterations are used up. -/
def directiveNamesFuel : Nat → List Str → List Str → Except (List Str) (List Str × List Str)
  | 0, _, strs => .error strs
  | fuel + 1, rs, strs =>
    if Contains (readString rs).1 (B "Struct Gen End") then .ok (strs, (readString rs).2)
    else
      directiveNamesFuel fuel (readString rs).2
        (strs ++ [TrimSpace (removeSlashes (readString rs).1)])

end Apigen

/-!
# go-zero-rrzu: the logic generator (`tools/goctl/rpc/generator/genlogic.go`)

The naming-convention dispatch of `genLogicFunction` and the primary-key lookup. The
functions of other packages are parameters: `camelCase` for `parser.CamelCase`, `toLower`
for `strings.ToLower`, `title` for `strings.Title`; the database is the function `queryRow`
from the table name to what the query and its `Scan` do.
-/

namespace Generator

open Apigen

/-- Go `strings.Replace(s, old, "", 1)`: the first occurrence of `old` removed. -/
def removeFirst (old : Str) : Str → Str
  | [] => []
  | c :: cs => if old.isPrefixOf (c :: cs) then (c :: cs).drop old.length else c :: removeFirst old cs

/-- The template `text` holds after the switch of `genLogicFunction`: the one loaded by
`pathx.LoadTemplate` or one of the five curd templates, named as the constants are. -/
inductive LogicTemplate where
  | loaded
  | CreateLogic
  | DeleteLogic
  | QueryDetailLogic
  | QueryLogic
  | UpdateLogic
  deriving DecidableEq, Repr

/-- What the switch of `genLogicFunction` sets: the template, the model name and the three
flags of `genLogic`. -/
structure Dispatch where
  text : LogicTemplate
  modelName : Str
  HasSqlc : Bool
  HasUtil : Bool
  HasModel : Bool
  deriving DecidableEq, Repr

/-- The switch of `genLogicFunction` (lines 176-205) on the name and the request type of
the rpc. -/
def genLogicFunction (camelCase : Str → Str) (rpcName requestType : Str) : Dispatch :=
  if camelCase rpcName = B "Create" ++ camelCase requestType then
    { text := .CreateLogic, modelName := camelCase requestType, HasSqlc := true, HasUtil := false,
      HasModel := true }
  else if camelCase rpcName = B "Delete" ++ camelCase requestType then
    { text := .DeleteLogic, modelName := camelCase requestType, HasSqlc := false, HasUtil := false,
      HasModel := true }
  else if camelCase rpcName
      = B "Query" ++ removeFirst (B "Filter") (camelCase requestType) ++ B "Detail" then
    { text := .QueryDetailLogic, modelName := removeFirst (B "Filter") (camelCase requestType),
      HasSqlc := false, HasUtil := false, HasModel := true }
  else if camelCase rpcName
      = B "Query" ++ removeFirst (B "Filter") (camelCase requestType) ++ B "List" then
    { text := .QueryLogic, modelName := removeFirst (B "Filter") (camelCase requestType),
      HasSqlc := false, HasUtil := true, HasModel := true }
  else if camelCase rpcName = B "Update" ++ camelCase requestType then
    { text := .UpdateLogic, modelName := camelCase requestType, HasSqlc := true, HasUtil := true,
      HasModel := true }
  else
    { text := .loaded, modelName := [], HasSqlc := false, HasUtil := false, HasModel := false }

/-- The loop of `snakeString` from index `i` on; `j` tells whether a byte other than an
underscore has been seen. -/
def snakeLoop : Nat → Bool → Str → Str
  | _, _, [] => []
  | i, j, d :: ds =>
    (if i > 0 ∧ 65 ≤ d ∧ d ≤ 90 ∧ j = true then [95] else [])
      ++ d :: snakeLoop (i + 1) (j || decide (d ≠ 95)) ds

def snakeString (toLower : Str → Str) (s : Str) : Str :=
  toLower (snakeLoop 0 false s)

/-- Go `strings.Replace(s, old, new, -1)` for one-byte `old` and `new`. -/
def replaceByte (old new : Nat) (s : Str) : Str :=
  s.map (fun c => if c = old then new else c)

def camel (title : Str → Str) (name : Str) : Str :=
  (title (replaceByte 95 32 name)).filter (fun c => c ≠ 32)

/-- What `GetDb().QueryRow(...).Scan(...)` does: it fills the key with a row, returns an
error (no row, a scan or a connection error), or panics. -/
inductive Lookup where
  | row (columnName dataType : Str)
  | failed (err : Str)
  | panics
  deriving DecidableEq, Repr

/-- The three results of `getPrimaryKey`. -/
structure PrimaryKey where
  camels : Str
  mark : Str
  err : Option Str
  deriving DecidableEq, Repr

/-- `getPrimaryKey`. The deferred function calls `recover()` and then tests `err`: a panic
is stopped while `err` is still `nil`, so the results are the zero values; an error
returned by `Scan` is replaced by the error the deferred function builds. -/
def getPrimaryKey (toLower title : Str → Str) (queryRow : Str → Lookup) (modelName : Str) :
    PrimaryKey :=
  match queryRow (snakeString toLower modelName) with
  | .panics => { camels := [], mark := [], err := none }
  | .failed _ => { camels := [], mark := [], err := some (B "getPrimaryKey recover<nil>") }
  | .row columnName dataType =>
    { camels := camel title columnName
      mark := if dataType ∈ [B "char", B "varchar", B "text", B "longtext", B "mediumtext",
                 B "tinytext"] then B "\"\"" else B "0"
      err := none }

/-- The key name and the zero-value literal `genLogicInCompatibility` (lines 51-55) and
`genLogicGroup` (lines 111-115) bind into the template. -/
def primaryKeyBinding (camelCase toLower title : Str → Str) (queryRow : Str → Lookup)
    (requestType : Str) : Str × Str :=
  let pk := getPrimaryKey toLower title queryRow (removeFirst (B "Filter") (camelCase requestType))
  if pk.err.isSome then (B "Id", B "0") else (pk.camels, pk.mark)

/-! ## Notions of the specification -/

/-- The classes of an endpoint. -/
inductive Kind where
  | Create
  | Delete
  | QueryDetail
  | QueryList
  | Update
  | Unclassified
  deriving DecidableEq, Repr

/-- The class a template stands for. -/
def LogicTemplate.kind : LogicTemplate → Kind
  | .loaded => .Unclassified
  | .CreateLogic => .Create
  | .DeleteLogic => .Delete
  | .QueryDetailLogic => .QueryDetail
  | .QueryLogic => .QueryList
  | .UpdateLogic => .Update

/-- The dispatch rule as the specification states it: every pattern is built on the request
type name without its first `Filter`. -/
def classifyStripped (e r : Str) : Kind :=
  if e = B "Create" ++ removeFirst (B "Filter") r then .Create
  else if e = B "Delete" ++ removeFirst (B "Filter") r then .Delete
  else if e = B "Query" ++ removeFirst (B "Filter") r ++ B "Detail" then .QueryDetail
  else if e = B "Query" ++ removeFirst (B "Filter") r ++ B "List" then .QueryList
  else if e = B "Update" ++ removeFirst (B "Filter") r then .Update
  else .Unclassified

/-- The dispatch rule with the create, delete and update patterns built on the whole
request type name. -/
def classify (e r : Str) : Kind :=
  if e = B "Create" ++ r then .Create
  else if e = B "Delete" ++ r then .Delete
  else if e = B "Query" ++ removeFirst (B "Filter") r ++ B "Detail" then .QueryDetail
  else if e = B "Query" ++ removeFirst (B "Filter") r ++ B "List" then .QueryList
  else if e = B "Update" ++ r then .Update
  else .Unclassified

/-- Go `strings.Title` on ASCII text. Modelled from the Go standard library: a byte is
mapped to upper case when the byte before it is a separator, the start of the text counting
as one; ASCII letters, digits and the underscore are not separators, every other ASCII byte
is. -/
def titleLoop (prev : Nat) : Str → Str
  | [] => []
  | c :: cs =>
    (if (48 ≤ prev ∧ prev ≤ 57) ∨ (97 ≤ prev ∧ prev ≤ 122) ∨ (65 ≤ prev ∧ prev ≤ 90) ∨ prev = 95
      then c
      else if 97 ≤ c ∧ c ≤ 122 then c - 32 else c) :: titleLoop c cs

def asciiTitle (s : Str) : Str := titleLoop 32 s

/-- The text is ASCII. -/
def isAscii (s : Str) : Bool := s.all (fun c => c < 128)

/-- The text is made of ASCII letters, digits and underscores. -/
def isIdentifier (s : Str) : Bool :=
  s.all (fun c => (48 ≤ c ∧ c ≤ 57) ∨ (97 ≤ c ∧ c ≤ 122) ∨ (65 ≤ c ∧ c ≤ 90) ∨ c = 95)

/-- The text with an underscore before each upper-case letter `A`-`Z` that is not at index
0 and has a byte other than the underscore somewhere before it. -/
def withUnderscores (s : Str) : Str :=
  s.enum.flatMap (fun p =>
    (if p.1 ≠ 0 ∧ 65 ≤ p.2 ∧ p.2 ≤ 90 ∧ (s.take p.1).any (fun c => c ≠ 95) then [95] else [])
      ++ [p.2])

/-- A word of an upper-camel name: an upper-case letter followed by bytes that are not
upper-case letters. -/
def isCamelWord : Str → Bool
  | [] => false
  | c :: cs => (65 ≤ c ∧ c ≤ 90) && cs.all (fun d => ¬ (65 ≤ d ∧ d ≤ 90))

/-- A word with its first letter capitalised. -/
def capitalise : Str → Str
  | [] => []
  | c :: cs => (if 97 ≤ c ∧ c ≤ 122 then c - 32 else c) :: cs

/-- A column name with its underscores removed and the first letter of each
underscore-separated word capitalised. -/
def keyName (columnName : Str) : Str := (splitByte 95 columnName).flatMap capitalise

/-- The zero-value literal of a native type. -/
def zeroLiteral (dataType : Str) : Str :=
  if dataType ∈ [B "char", B "varchar", B "text", B "longtext", B "mediumtext", B "tinytext"]
  then B "\"\"" else B "0"

/-- The five cases of the switch of `genLogicFunction`: the pattern and what the case
sets. -/
def switchCases (camelCase : Str → Str) (requestType : Str) : List (Str × Dispatch) :=
  [(B "Create" ++ camelCase requestType,
      { text := .CreateLogic, modelName := camelCase requestType, HasSqlc := true,
        HasUtil := false, HasModel := true }),
   (B "Delete" ++ camelCase requestType,
      { text := .DeleteLogic, modelName := camelCase requestType, HasSqlc := false,
        HasUtil := false, HasModel := true }),
   (B "Query" ++ removeFirst (B "Filter") (camelCase requestType) ++ B "Detail",
      { text := .QueryDetailLogic, modelName := removeFirst (B "Filter") (camelCase requestType),
        HasSqlc := false, HasUtil := false, HasModel := true }),
   (B "Query" ++ removeFirst (B "Filter") (camelCase requestType) ++ B "List",
      { text := .QueryLogic, modelName := removeFirst (B "Filter") (camelCase requestType),
        HasSqlc := false, HasUtil := true, HasModel := true }),
   (B "Update" ++ camelCase requestType,
      { text := .UpdateLogic, modelName := camelCase requestType, HasSqlc := true,
        HasUtil := true, HasModel := true })]

/-- A switch over a list of cases taken in the order of the list: the first case whose
pattern is the name decides; without a match the loaded template stays. -/
def firstMatch (e : Str) (cases : List (Str × Dispatch)) : Dispatch :=
  ((cases.find? (fun c => e = c.1)).map Prod.snd).getD
    { text := .loaded, modelName := [], HasSqlc := false, HasUtil := false, HasModel := false }

end Generator

namespace Apigen

/-! ## Notions of the specification -/

/-- The reads that follow the first read containing the marker (none when no read
contains it). -/
def afterFirst (marker : Str) : List Str → List Str
  | [] => []
  | l :: r => if Contains l marker then r else afterFirst marker r

/-- The reads up to and including the first read containing the marker (all of them when
no read contains it). -/
def throughFirst (marker : Str) : List Str → List Str
  | [] => []
  | l :: r => if Contains l marker then [l] else l :: throughFirst marker r

/-- Each sentinel in turn is found on a newline-terminated line, that is on a read that
is not the last one. -/
def sentinelsInOrder : List Str → List Str → Bool
  | [], _ => true
  | m :: ms, rs => !(afterFirst m rs).isEmpty && sentinelsInOrder ms (afterFirst m rs)

/-- A well-formed params artifact: all sentinel lines present in order, each on its own
newline-terminated line. -/
def wellFormedParams (file : Str) : Bool :=
  sentinelsInOrder
    [B "Already Exist Table", B "Exist Table End", B "Proto Customize Type",
     B "Customize Type End", B "Type Record End"] (reads file)

/-- The reads of a params artifact after its `Customize Type End` sentinel. -/
def afterRegistries (file : Str) : List Str :=
  afterFirst (B "Customize Type End") (afterFirst (B "Proto Customize Type")
    (afterFirst (B "Exist Table End") (afterFirst (B "Already Exist Table") (reads file))))

/-- The lines of the type-body region: after the `Customize Type End` sentinel, before the
first line containing `Type Record End`. -/
def typeBodyReads (file : Str) : List Str :=
  (afterRegistries file).takeWhile (fun l => !Contains l (B "Type Record End"))

/-- The lines of a params artifact that precede the `Type Record End` line of its type-body
region. -/
def readsBeforeRecordEnd (file : Str) : List Str :=
  throughFirst (B "Already Exist Table") (reads file)
    ++ throughFirst (B "Exist Table End") (afterFirst (B "Already Exist Table") (reads file))
    ++ throughFirst (B "Proto Customize Type")
        (afterFirst (B "Exist Table End") (afterFirst (B "Already Exist Table") (reads file)))
    ++ throughFirst (B "Customize Type End")
        (afterFirst (B "Proto Customize Type")
          (afterFirst (B "Exist Table End") (afterFirst (B "Already Exist Table") (reads file))))
    ++ typeBodyReads file

/-- The lines of the table registry: between the `Already Exist Table` header and the
`Exist Table End` sentinel. -/
def tableRegistryLines (file : Str) : List Str :=
  (afterFirst (B "Already Exist Table") (reads file)).takeWhile
    (fun l => !Contains l (B "Exist Table End"))

/-- The entries of the table registry: its lines without their first three bytes. -/
def tableRegistry (file : Str) : List Str :=
  (tableRegistryLines file).map (List.drop 3)

/-- The lines of the custom-type registry: between the `Proto Customize Type` header and
the `Customize Type End` sentinel. -/
def customRegistryLines (file : Str) : List Str :=
  (afterFirst (B "Proto Customize Type")
    (afterFirst (B "Exist Table End") (afterFirst (B "Already Exist Table") (reads file)))).takeWhile
    (fun l => !Contains l (B "Customize Type End"))

/-- The entries of the custom-type registry: its lines without their first three bytes. -/
def customRegistry (file : Str) : List Str :=
  (customRegistryLines file).map (List.drop 3)

/-- The entry names of a registry: each line without its first three bytes and without the
white space around what is left. -/
def entryNames (registry : List Str) : List Str :=
  registry.map (fun l => TrimSpace (l.drop 3))

/-- The messages whose name is not among the entry names, in model order. -/
def newMessages (names : List Str) (msgs : List Message) : List Message :=
  msgs.filter (fun m => decide (TrimSpace m.Name ∉ names))

/-- A newline-terminated line: a newline at the end and nowhere else. -/
def isLine (l : Str) : Bool :=
  l.getLast? == some 10 && !l.dropLast.contains 10

/-- The sentinel texts of the params artifact. -/
def sentinelTexts : List Str :=
  [B "Already Exist Table", B "Exist Table End", B "Proto Customize Type",
   B "Customize Type End", B "Type Record End"]

/-- A text with no newline and no sentinel text. -/
def plain (x : Str) : Bool :=
  !x.contains 10 && sentinelTexts.all (fun p => !Contains x p)

/-- The names and comments of a schema contain no newline and no sentinel text. -/
def namesAndCommentsPlain (s : Schema) : Bool :=
  (s.Messages ++ s.CusMessages).all (fun m =>
    plain m.Name && plain m.Comment && m.Fields.all (fun f => plain f.Name && plain f.Comment))

/-- The texts of a field that reach the artifact are plain: the camel-cased name, also with
its first letter upper-cased, the type, the column name and the comment. -/
def fieldPlain (camel : Str → Str) (f : MessageField) : Bool :=
  plain (camel f.Name) && plain (FirstUpper (camel f.Name)) && plain f.Typ
    && plain f.ColumnName && plain f.Comment

/-- The texts of a message that reach the artifact are plain: the name, also with its first
letter upper-cased, the comment and the texts of the fields. -/
def messagePlain (camel : Str → Str) (m : Message) : Bool :=
  plain m.Name && plain (FirstUpper m.Name) && plain m.Comment && m.Fields.all (fieldPlain camel)

/-- Every text of the schema that reaches the params artifact is plain. -/
def schemaPlain (camel : Str → Str) (s : Schema) : Bool :=
  s.Messages.all (messagePlain camel) && s.CusMessages.all (messagePlain camel)

/-- The type-mapping table as the specification lists it: native type, mapped type. -/
def typeTable : List (Str × Str) :=
  [(B "char", B "string"), (B "varchar", B "string"), (B "text", B "string"),
   (B "longtext", B "string"), (B "mediumtext", B "string"), (B "tinytext", B "string"),
   (B "blob", B "bytes"), (B "mediumblob", B "bytes"), (B "longblob", B "bytes"),
   (B "varbinary", B "bytes"), (B "binary", B "bytes"),
   (B "date", B "int64"), (B "time", B "int64"), (B "datetime", B "int64"),
   (B "timestamp", B "int64"),
   (B "bool", B "bool"),
   (B "tinyint", B "int64"), (B "smallint", B "int64"), (B "int", B "int64"),
   (B "mediumint", B "int64"), (B "bigint", B "int64"),
   (B "decimal", B "string"),
   (B "double", B "float64"), (B "float", B "float64")]

/-- The native types the switch of `parseColumn` has a case for. -/
def vocabulary : List Str := B "enum" :: B "set" :: typeTable.map Prod.fst

/-- A type declaration of the params artifact: the line of the name with the opening brace,
the field lines and the line of the closing brace. -/
def typeDeclaration (name : Str) (fieldLines : List Str) : Str :=
  B "  " ++ name ++ B " \x7b\n" ++ fieldLines.flatMap (fun l => l ++ B "\n") ++ B "  \x7d\n"

/-- The line of a field with a `json` tag: the name, the type, the tag with the column name
and what follows the tag. -/
def fieldLine (name typ column after : Str) : Str :=
  B "    " ++ name ++ B "   " ++ typ ++ B "  `json:\"" ++ column ++ B "\"`" ++ after

/-- The fields the type of a message declares: the bookkeeping columns `version`,
`del_state` and `delete_time` are left out, the name is camel-cased and an empty comment
becomes the name. -/
def declaredFields (camel : Str → Str) (m : Message) : List MessageField :=
  (m.Fields.filter
      (fun f => decide (TrimSpace f.Name ∉ [B "version", B "del_state", B "delete_time"]))).map
    (fun f => { f with Name := camel f.Name
                       Comment := if f.Comment = [] then camel f.Name else f.Comment })

/-- The type-body block of a table message: the banner line with its comment, the opening
line `type (`, the type of the message and its five sibling types (Create-Resp, Update-Req,
Update-Resp, Query-Req, Query-Resp) and the closing line `)` with an empty line after it. -/
def tableBlock (camel : Str → Str) (m : Message) : Str :=
  B "//--------------------------------" ++ m.Comment ++ B "--------------------------------\n"
    ++ B "type (\n"
    ++ typeDeclaration m.Name ((declaredFields camel m).map (fun f =>
          fieldLine (FirstUpper f.Name) f.Typ f.ColumnName (B "  ; //" ++ f.Comment)))
    ++ B "\n\n"
    ++ typeDeclaration (B "Create" ++ FirstUpper m.Name ++ B "Resp")
        [B "    Id   int64  `json:\"id\"`   "]
    ++ B "\n"
    ++ typeDeclaration (B "Update" ++ FirstUpper m.Name ++ B "Req") (m.Fields.map (fun f =>
          fieldLine (FirstUpper (camel f.Name)) f.Typ f.ColumnName (B "   //" ++ f.Comment)))
    ++ B "\n"
    ++ typeDeclaration (B "Update" ++ FirstUpper m.Name ++ B "Resp")
        [B "    Id   int64  `json:\"id\"`   "]
    ++ B "\n"
    ++ typeDeclaration (B "Query" ++ FirstUpper m.Name ++ B "Req")
        [B "    Id   int64  `form:\"id,optional\"`   ",
         B "    PageNo   int64  `form:\"page_no,optional\"`   ",
         B "    PageSize   int64  `form:\"page_size,optional\"`   "]
    ++ B "\n"
    ++ typeDeclaration (B "Query" ++ FirstUpper m.Name ++ B "Resp")
        [fieldLine (m.Name ++ B "List") (B "[]" ++ FirstUpper m.Name)
           (FirstToLower m.Name ++ B "_list") (B "   "),
         B "    CurrPage   int64  `json:\"curr_page\"`   ",
         B "    TotalPage   int64  `json:\"total_page\"`   ",
         B "    TotalCount   int64  `json:\"total_count\"`   "]
    ++ B ")\n\n"

/-- The type-body block of a custom message: the banner line with its name, the opening line
`type (`, the type of the message and the closing line `)` with an empty line after it. -/
def customBlock (camel : Str → Str) (m : Message) : Str :=
  B "//--------------------------------customize_proto" ++ m.Name
    ++ B "--------------------------------\n"
    ++ B "type (\n"
    ++ typeDeclaration m.Name ((declaredFields camel m).map (fun f =>
          fieldLine (FirstUpper f.Name) f.Typ f.ColumnName (B "  ; //" ++ f.Comment)))
    ++ B "\n\n"
    ++ B ")\n\n"

/-! ## Auxiliary notions of the proofs -/

/-- No nonempty prefix of `sep` ends `pat`, no nonempty suffix of `sep` starts `pat`,
and neither contains the other: an occurrence of `pat` cannot touch `sep`. -/
def sepOK (pat sep : Str) : Bool :=
  !Contains sep pat && !Contains pat sep
    && sep.inits.all (fun p => p.isEmpty || !p.isSuffixOf pat)
    && sep.tails.all (fun v => v.isEmpty || !v.isPrefixOf pat)

/-- A newline-terminated line, as a proposition. -/
def IsLine (l : Str) : Prop := ∃ b, l = b ++ [10] ∧ 10 ∉ b

/-- The texts of a message that reach a block are free of the pattern. -/
def MsgFree (pat : Str) (camel : Str → Str) (m : Message) : Prop :=
  ¬ pat <:+: m.Comment ∧ ¬ pat <:+: m.Name ∧ ¬ pat <:+: FirstUpper m.Name
    ∧ ∀ f ∈ m.Fields, ¬ pat <:+: camel f.Name ∧ ¬ pat <:+: FirstUpper (camel f.Name)
        ∧ ¬ pat <:+: f.Typ ∧ ¬ pat <:+: f.ColumnName ∧ ¬ pat <:+: f.Comment

/-! ## Sample inputs -/

/-- `strings.ToLower` on ASCII text. -/
def asciiLower (s : Str) : Str := s.map (fun c => if 65 ≤ c ∧ c ≤ 90 then c + 32 else c)

/-- `strings.ToUpper` on ASCII text. -/
def asciiUpper (s : Str) : Str := s.map (fun c => if 97 ≤ c ∧ c ≤ 122 then c - 32 else c)

/-- A schema with no entity. -/
def emptySchema : Schema :=
  { Syntax := B "v1", ServiceName := B "svc", Dir := [], Imports := [], Messages := [],
    CusMessages := [], Enums := [], GenerateCurdMethod := [] }

/-- A message with one integer column. -/
def sampleMessage (name : String) : Message :=
  { Name := B name, Comment := B name
    Fields := [{ Typ := B "int64", Name := B "id", Comment := B "key", ColumnName := B "id" }] }

/-- The schema of the tables `A`, `B` and `C`. -/
def schemaABC : Schema :=
  { emptySchema with Messages := [sampleMessage "A", sampleMessage "B", sampleMessage "C"] }

/-- The schema of the table `A`. -/
def schemaA : Schema := { emptySchema with Messages := [sampleMessage "A"] }

/-- The fresh params artifact of the tables `A` and `B`. -/
def paramsAB : Str :=
  Schema.CreateParamString id { emptySchema with Messages := [sampleMessage "A", sampleMessage "B"] }

/-- A schema whose only message is named `type Record End`. -/
def schemaLowerSentinel : Schema :=
  { emptySchema with Messages := [{ Name := B "type Record End", Comment := B "c", Fields := [] }] }

/-- A schema whose only message has a field of type `Type Record End`. -/
def schemaSentinelType : Schema :=
  { emptySchema with
    Messages := [{ Name := B "A", Comment := B "a"
                   Fields := [{ Typ := B "Type Record End", Name := B "id", Comment := B "key",
                                ColumnName := B "id" }] }] }

/-- The fresh params artifact of the empty schema. -/
def paramsEmpty : Str := Schema.CreateParamString id emptySchema

/-- The schema of the table `A`, with other fields and another comment than
`sampleMessage`. -/
def schemaAChanged : Schema :=
  { emptySchema with
    Messages := [{ Name := B "A", Comment := B "changed upstream"
                   Fields := [{ Typ := B "string", Name := B "title", Comment := B "new column",
                                ColumnName := B "title" }] }] }

/-- A params artifact whose type body for `A` was edited by hand. -/
def paramsAEdited : Str :=
  B "syntax = \"v1\"\n\n// Already Exist Table:\n// A\n// Exist Table End\n\n"
    ++ B "// Proto Customize Type:\n// Customize Type End\n\n// Type Record Start\n"
    ++ B "type (\n  A \x7b\n    Id   int64  `json:\"id\"`  ; //key\n"
    ++ B "    Extra   string  `json:\"extra\"`  ; //added by hand\n  \x7d\n)\n\n"
    ++ B "// Type Record End\n"

/-- The lines of `paramsAB` up to its `Customize Type End` sentinel, and the rest. -/
def preAB : List Str := [B "syntax = \"v1\"\n", B "\n"]

def registryAB : List Str := [B "// A\n", B "// B\n"]

def restAB : Str :=
  B "\n// Type Record Start\n"
    ++ [sampleMessage "A", sampleMessage "B"].flatMap (fun m => messageBanner m ++ messageTypes id m)
    ++ B ")\n\n// Type Record End\n"

/-- A params artifact with text after its last sentinel. -/
def paramsTrailing : Str :=
  B "// Already Exist Table:\n// Exist Table End\n// Proto Customize Type:\n"
    ++ B "// Customize Type End\n// Type Record End\nkept by hand\n"

/-- A params artifact that ends inside its custom-type registry. -/
def paramsUnterminated : Str :=
  B "// Already Exist Table:\n// Exist Table End\n// Proto Customize Type:\n// X"

/-- A column of an enumerated type. -/
def enumColumn : Column :=
  { TableName := B "t", TableComment := [], ColumnName := B "kind", IsNullable := B "NO",
    DataType := B "enum", CharacterMaximumLength := none, NumericPrecision := none,
    NumericScale := none, ColumnType := B "enum('a','b')", ColumnComment := B "kinds" }

/-- A column of type `VARCHAR`. -/
def varcharColumn : Column :=
  { TableName := B "t", TableComment := [], ColumnName := B "title", IsNullable := B "NO",
    DataType := B "VARCHAR", CharacterMaximumLength := some 64, NumericPrecision := none,
    NumericScale := none, ColumnType := B "varchar(64)", ColumnComment := B "the title" }

/-- A column of type `geometry`. -/
def geometryColumn : Column :=
  { TableName := B "t", TableComment := [], ColumnName := B "shape", IsNullable := B "NO",
    DataType := B "geometry", CharacterMaximumLength := none, NumericPrecision := none,
    NumericScale := none, ColumnType := B "geometry", ColumnComment := B "the shape" }

/-- An empty message named `T`. -/
def emptyMessage : Message := { Name := B "T", Comment := [], Fields := [] }

/-- A schema whose message is named `A` followed by a space. -/
def schemaASpace : Schema :=
  { emptySchema with
    Messages := [{ Name := B "A ", Comment := B "a"
                   Fields := [{ Typ := B "int64", Name := B "id", Comment := B "key",
                                ColumnName := B "id" }] }] }

/-- The schema of the tables `A`, `B` and `C` and of the custom message `D`. -/
def schemaABCD : Schema := { schemaABC with CusMessages := [sampleMessage "D"] }

/-- What follows the registries of a params artifact whose type body was written by hand. -/
def restShort : Str :=
  B "\n// Type Record Start\ntype (\n  A \x7b\n  \x7d\n  B \x7b\n  \x7d\n)\n\n// Type Record End\n"

/-! ## Notions of the specification: enums and extraction -/


/-- The receiver of `Enum.AppendField` after the call: `e.Fields` is assigned only on the
path that returns `nil`. -/
def Enum.afterAppendField (e : Enum) (ef : EnumField) : Enum :=
  match e.AppendField ef with
  | .ok e1 => e1
  | .error _ => e

/-- The enum fields of a list of values: the value at index `j` gets the tag `i + j` and
the name of the value upper-cased, every maximal run of non-word bytes replaced by one
underscore. -/
def taggedFields (toUpper : Str → Str) : Nat → List Str → List EnumField
  | _, [] => []
  | i, s :: ss => { name := replaceNonWord (toUpper s), tag := (i : Int) } :: taggedFields toUpper (i + 1) ss

/-- The word characters: the ASCII letters, the digits and the underscore. -/
def wordCharacters : Str :=
  B "abcdefghijklmnopqrstuvwxyzABCDEFGHIJKLMNOPQRSTUVWXYZ0123456789_"

/-- A text with every maximal run of non-word characters replaced by one underscore: a word
character stays; a character that is not one gives an underscore when it starts a run, being
the first byte of the text or coming after a word character, and nothing otherwise. -/
def foldNonWord (s : Str) : Str :=
  s.enum.flatMap (fun p =>
    if p.2 ∈ wordCharacters then [p.2]
    else if p.1 = 0 ∨ s.getD (p.1 - 1) 0 ∈ wordCharacters then [95]
    else [])

/-- The mapped type of a native type in the type-mapping table; empty when the table has no
row for it. -/
def mappedType (native : Str) : Str :=
  ((typeTable.find? (fun p => p.1 = native)).map Prod.snd).getD []

/-- The field of a column: the mapped type of its lower-cased native type, the column name
as name and as column name, and the column comment. -/
def fieldOfColumn (toLower : Str → Str) (c : Column) : MessageField :=
  { Typ := mappedType (toLower c.DataType), Name := c.ColumnName, Comment := c.ColumnComment,
    ColumnName := c.ColumnName }

/-- The columns whose table is not in the ignore list. -/
def keptColumns (ignoreTables : List Str) (cols : List Column) : List Column :=
  cols.filter (fun c => c.TableName ∉ ignoreTables)

/-- The names of a list, each once, in the order of their first occurrence. -/
def firstSeen (ns : List Str) : List Str :=
  ns.foldl (fun seen n => if n ∈ seen then seen else seen ++ [n]) []

/-- The message of the group of a camel-cased table name: its comment is the table comment
of the first column of the group and its fields are the fields of the columns of the group,
in input order. -/
def tableGroup (snakeToCamel toLower : Str → Str) (kept : List Column) (n : Str) : Message :=
  { Name := n
    Comment := ((kept.find? (fun c => snakeToCamel c.TableName = n)).map Column.TableComment).getD []
    Fields := (kept.filter (fun c => snakeToCamel c.TableName = n)).map (fieldOfColumn toLower) }

/-- One message per distinct camel-cased table name, in first-seen order. -/
def tableGroups (snakeToCamel toLower : Str → Str) (kept : List Column) : List Message :=
  (firstSeen (kept.map (fun c => snakeToCamel c.TableName))).map
    (tableGroup snakeToCamel toLower kept)

/-- What `sort.Sort` guarantees for a `Less` that is a strict weak order: the result is a
rearrangement of the collection in which no element is less than an earlier one. -/
def SortsBy {α : Type} (less : α → α → Bool) (sort : List α → List α) : Prop :=
  ∀ l, (sort l).Perm l ∧ (sort l).Pairwise (fun a b => less b a = false)

/-- The schema `GenerateSchema` starts from. -/
def freshSchema (serviceName dir : Str) : Schema :=
  { Syntax := synatx, ServiceName := serviceName, Dir := dir, Imports := [], Messages := [],
    CusMessages := [], Enums := [], GenerateCurdMethod := [] }

/-! ## Auxiliary notions of the proofs: extraction -/

/-- The fold of non-word runs read from the left; `inRun` tells whether the byte before is
in a run, whose underscore is then already written. -/
def foldRuns : Bool → Str → Str
  | _, [] => []
  | inRun, c :: cs =>
    if c ∈ wordCharacters then c :: foldRuns false cs
    else (if inRun then [] else [95]) ++ foldRuns true cs

/-- The effect of one kept column of a mappable type on the map of `typesFromColumns`. -/
def addColumn (snakeToCamel toLower : Str → Str) (mm : MessageMap) (c : Column) : MessageMap :=
  mapSet (snakeToCamel c.TableName)
    (((mapGet (snakeToCamel c.TableName)
        (match mapGet (snakeToCamel c.TableName) mm with
         | some _ => mm
         | none => mm ++ [(snakeToCamel c.TableName,
              { Name := snakeToCamel c.TableName, Comment := c.TableComment, Fields := [] })])).getD
        { Name := snakeToCamel c.TableName, Comment := c.TableComment, Fields := [] }).AppendField
      (fieldOfColumn toLower c))
    (match mapGet (snakeToCamel c.TableName) mm with
     | some _ => mm
     | none => mm ++ [(snakeToCamel c.TableName,
          { Name := snakeToCamel c.TableName, Comment := c.TableComment, Fields := [] })])

/-- The map of `typesFromColumns` in closed form. -/
def groupMap (snakeToCamel toLower : Str → Str) (kept : List Column) : MessageMap :=
  (firstSeen (kept.map (fun c => snakeToCamel c.TableName))).map
    (fun n => (n, tableGroup snakeToCamel toLower kept n))

/-- The keys of a map are distinct and every message is held under its name. -/
def KeysOK (mm : MessageMap) : Prop :=
  (mm.map Prod.fst).Nodup ∧ ∀ p ∈ mm, p.2.Name = p.1

/-- Insertion sort by name, a sort that meets the guarantee of `sort.Sort`. -/
def sortByName {α : Type} (name : α → Str) (l : List α) : List α :=
  l.insertionSort (fun a b => strLt (name b) (name a) = false)

/-! ## Sample inputs of the extraction -/

/-- A second column of the table `t`. -/
def intColumn : Column :=
  { TableName := B "t", TableComment := B "later", ColumnName := B "id", IsNullable := B "NO",
    DataType := B "int", CharacterMaximumLength := none, NumericPrecision := some 10,
    NumericScale := some 0, ColumnType := B "int", ColumnComment := B "the key" }

/-- A column of the table `s`. -/
def otherColumn : Column :=
  { TableName := B "s", TableComment := B "the s", ColumnName := B "day", IsNullable := B "NO",
    DataType := B "date", CharacterMaximumLength := none, NumericPrecision := none,
    NumericScale := none, ColumnType := B "date", ColumnComment := B "the day" }

/-- A column of an ignored table. -/
def ignoredColumn : Column :=
  { TableName := B "log", TableComment := [], ColumnName := B "shape", IsNullable := B "NO",
    DataType := B "geometry", CharacterMaximumLength := none, NumericPrecision := none,
    NumericScale := none, ColumnType := B "geometry", ColumnComment := [] }

/-- A proto file whose directive lists the message `B` before the message `A`. -/
def protoListed : Str :=
  B "syntax = \"proto3\";\n// Api Struct Gen\n// B\n// A\n// Struct Gen End\n"
    ++ B "message A \x7b\n  int64 id = 1; // key\n\x7d\n"
    ++ B "message B \x7b\n  string name = 1; // label\n\x7d\n"

/-! ## Notions of the specification: rendering and definition blocks -/

/-- The banner line of a message in the service block. -/
def serviceBanner (m : Message) : Str :=
  B "\t//-----------------------" ++ m.Comment ++ B "----------------------- \n"

/-- The space-separated tokens of a line. -/
def tokens (line : Str) : List Str := splitByte 32 line

/-- A line with a `repeated` qualifier: eight tokens, token 2 being `repeated`. -/
def isRepeated (line : Str) : Bool :=
  (tokens line).length = 8 && (tokens line)[2]? == some (B "repeated")

/-- The position of the type token of a line. -/
def typeIndex (line : Str) : Nat := if isRepeated line then 3 else 2

/-- The lines of a text. -/
def textLines (text : Str) : List Str := splitByte 10 text

/-- Every opening line `type (` is closed by a line `)` before the next one opens, and
no line `)` comes without an opening line; `isOpen` tells whether a block is open. -/
def blocksBalanced : Bool → List Str → Bool
  | isOpen, [] => !isOpen
  | isOpen, l :: ls =>
    if l = B "type (" then (!isOpen && blocksBalanced true ls)
    else if l = B ")" then (isOpen && blocksBalanced false ls)
    else blocksBalanced isOpen ls

/-! ## Sample inputs of the rendering and of the definition blocks -/

/-- A schema with the two messages `A` and `B`. -/
def schemaAB : Schema :=
  { emptySchema with Messages := [sampleMessage "A", sampleMessage "B"] }

/-- A schema with the message `A` whose method subset is the one blank selector. -/
def schemaABlank : Schema := { schemaA with GenerateCurdMethod := [B " "] }

/-- A proto file whose directive lists the message `A` and a message `Missing` that the
file does not declare. -/
def protoMissing : Str :=
  B "syntax = \"proto3\";\n// Api Struct Gen\n// A\n// Missing\n// Struct Gen End\n"
    ++ B "message A \x7b\n  int64 id = 1; // key\n\x7d\n"

/-- A proto file whose block is indented by four spaces. -/
def protoIndented : Str :=
  B "syntax = \"proto3\";\n// Api Struct Gen\n// A\n// Struct Gen End\n"
    ++ B "message A \x7b\n    int64 id = 1; // key\n\x7d\n"

/-- A proto file with the opening marker of the directive section and no closing marker. -/
def protoUnended : Str :=
  B "syntax = \"proto3\";\n// Api Struct Gen\n// A\nmessage A \x7b\n  int64 id = 1; // key\n\x7d\n"

/-- Every field of the message has a non-empty type. -/
def Message.Typed (m : Message) : Prop := ∀ f ∈ m.Fields, f.Typ ≠ []

/-! # Properties -/

set_option maxRecDepth 30000

theorem Contains_iff (s sub : Str) : Contains s sub = true ↔ sub <:+: s := by
  induction s with
  | nil => simp [Contains]
  | cons c cs ih => simp [Contains, List.infix_cons_iff, ih]

theorem Contains_false_iff (s sub : Str) : Contains s sub = false ↔ ¬ sub <:+: s := by
  rw [← Contains_iff]; simp

theorem not_infix_append_sep {pat sep : Str} (h : sepOK pat sep = true) {a b : Str}
    (ha : ¬ pat <:+: a) (hb : ¬ pat <:+: b) : ¬ pat <:+: a ++ (sep ++ b) := by
  simp only [sepOK, Bool.and_eq_true, Bool.not_eq_true', Contains_false_iff, List.all_eq_true,
    Bool.or_eq_true, List.isEmpty_iff, List.mem_inits, List.mem_tails] at h
  obtain ⟨⟨⟨h1, h2⟩, h3⟩, h4⟩ := h
  rintro ⟨s, u, hsu⟩
  rw [List.append_assoc, List.append_eq_append_iff] at hsu
  rcases hsu with ⟨a', ha', hpu⟩ | ⟨c', hs, hsb⟩
  · -- the occurrence starts inside `a`
    rw [List.append_eq_append_iff] at hpu
    rcases hpu with ⟨x, hx, hy⟩ | ⟨p', hp, hq⟩
    · -- hx : a' = pat ++ x
      exact ha ⟨s, x, by rw [ha', hx, List.append_assoc]⟩
    · -- hp : pat = a' ++ p', hq : sep ++ b = p' ++ u
      rw [List.append_eq_append_iff] at hq
      rcases hq with ⟨y, hy, hz⟩ | ⟨z, hz, hw⟩
      · -- p' = sep ++ y
        exact h2 ⟨a', y, by rw [hp, hy, List.append_assoc]⟩
      · -- sep = p' ++ z
        rcases h3 p' ⟨z, hz.symm⟩ with h3 | h3
        · subst h3
          simp at hp
          exact ha ⟨s, [], by rw [ha', hp]; simp⟩
        · have h5 : p' <:+ pat := ⟨a', hp.symm⟩
          rw [← List.isSuffixOf_iff_suffix, h3] at h5
          exact Bool.noConfusion h5
  · -- the occurrence starts at or after `sep`
    rw [List.append_eq_append_iff] at hsb
    rcases hsb with ⟨x, hx, hy⟩ | ⟨v, hv, hw⟩
    · -- c' = sep ++ x
      exact hb ⟨x, u, by rw [hy]; simp⟩
    · -- sep = c' ++ v, pat ++ u = v ++ b
      rw [List.append_eq_append_iff] at hw
      rcases hw with ⟨y, hy, hz⟩ | ⟨z, hz, hw2⟩
      · -- v = pat ++ y
        exact h1 ⟨c', y, by rw [hv, hy, List.append_assoc]⟩
      · -- pat = v ++ z
        rcases h4 v ⟨c', hv.symm⟩ with h4 | h4
        · subst h4
          simp at hz
          exact hb ⟨[], u, by simp [hw2, hz]⟩
        · have h5 : v <+: pat := ⟨z, hz.symm⟩
          rw [← List.isPrefixOf_iff_prefix, h4] at h5
          exact Bool.noConfusion h5


theorem reads_ne_nil (s : Str) : reads s ≠ [] := by
  cases s with
  | nil => simp [reads]
  | cons c cs =>
    simp only [reads]
    split
    · simp
    · split <;> simp

theorem reads_line_append {l : Str} (hl : IsLine l) (t : Str) : reads (l ++ t) = l :: reads t := by
  obtain ⟨b, rfl, hb⟩ := hl
  induction b with
  | nil => simp [reads]
  | cons c cs ih =>
    have hc : c ≠ 10 := by intro h; apply hb; simp [h]
    have hcs : 10 ∉ cs := by intro h; apply hb; simp [h]
    have := ih hcs
    simp only [List.cons_append, List.append_assoc, List.singleton_append, List.nil_append] at this ⊢
    simp [reads, hc, this]

theorem reads_lines_append {ls : List Str} (hls : ∀ l ∈ ls, IsLine l) (t : Str) :
    reads (ls.flatten ++ t) = ls ++ reads t := by
  induction ls with
  | nil => simp
  | cons l ls ih =>
    have h1 := ih (fun x hx => hls x (by simp [hx]))
    simp only [List.flatten_cons, List.append_assoc, List.cons_append]
    rw [reads_line_append (hls l (by simp)), h1]

/-- Every file is its newline-terminated lines followed by an unterminated remainder, and
`reads` returns exactly these. -/
theorem reads_spec (s : Str) :
    ∃ ls last, reads s = ls ++ [last] ∧ (∀ l ∈ ls, IsLine l) ∧ 10 ∉ last ∧ s = ls.flatten ++ last := by
  induction s with
  | nil => exact ⟨[], [], by simp [reads]⟩
  | cons c cs ih =>
    obtain ⟨ls, last, h1, h2, h3, h4⟩ := ih
    by_cases hc : c = 10
    · refine ⟨[10] :: ls, last, by simp [reads, hc, h1], ?_, h3, by simp [hc, h4]⟩
      intro l hl
      rcases List.mem_cons.mp hl with rfl | hl
      · exact ⟨[], by simp⟩
      · exact h2 l hl
    · cases ls with
      | nil =>
        refine ⟨[], c :: last, by simp [reads, hc, h1], by simp, ?_, by simp [h4]⟩
        simp only [List.mem_cons, not_or]
        exact ⟨fun h => hc h.symm, h3⟩
      | cons l ls =>
        refine ⟨(c :: l) :: ls, last, by simp [reads, hc, h1], ?_, h3, by simp [h4]⟩
        intro x hx
        rcases List.mem_cons.mp hx with rfl | hx
        · obtain ⟨b, hb, hb2⟩ := h2 l (by simp)
          refine ⟨c :: b, by simp [hb], ?_⟩
          simp only [List.mem_cons, not_or]
          exact ⟨fun h => hc h.symm, hb2⟩
        · exact h2 x (by simp [hx])

/-- A text that is empty or ends with a newline is the concatenation of lines. -/
theorem lines_of_terminated (t : Str) (ht : t = [] ∨ ∃ b, t = b ++ [10]) :
    ∃ ls : List Str, (∀ l ∈ ls, IsLine l) ∧ t = ls.flatten := by
  obtain ⟨ls, last, _, h2, h3, h4⟩ := reads_spec t
  refine ⟨ls, h2, ?_⟩
  have hlast : last = [] := by
    rcases ht with rfl | ⟨b, rfl⟩
    · have := congrArg List.length h4
      simp at this
      exact List.eq_nil_of_length_eq_zero (by omega)
    · rcases List.eq_nil_or_concat last with h | ⟨l', c, rfl⟩
      · exact h
      · exfalso
        rw [List.concat_eq_append, ← List.append_assoc] at h4
        have := List.append_inj_right' h4 rfl
        simp at this
        apply h3
        simp [← this]
  simp [h4, hlast]

theorem infix_of_mem_flatten {ls : List Str} {l : Str} (h : l ∈ ls) : l <:+: ls.flatten := by
  obtain ⟨a, b, rfl⟩ := List.append_of_mem h
  exact ⟨a.flatten, b.flatten, by simp⟩

theorem asciiSpace_newline : asciiSpace 10 = true := by decide

theorem space2_newline (a : Nat) : space2 a 10 = false := by simp [space2]

theorem space3_newline (a b : Nat) : space3 a b 10 = false := by simp [space3]

theorem trimLeftRev_newline (y : Str) : trimLeftRev (10 :: y) = trimLeftRev y := by
  match y with
  | [] => simp [trimLeftRev, asciiSpace_newline]
  | [a] => simp [trimLeftRev, asciiSpace_newline]
  | a :: b :: r => simp [trimLeftRev, asciiSpace_newline]

theorem trimRight_newline (t : Str) : trimRight (t ++ [10]) = trimRight t := by
  simp [trimRight, trimLeftRev_newline]

theorem trimLeft_newline (s : Str) :
    trimLeft (s ++ [10]) = if trimLeft s = [] then [] else trimLeft s ++ [10] := by
  induction s using trimLeft.induct with
  | case1 => simp [trimLeft, asciiSpace_newline]
  | case2 a h => simp [trimLeft, h, asciiSpace_newline]
  | case3 a h => simp [trimLeft, h, space2_newline]
  | case4 a b h ih => simpa [trimLeft, h] using ih
  | case5 a b h1 h2 => simp [trimLeft, h1, h2, asciiSpace_newline]
  | case6 a b h1 h2 => simp [trimLeft, h1, h2, space3_newline]
  | case7 a b c r h ih => simpa [trimLeft, h] using ih
  | case8 a b c r h1 h2 ih => simpa [trimLeft, h1, h2] using ih
  | case9 a b c r h1 h2 h3 ih => simpa [trimLeft, h1, h2, h3] using ih
  | case10 a b c r h1 h2 h3 => simp [trimLeft, h1, h2, h3]

theorem TrimSpace_newline (s : Str) : TrimSpace (s ++ [10]) = TrimSpace s := by
  unfold TrimSpace
  rw [trimLeft_newline]
  split
  · next h => rw [h]
  · rw [trimRight_newline]

theorem copyThrough_append {marker : Str} {pre : List Str} {hdr : Str} (rest : List Str)
    (hpre : ∀ l ∈ pre, Contains l marker = false) (hhdr : Contains hdr marker = true) :
    copyThrough marker (pre ++ hdr :: rest) = (pre.flatten ++ hdr, rest) := by
  induction pre with
  | nil => simp [copyThrough, hhdr]
  | cons l pre ih =>
    have h1 := ih (fun x hx => hpre x (by simp [hx]))
    have h2 := hpre l (by simp)
    simp [copyThrough, h1, h2]

theorem scanRegistry_append {marker : Str} {reg : List Str} {e : Str} (rest : List Str)
    (hreg : ∀ l ∈ reg, Contains l marker = false ∧ 3 ≤ l.length) (he : Contains e marker = true) :
    scanRegistry marker (reg ++ e :: rest)
      = some { names := reg.map (List.drop 3), written := reg.flatten, endLine := some e, rest := rest } := by
  induction reg with
  | nil => simp [scanRegistry, he]
  | cons l reg ih =>
    have h1 := ih (fun x hx => hreg x (by simp [hx]))
    obtain ⟨h2, h3⟩ := hreg l (by simp)
    have h4 : ¬ l.length < 3 := by omega
    simp [scanRegistry, h1, h2, h4]

theorem scanRegistry_short {marker : Str} {reg : List Str} {e : Str} (rest : List Str)
    (hreg : ∀ l ∈ reg, Contains l marker = false) (hshort : ∃ l ∈ reg, l.length < 3) :
    scanRegistry marker (reg ++ e :: rest) = none := by
  induction reg with
  | nil => simp at hshort
  | cons l reg ih =>
    have h2 := hreg l (by simp)
    by_cases h3 : l.length < 3
    · simp [scanRegistry, h2, h3]
    · have h1 := ih (fun x hx => hreg x (by simp [hx])) (by
        obtain ⟨x, hx, hx2⟩ := hshort
        rcases List.mem_cons.mp hx with rfl | hx
        · exact absurd hx2 h3
        · exact ⟨x, hx, hx2⟩)
      simp [scanRegistry, h1, h2, h3]

theorem copyBody_eq (marker : Str) (rs : List Str) :
    copyBody marker rs = (rs.takeWhile (fun l => !Contains l marker)).flatten := by
  induction rs with
  | nil => simp [copyBody]
  | cons l rs ih =>
    by_cases h : Contains l marker = true
    · simp [copyBody, h]
    · simp only [Bool.not_eq_true] at h
      cases rs with
      | nil => simp [copyBody, h]
      | cons x xs =>
        rw [copyBody, ih]
        simp [h]

theorem copyThrough_rest (marker : Str) (rs : List Str) :
    (copyThrough marker rs).2 = afterFirst marker rs := by
  induction rs with
  | nil => simp [copyThrough, afterFirst]
  | cons l rs ih =>
    by_cases h : Contains l marker = true
    · simp [copyThrough, afterFirst, h]
    · simp only [Bool.not_eq_true] at h
      cases rs with
      | nil => simp [copyThrough, afterFirst, h]
      | cons x xs => simpa [copyThrough, afterFirst, h] using ih

theorem scanRegistry_rest {marker : Str} {rs : List Str} {r : Registry}
    (h : scanRegistry marker rs = some r) : r.rest = afterFirst marker rs := by
  induction rs generalizing r with
  | nil =>
    simp only [scanRegistry] at h
    split at h
    · simp only [Option.some.injEq] at h
      subst h
      simp [afterFirst]
    · simp at h
  | cons l rs ih =>
    simp only [scanRegistry] at h
    by_cases h1 : Contains l marker = true
    · simp only [h1, if_true, Option.some.injEq] at h
      subst h
      simp [afterFirst, h1]
    · simp only [Bool.not_eq_true] at h1
      simp only [h1, Bool.false_eq_true, if_false] at h
      split at h
      · simp at h
      · split at h
        · next hrs =>
          simp only [Option.some.injEq] at h
          subst h
          simp only [List.isEmpty_iff] at hrs
          simp [afterFirst, h1, hrs]
        · split at h
          · simp at h
          · next r' hr' =>
            simp only [Option.some.injEq] at h
            subst h
            simp [afterFirst, h1, ih hr']

theorem afterFirst_split {marker : Str} {rs : List Str} (h : afterFirst marker rs ≠ []) :
    ∃ a l, rs = a ++ l :: afterFirst marker rs ∧ (∀ x ∈ a, Contains x marker = false)
      ∧ Contains l marker = true := by
  induction rs with
  | nil => simp [afterFirst] at h
  | cons x rs ih =>
    by_cases hx : Contains x marker = true
    · exact ⟨[], x, by simp [afterFirst, hx], by simp, hx⟩
    · simp only [Bool.not_eq_true] at hx
      simp only [afterFirst, hx, Bool.false_eq_true, if_false] at h ⊢
      obtain ⟨a, l, h1, h2, h3⟩ := ih h
      refine ⟨x :: a, l, by rw [List.cons_append, ← h1], ?_, h3⟩
      intro y hy
      rcases List.mem_cons.mp hy with rfl | hy
      · exact hx
      · exact h2 y hy

/-- The merge on a file whose reads show the four registry sentinels in order. -/
theorem updateParamString_of_reads (camel : Str → Str) (s : Schema) (file : Str)
    {pre reg mid creg body : List Str} {hdr e1 chdr e2 : Str}
    (hfile : reads file = pre ++ hdr :: (reg ++ e1 :: (mid ++ chdr :: (creg ++ e2 :: body))))
    (hpre : ∀ l ∈ pre, Contains l (B "Already Exist Table") = false)
    (hhdr : Contains hdr (B "Already Exist Table") = true)
    (hreg : ∀ l ∈ reg, Contains l (B "Exist Table End") = false ∧ 3 ≤ l.length)
    (he1 : Contains e1 (B "Exist Table End") = true)
    (hmid : ∀ l ∈ mid, Contains l (B "Proto Customize Type") = false)
    (hchdr : Contains chdr (B "Proto Customize Type") = true)
    (hcreg : ∀ l ∈ creg, Contains l (B "Customize Type End") = false ∧ 3 ≤ l.length)
    (he2 : Contains e2 (B "Customize Type End") = true) :
    s.UpdateParamString camel file
      = some (pre.flatten ++ hdr ++ reg.flatten
          ++ (s.Messages.filter (fun m => !isInSlice (reg.map (List.drop 3)) m.Name)).flatMap
              (fun m => B "// " ++ m.Name ++ B "\n")
          ++ e1
          ++ (mid.flatten ++ chdr) ++ creg.flatten
          ++ (s.CusMessages.filter (fun m => !isInSlice (creg.map (List.drop 3)) m.Name)).flatMap
              (fun m => B "// " ++ m.Name ++ B "\n")
          ++ e2
          ++ copyBody (B "Type Record End") body
          ++ (s.Messages.filter (fun m => !isInSlice (reg.map (List.drop 3)) m.Name)).flatMap
              (messageBlock camel)
          ++ (s.CusMessages.filter (fun m => !isInSlice (creg.map (List.drop 3)) m.Name)).flatMap
              (cusBlock camel)
          ++ B "// Type Record End\n") := by
  simp only [Schema.UpdateParamString, hfile, copyThrough_append _ hpre hhdr,
    scanRegistry_append _ hreg he1, copyThrough_append _ hmid hchdr,
    scanRegistry_append _ hcreg he2, Option.getD_some]

theorem sepOK_ne_nil {pat sep : Str} (h : sepOK pat sep = true) : ¬ pat <:+: [] := by
  intro hp
  have hnil : pat = [] := List.eq_nil_of_infix_nil hp
  subst hnil
  have : Contains sep [] = true := (Contains_iff sep []).mpr List.nil_infix
  simp [sepOK, this] at h

theorem free_lit {pat sep : Str} (h : sepOK pat sep = true) {rest : Str}
    (hrest : ¬ pat <:+: rest) : ¬ pat <:+: sep ++ rest := by
  have := not_infix_append_sep h (sepOK_ne_nil h) hrest
  simpa using this

theorem free_var {pat v : Str} (hv : ¬ pat <:+: v) {sep : Str} (h : sepOK pat sep = true)
    {rest : Str} (hrest : ¬ pat <:+: rest) : ¬ pat <:+: v ++ (sep ++ rest) :=
  not_infix_append_sep h hv hrest

theorem free_flatMap {α : Type} {pat : Str} {xs : List α} {g : α → Str}
    (hg : ∀ x ∈ xs, ∀ rest, ¬ pat <:+: rest → ¬ pat <:+: g x ++ rest)
    {rest : Str} (hrest : ¬ pat <:+: rest) : ¬ pat <:+: xs.flatMap g ++ rest := by
  induction xs with
  | nil => simpa using hrest
  | cons x xs ih =>
    simp only [List.flatMap_cons, List.append_assoc]
    exact hg x (by simp) _ (ih (fun y hy => hg y (by simp [hy])))

theorem free_FirstToLower {pat : Str} (hp : ∃ ps, pat = 84 :: ps) {x : Str}
    (h : ¬ pat <:+: x) : ¬ pat <:+: FirstToLower x := by
  obtain ⟨ps, rfl⟩ := hp
  cases x with
  | nil => simp [FirstToLower]
  | cons c cs =>
    have hcs : ¬ (84 :: ps) <:+: cs := fun hh => h (List.infix_cons hh)
    simp only [FirstToLower, toLowerByte]
    split
    · split
      · next h1 h2 =>
        simp only [List.singleton_append, List.infix_cons_iff, List.cons_prefix_cons, not_or]
        exact ⟨fun hh => by omega, hcs⟩
      · simpa using h
    · simp only [List.cons_append, List.nil_append, List.infix_cons_iff, List.cons_prefix_cons, not_or]
      exact ⟨fun hh => by omega, fun hh => by omega, fun hh => by omega, hcs⟩

theorem mem_defaultFields {camel : Str → Str} {fs : List MessageField} {g : MessageField}
    (hg : g ∈ defaultFields camel fs) :
    ∃ f ∈ fs, g.Name = camel f.Name ∧ g.Typ = f.Typ ∧ g.ColumnName = f.ColumnName
      ∧ (g.Comment = f.Comment ∨ g.Comment = camel f.Name) := by
  simp only [defaultFields, List.mem_filterMap] at hg
  obtain ⟨f, hf, hfg⟩ := hg
  refine ⟨f, hf, ?_⟩
  split at hfg
  · simp at hfg
  · simp only [Option.some.injEq] at hfg
    subst hfg
    by_cases hc : f.Comment = []
    · simp [hc]
    · simp [hc]

theorem free_GenApiDefault {camel : Str → Str} {m : Message}
    (hm : MsgFree (B "Type Record End") camel m) {rest : Str}
    (hrest : ¬ B "Type Record End" <:+: rest) :
    ¬ B "Type Record End" <:+: m.GenApiDefault camel ++ rest := by
  obtain ⟨h1, h2, h3, h4⟩ := hm
  simp only [Message.GenApiDefault, Message.String, List.append_assoc]
  apply free_lit (by decide)
  apply free_var h2 (by decide)
  apply free_flatMap
  · intro g hg rest hrest
    obtain ⟨f, hf, e1, e2, e3, e4⟩ := mem_defaultFields hg
    obtain ⟨k1, k2, k3, k4, k5⟩ := h4 f hf
    have k6 : ¬ B "Type Record End" <:+: g.Comment := by
      rcases e4 with e4 | e4 <;> rw [e4] <;> assumption
    simp only [List.append_assoc, e1, e2, e3]
    apply free_lit (by decide)
    apply free_var k2 (by decide)
    apply free_var k3 (by decide)
    apply free_var k4 (by decide)
    apply free_var k6 (by decide)
    exact hrest
  · apply free_lit (by decide)
    apply free_lit (by decide)
    exact hrest

theorem free_messageBlock {camel : Str → Str} {m : Message}
    (hm : MsgFree (B "Type Record End") camel m) {rest : Str}
    (hrest : ¬ B "Type Record End" <:+: rest) :
    ¬ B "Type Record End" <:+: messageBlock camel m ++ rest := by
  have hm0 := hm
  obtain ⟨h1, h2, h3, h4⟩ := hm
  have h5 : ¬ B "Type Record End" <:+: FirstToLower m.Name := free_FirstToLower ⟨_, rfl⟩ h2
  simp only [messageBlock, messageBanner, messageTypes, List.append_assoc]
  apply free_lit (by decide)
  apply free_var h1 (by decide)
  apply free_lit (by decide)
  apply free_lit (by decide)
  apply free_GenApiDefault hm0
  apply free_lit (by decide)
  simp only [Message.GenApiDefaultResp, List.append_assoc]
  apply free_lit (by decide)
  apply free_var h3 (by decide)
  apply free_lit (by decide)
  apply free_lit (by decide)
  apply free_lit (by decide)
  simp only [Message.GenApiUpdateReq, List.append_assoc]
  apply free_lit (by decide)
  apply free_var h3 (by decide)
  apply free_flatMap
  · intro f hf rest hrest
    obtain ⟨k1, k2, k3, k4, k5⟩ := h4 f hf
    simp only [List.append_assoc]
    apply free_lit (by decide)
    apply free_var k2 (by decide)
    apply free_var k3 (by decide)
    apply free_var k4 (by decide)
    apply free_var k5 (by decide)
    exact hrest
  apply free_lit (by decide)
  apply free_lit (by decide)
  simp only [Message.GenApiUpdateResp, List.append_assoc]
  apply free_lit (by decide)
  apply free_var h3 (by decide)
  apply free_lit (by decide)
  apply free_lit (by decide)
  apply free_lit (by decide)
  simp only [Message.GenApiQueryListReq, List.append_assoc]
  apply free_lit (by decide)
  apply free_var h3 (by decide)
  apply free_lit (by decide)
  apply free_lit (by decide)
  apply free_lit (by decide)
  apply free_lit (by decide)
  apply free_lit (by decide)
  simp only [Message.GenApiQueryListResp, List.append_assoc]
  apply free_lit (by decide)
  apply free_var h3 (by decide)
  apply free_lit (by decide)
  apply free_var h2 (by decide)
  apply free_lit (by decide)
  apply free_var h3 (by decide)
  apply free_var h5 (by decide)
  apply free_lit (by decide)
  apply free_lit (by decide)
  apply free_lit (by decide)
  apply free_lit (by decide)
  apply free_lit (by decide)
  apply free_lit (by decide)
  apply free_lit (by decide)
  exact hrest

theorem free_cusBlock {camel : Str → Str} {m : Message}
    (hm : MsgFree (B "Type Record End") camel m) {rest : Str}
    (hrest : ¬ B "Type Record End" <:+: rest) :
    ¬ B "Type Record End" <:+: cusBlock camel m ++ rest := by
  have hm0 := hm
  obtain ⟨h1, h2, h3, h4⟩ := hm
  simp only [cusBlock, cusBanner, List.append_assoc]
  apply free_lit (by decide)
  apply free_lit (by decide)
  apply free_var h2 (by decide)
  apply free_lit (by decide)
  apply free_lit (by decide)
  apply free_GenApiDefault hm0
  apply free_lit (by decide)
  apply free_lit (by decide)
  apply free_lit (by decide)
  exact hrest

theorem IsLine_of_isLine {l : Str} (h : isLine l = true) : IsLine l := by
  simp only [isLine, Bool.and_eq_true, beq_iff_eq, Bool.not_eq_true', List.contains_eq_any_beq,
    List.any_eq_false, beq_iff_eq] at h
  obtain ⟨h1, h2⟩ := h
  refine ⟨l.dropLast, (List.dropLast_append_getLast? 10 (by simp [h1])).symm, ?_⟩
  intro h3
  exact h2 10 h3 rfl

theorem IsLine_ne_nil {l : Str} (h : IsLine l) : l ≠ [] := by
  obtain ⟨b, rfl, _⟩ := h
  simp

/-- Every read but the last is a newline-terminated line. -/
theorem IsLine_of_reads (file : Str) {front : List Str} (tail : List Str) (h : reads file = front ++ tail)
    (htail : tail ≠ []) : ∀ l ∈ front, IsLine l := by
  obtain ⟨ls, last, h1, h2, _, _⟩ := reads_spec file
  have h3 : ls = front ++ tail.dropLast := by
    have := congrArg List.dropLast (h1.symm.trans h)
    rwa [List.dropLast_concat, List.dropLast_append_of_ne_nil _ htail] at this
  intro l hl
  exact h2 l (by rw [h3]; exact List.mem_append_left _ hl)

/-- The reads of a well-formed params artifact. -/
theorem wellFormed_layout {file : Str} (h : wellFormedParams file = true) :
    ∃ pre hdr reg e1 mid chdr creg e2 body e3 tail,
      reads file = pre ++ hdr :: (reg ++ e1 :: (mid ++ chdr :: (creg ++ e2 :: (body ++ e3 :: tail))))
      ∧ tail ≠ []
      ∧ (∀ l ∈ pre, Contains l (B "Already Exist Table") = false)
      ∧ Contains hdr (B "Already Exist Table") = true
      ∧ (∀ l ∈ reg, Contains l (B "Exist Table End") = false)
      ∧ Contains e1 (B "Exist Table End") = true
      ∧ (∀ l ∈ mid, Contains l (B "Proto Customize Type") = false)
      ∧ Contains chdr (B "Proto Customize Type") = true
      ∧ (∀ l ∈ creg, Contains l (B "Customize Type End") = false)
      ∧ Contains e2 (B "Customize Type End") = true
      ∧ (∀ l ∈ body, Contains l (B "Type Record End") = false)
      ∧ Contains e3 (B "Type Record End") = true := by
  simp only [wellFormedParams, sentinelsInOrder, Bool.and_eq_true, Bool.not_eq_true',
    List.isEmpty_eq_false, Bool.and_true, ne_eq] at h
  obtain ⟨h1, h2, h3, h4, h5⟩ := h
  obtain ⟨pre, hdr, q1, hpre, hhdr⟩ := afterFirst_split h1
  generalize afterFirst (B "Already Exist Table") (reads file) = A1 at *
  obtain ⟨reg, e1, q2, hreg, he1⟩ := afterFirst_split h2
  generalize afterFirst (B "Exist Table End") A1 = A2 at *
  obtain ⟨mid, chdr, q3, hmid, hchdr⟩ := afterFirst_split h3
  generalize afterFirst (B "Proto Customize Type") A2 = A3 at *
  obtain ⟨creg, e2, q4, hcreg, he2⟩ := afterFirst_split h4
  generalize afterFirst (B "Customize Type End") A3 = A4 at *
  obtain ⟨body, e3, q5, hbody, he3⟩ := afterFirst_split h5
  generalize afterFirst (B "Type Record End") A4 = A5 at *
  subst q5 q4 q3 q2
  exact ⟨pre, hdr, reg, e1, mid, chdr, creg, e2, body, e3, A5, q1, h5, hpre, hhdr, hreg, he1,
    hmid, hchdr, hcreg, he2, hbody, he3⟩

theorem isInSlice_append (xs ys : List Str) (n : Str) :
    isInSlice (xs ++ ys) n = (isInSlice xs n || isInSlice ys n) := by
  simp [isInSlice]

theorem drop_entry (n : Str) : (B "// " ++ n ++ B "\n").drop 3 = n ++ [10] := by
  have h1 : B "// " = [47, 47, 32] := by decide
  have h2 : B "\n" = [10] := by decide
  simp [h1, h2]

/-- After a merge every message of the schema is in the registry. -/
theorem filter_registered_nil (msgs : List Message) (reg : List Str) :
    msgs.filter (fun m => !isInSlice
      ((reg ++ (msgs.filter (fun m => !isInSlice (reg.map (List.drop 3)) m.Name)).map
        (fun m => B "// " ++ m.Name ++ B "\n")).map (List.drop 3)) m.Name) = [] := by
  rw [List.filter_eq_nil_iff]
  intro m hm
  simp only [List.map_append, isInSlice_append, Bool.not_eq_true', Bool.not_eq_false',
    Bool.or_eq_true, Bool.not_not, Bool.not_eq_false]
  by_cases h : isInSlice (reg.map (List.drop 3)) m.Name = true
  · exact Or.inl h
  · right
    simp only [isInSlice, List.any_eq_true, beq_iff_eq, List.mem_map, List.mem_filter]
    refine ⟨m.Name ++ [10], ⟨_, ⟨m, ⟨hm, by simpa [isInSlice] using h⟩, rfl⟩, drop_entry _⟩,
      TrimSpace_newline _⟩

theorem plain_spec {x : Str} (h : plain x = true) :
    10 ∉ x ∧ ∀ p ∈ sentinelTexts, ¬ p <:+: x := by
  simp only [plain, Bool.and_eq_true, Bool.not_eq_true', List.all_eq_true, Contains_false_iff,
    List.contains_eq_any_beq, List.any_eq_false, beq_iff_eq] at h
  exact ⟨fun hx => h.1 10 hx rfl, h.2⟩

theorem IsLine_entry {n : Str} (h : 10 ∉ n) : IsLine (B "// " ++ n ++ B "\n") := by
  have h1 : B "// " = [47, 47, 32] := by decide
  have h2 : B "\n" = [10] := by decide
  refine ⟨B "// " ++ n, by rw [h2], ?_⟩
  simp [h1, h]

theorem entry_free {pat n : Str} (hp : sepOK pat (B "// ") = true) (hq : sepOK pat (B "\n") = true)
    (h : ¬ pat <:+: n) : Contains (B "// " ++ n ++ B "\n") pat = false := by
  rw [Contains_false_iff, List.append_assoc]
  apply free_lit hp
  have := free_var h hq (sepOK_ne_nil hq)
  simpa using this

theorem entry_length (n : Str) : 3 ≤ (B "// " ++ n ++ B "\n").length := by
  have h1 : B "// " = [47, 47, 32] := by decide
  simp [h1]

theorem terminated_flatMap {α : Type} (g : α → Str) (xs : List α)
    (hg : ∀ x ∈ xs, ∃ b, g x = b ++ [10]) :
    xs.flatMap g = [] ∨ ∃ b, xs.flatMap g = b ++ [10] := by
  induction xs with
  | nil => exact Or.inl rfl
  | cons x xs ih =>
    right
    obtain ⟨b, hb⟩ := hg x (by simp)
    rcases ih (fun y hy => hg y (by simp [hy])) with h | ⟨c, hc⟩
    · exact ⟨b, by simp [h, hb]⟩
    · exact ⟨g x ++ c, by simp [hc]⟩

theorem messageBlock_terminated (camel : Str → Str) (m : Message) :
    ∃ b, messageBlock camel m = b ++ [10] := by
  have h2 : B "\n\n" = [10] ++ [10] := by decide
  exact ⟨messageBanner m ++ messageTypes camel m ++ B ")" ++ [10], by
    simp only [messageBlock, h2, List.append_assoc]⟩

theorem cusBlock_terminated (camel : Str → Str) (m : Message) :
    ∃ b, cusBlock camel m = b ++ [10] := by
  have h2 : B "\n\n" = [10] ++ [10] := by decide
  exact ⟨cusBanner m ++ m.GenApiDefault camel ++ B "\n" ++ B ")" ++ [10], by
    simp only [cusBlock, h2, List.append_assoc]⟩

theorem messagePlain_spec {camel : Str → Str} {m : Message} (h : messagePlain camel m = true) :
    10 ∉ m.Name ∧ (∀ p ∈ sentinelTexts, ¬ p <:+: m.Name)
      ∧ MsgFree (B "Type Record End") camel m := by
  simp only [messagePlain, fieldPlain, Bool.and_eq_true, List.all_eq_true] at h
  obtain ⟨⟨⟨h1, h2⟩, h3⟩, h4⟩ := h
  have hT : B "Type Record End" ∈ sentinelTexts := by decide
  refine ⟨(plain_spec h1).1, (plain_spec h1).2, (plain_spec h3).2 _ hT, (plain_spec h1).2 _ hT,
    (plain_spec h2).2 _ hT, ?_⟩
  intro f hf
  obtain ⟨⟨⟨⟨k1, k2⟩, k3⟩, k4⟩, k5⟩ := h4 f hf
  exact ⟨(plain_spec k1).2 _ hT, (plain_spec k2).2 _ hT, (plain_spec k3).2 _ hT,
    (plain_spec k4).2 _ hT, (plain_spec k5).2 _ hT⟩

/-- The lines of a text that is a concatenation of blocks, none containing the sentinel. -/
theorem lines_of_blocks {α : Type} (pat : Str) (g : α → Str) (xs : List α)
    (hterm : ∀ x ∈ xs, ∃ b, g x = b ++ [10])
    (hfree : ∀ x ∈ xs, ∀ rest, ¬ pat <:+: rest → ¬ pat <:+: g x ++ rest)
    (hpat : ¬ pat <:+: []) :
    ∃ ls : List Str, (∀ l ∈ ls, IsLine l) ∧ xs.flatMap g = ls.flatten
      ∧ ∀ l ∈ ls, Contains l pat = false := by
  obtain ⟨ls, h1, h2⟩ := lines_of_terminated _ (terminated_flatMap g xs hterm)
  refine ⟨ls, h1, h2, ?_⟩
  intro l hl
  rw [Contains_false_iff]
  intro hc
  have h3 : ¬ pat <:+: xs.flatMap g ++ [] := free_flatMap hfree hpat
  rw [List.append_nil, h2] at h3
  exact h3 (List.IsInfix.trans hc (infix_of_mem_flatten hl))

theorem copyBody_append {marker : Str} {body : List Str} {e : Str} (rest : List Str)
    (hbody : ∀ l ∈ body, Contains l marker = false) (he : Contains e marker = true) :
    copyBody marker (body ++ e :: rest) = body.flatten := by
  induction body with
  | nil => simp [copyBody, he]
  | cons l body ih =>
    have h1 := ih (fun x hx => hbody x (by simp [hx]))
    have h2 := hbody l (by simp)
    simp [copyBody, h1, h2]

/-- The merge faults on a short line of the table registry. -/
theorem updateParamString_fault_table (camel : Str → Str) (s : Schema) (file : Str)
    {pre reg rest : List Str} {hdr e1 : Str}
    (hfile : reads file = pre ++ hdr :: (reg ++ e1 :: rest))
    (hpre : ∀ l ∈ pre, Contains l (B "Already Exist Table") = false)
    (hhdr : Contains hdr (B "Already Exist Table") = true)
    (hreg : ∀ l ∈ reg, Contains l (B "Exist Table End") = false)
    (hshort : ∃ l ∈ reg, l.length < 3) :
    s.UpdateParamString camel file = none := by
  simp only [Schema.UpdateParamString, hfile, copyThrough_append _ hpre hhdr,
    scanRegistry_short _ hreg hshort]

/-- The merge faults on a short line of the custom-type registry. -/
theorem updateParamString_fault_custom (camel : Str → Str) (s : Schema) (file : Str)
    {pre reg mid creg rest : List Str} {hdr e1 chdr e2 : Str}
    (hfile : reads file = pre ++ hdr :: (reg ++ e1 :: (mid ++ chdr :: (creg ++ e2 :: rest))))
    (hpre : ∀ l ∈ pre, Contains l (B "Already Exist Table") = false)
    (hhdr : Contains hdr (B "Already Exist Table") = true)
    (hreg : ∀ l ∈ reg, Contains l (B "Exist Table End") = false ∧ 3 ≤ l.length)
    (he1 : Contains e1 (B "Exist Table End") = true)
    (hmid : ∀ l ∈ mid, Contains l (B "Proto Customize Type") = false)
    (hchdr : Contains chdr (B "Proto Customize Type") = true)
    (hcreg : ∀ l ∈ creg, Contains l (B "Customize Type End") = false)
    (hshort : ∃ l ∈ creg, l.length < 3) :
    s.UpdateParamString camel file = none := by
  simp only [Schema.UpdateParamString, hfile, copyThrough_append _ hpre hhdr,
    scanRegistry_append _ hreg he1, copyThrough_append _ hmid hchdr,
    scanRegistry_short _ hcreg hshort]

/-- A second merge of the same schema into the result of a merge changes nothing. -/
theorem updateParamString_twice (camel : Str → Str) (s : Schema) (file : Str)
    {pre reg mid creg body tail : List Str} {hdr e1 chdr e2 e3 : Str}
    (hfile : reads file
      = pre ++ hdr :: (reg ++ e1 :: (mid ++ chdr :: (creg ++ e2 :: (body ++ e3 :: tail)))))
    (htail : tail ≠ [])
    (hpre : ∀ l ∈ pre, Contains l (B "Already Exist Table") = false)
    (hhdr : Contains hdr (B "Already Exist Table") = true)
    (hreg : ∀ l ∈ reg, Contains l (B "Exist Table End") = false ∧ 3 ≤ l.length)
    (he1 : Contains e1 (B "Exist Table End") = true)
    (hmid : ∀ l ∈ mid, Contains l (B "Proto Customize Type") = false)
    (hchdr : Contains chdr (B "Proto Customize Type") = true)
    (hcreg : ∀ l ∈ creg, Contains l (B "Customize Type End") = false ∧ 3 ≤ l.length)
    (he2 : Contains e2 (B "Customize Type End") = true)
    (hbody : ∀ l ∈ body, Contains l (B "Type Record End") = false)
    (he3 : Contains e3 (B "Type Record End") = true)
    (hs : schemaPlain camel s = true) :
    ∃ out, s.UpdateParamString camel file = some out
      ∧ s.UpdateParamString camel out = some out := by
  have h1 := updateParamString_of_reads camel s file hfile hpre hhdr hreg he1 hmid hchdr hcreg he2
  refine ⟨_, h1, ?_⟩
  simp only [schemaPlain, Bool.and_eq_true, List.all_eq_true] at hs
  obtain ⟨hsM, hsC⟩ := hs
  -- the lines of the existing artifact
  have hlines : ∀ l ∈ pre ++ hdr :: (reg ++ e1 :: (mid ++ chdr :: (creg ++ e2 :: (body ++ [e3])))),
      IsLine l :=
    IsLine_of_reads file tail (by rw [hfile]; simp) htail
  -- the text the first merge adds
  generalize hnT : s.Messages.filter (fun m => !isInSlice (reg.map (List.drop 3)) m.Name) = newT
  generalize hnC : s.CusMessages.filter (fun m => !isInSlice (creg.map (List.drop 3)) m.Name) = newC
  have hTsub : ∀ m ∈ newT, m ∈ s.Messages := fun m hm => by
    rw [← hnT] at hm; exact (List.mem_filter.mp hm).1
  have hCsub : ∀ m ∈ newC, m ∈ s.CusMessages := fun m hm => by
    rw [← hnC] at hm; exact (List.mem_filter.mp hm).1
  have hE : ¬ B "Type Record End" <:+: [] := by decide
  obtain ⟨bl, hbl1, hbl2, hbl3⟩ := lines_of_blocks (B "Type Record End")
    (messageBlock camel) newT (fun m _ => messageBlock_terminated camel m)
    (fun m hm rest hrest => free_messageBlock (messagePlain_spec (hsM m (hTsub m hm))).2.2 hrest) hE
  obtain ⟨cl, hcl1, hcl2, hcl3⟩ := lines_of_blocks (B "Type Record End")
    (cusBlock camel) newC (fun m _ => cusBlock_terminated camel m)
    (fun m hm rest hrest => free_cusBlock (messagePlain_spec (hsC m (hCsub m hm))).2.2 hrest) hE
  have hEnd : IsLine (B "// Type Record End\n") := IsLine_of_isLine (by decide)
  have hEndC : Contains (B "// Type Record End\n") (B "Type Record End") = true := by decide
  -- the reads of the merged artifact
  have hreads : reads (pre.flatten ++ hdr ++ reg.flatten
          ++ newT.flatMap (fun m => B "// " ++ m.Name ++ B "\n")
          ++ e1
          ++ (mid.flatten ++ chdr) ++ creg.flatten
          ++ newC.flatMap (fun m => B "// " ++ m.Name ++ B "\n")
          ++ e2
          ++ copyBody (B "Type Record End") (body ++ e3 :: tail)
          ++ newT.flatMap (messageBlock camel)
          ++ newC.flatMap (cusBlock camel)
          ++ B "// Type Record End\n")
      = pre ++ hdr :: ((reg ++ newT.map (fun m => B "// " ++ m.Name ++ B "\n")) ++ e1 ::
          (mid ++ chdr :: ((creg ++ newC.map (fun m => B "// " ++ m.Name ++ B "\n")) ++ e2 ::
            ((body ++ (bl ++ cl)) ++ B "// Type Record End\n" :: [[]])))) := by
    have hlist : ∀ l ∈ pre ++ hdr :: ((reg ++ newT.map (fun m => B "// " ++ m.Name ++ B "\n"))
          ++ e1 :: (mid ++ chdr :: ((creg ++ newC.map (fun m => B "// " ++ m.Name ++ B "\n"))
          ++ e2 :: ((body ++ (bl ++ cl)) ++ [B "// Type Record End\n"])))), IsLine l := by
      intro l hl
      simp only [List.mem_append, List.mem_cons, List.mem_map, List.mem_singleton,
        List.not_mem_nil, or_false] at hl
      have hl0 := hlines l
      simp only [List.mem_append, List.mem_cons, List.mem_singleton, List.not_mem_nil,
        or_false] at hl0
      rcases hl with h | h | (h | ⟨m, hm, rfl⟩) | h | h | h | (h | ⟨m, hm, rfl⟩) | h | (h | h | h) | h
      · exact hl0 (Or.inl h)
      · exact hl0 (Or.inr (Or.inl h))
      · exact hl0 (Or.inr (Or.inr (Or.inl h)))
      · exact IsLine_entry (messagePlain_spec (hsM m (hTsub m hm))).1
      · exact hl0 (Or.inr (Or.inr (Or.inr (Or.inl h))))
      · exact hl0 (Or.inr (Or.inr (Or.inr (Or.inr (Or.inl h)))))
      · exact hl0 (Or.inr (Or.inr (Or.inr (Or.inr (Or.inr (Or.inl h))))))
      · exact hl0 (Or.inr (Or.inr (Or.inr (Or.inr (Or.inr (Or.inr (Or.inl h)))))))
      · exact IsLine_entry (messagePlain_spec (hsC m (hCsub m hm))).1
      · exact hl0 (Or.inr (Or.inr (Or.inr (Or.inr (Or.inr (Or.inr (Or.inr (Or.inl h))))))))
      · exact hl0 (Or.inr (Or.inr (Or.inr (Or.inr (Or.inr (Or.inr (Or.inr (Or.inr (Or.inl h)))))))))
      · exact hbl1 l h
      · exact hcl1 l h
      · rw [h]; exact hEnd
    have hflat := reads_lines_append hlist []
    have hsame : pre.flatten ++ hdr ++ reg.flatten
          ++ newT.flatMap (fun m => B "// " ++ m.Name ++ B "\n")
          ++ e1
          ++ (mid.flatten ++ chdr) ++ creg.flatten
          ++ newC.flatMap (fun m => B "// " ++ m.Name ++ B "\n")
          ++ e2
          ++ copyBody (B "Type Record End") (body ++ e3 :: tail)
          ++ newT.flatMap (messageBlock camel)
          ++ newC.flatMap (cusBlock camel)
          ++ B "// Type Record End\n"
        = (pre ++ hdr :: ((reg ++ newT.map (fun m => B "// " ++ m.Name ++ B "\n"))
          ++ e1 :: (mid ++ chdr :: ((creg ++ newC.map (fun m => B "// " ++ m.Name ++ B "\n"))
          ++ e2 :: ((body ++ (bl ++ cl)) ++ [B "// Type Record End\n"]))))).flatten ++ [] := by
      simp [copyBody_append _ hbody he3, hbl2, hcl2, List.flatMap_def]
    rw [hsame, hflat]
    simp [reads]
  rw [updateParamString_of_reads camel s _ hreads hpre hhdr (by
        intro l hl
        rcases List.mem_append.mp hl with h | h
        · exact hreg l h
        · obtain ⟨m, hm, rfl⟩ := List.mem_map.mp h
          have hp := messagePlain_spec (hsM m (hTsub m hm))
          exact ⟨entry_free (by decide) (by decide) (hp.2.1 _ (by decide)), entry_length _⟩)
      he1 hmid hchdr (by
        intro l hl
        rcases List.mem_append.mp hl with h | h
        · exact hcreg l h
        · obtain ⟨m, hm, rfl⟩ := List.mem_map.mp h
          have hp := messagePlain_spec (hsC m (hCsub m hm))
          exact ⟨entry_free (by decide) (by decide) (hp.2.1 _ (by decide)), entry_length _⟩)
      he2]
  rw [← hnT, ← hnC, filter_registered_nil, filter_registered_nil,
    copyBody_append _ (by
      intro l hl
      rcases List.mem_append.mp hl with h | h
      · exact hbody l h
      · rcases List.mem_append.mp h with h | h
        · exact hbl3 l h
        · exact hcl3 l h) hEndC,
    copyBody_append _ hbody he3, hnT, hnC]
  simp [hbl2, hcl2, List.flatMap_def]

theorem scanRegistry_names {marker : Str} {rs : List Str} {r : Registry}
    (h : scanRegistry marker rs = some r) :
    r.names = (rs.takeWhile (fun l => !Contains l marker)).map (List.drop 3) := by
  induction rs generalizing r with
  | nil =>
    simp only [scanRegistry] at h
    split at h
    · simp only [Option.some.injEq] at h
      subst h
      simp
    · simp at h
  | cons l rs ih =>
    simp only [scanRegistry] at h
    by_cases h1 : Contains l marker = true
    · simp only [h1, if_true, Option.some.injEq] at h
      subst h
      simp [h1]
    · simp only [Bool.not_eq_true] at h1
      simp only [h1, Bool.false_eq_true, if_false] at h
      split at h
      · simp at h
      · split at h
        · next hrs =>
          simp only [Option.some.injEq] at h
          subst h
          simp only [List.isEmpty_iff] at hrs
          simp [h1, hrs]
        · split at h
          · simp at h
          · next r' hr' =>
            simp only [Option.some.injEq] at h
            subst h
            simp [h1, ih hr']

theorem isInSlice_entryNames (registry : List Str) (n : Str) :
    isInSlice (registry.map (List.drop 3)) n = decide (TrimSpace n ∈ entryNames registry) := by
  simp only [isInSlice, entryNames, List.any_map]
  rw [Bool.eq_iff_iff]
  simp only [List.any_eq_true, Function.comp_apply, beq_iff_eq, decide_eq_true_eq, List.mem_map]

theorem filter_new (registry : List Str) (msgs : List Message) :
    msgs.filter (fun m => !isInSlice (registry.map (List.drop 3)) m.Name)
      = newMessages (entryNames registry) msgs := by
  unfold newMessages
  apply List.filter_congr
  intro m _
  rw [isInSlice_entryNames]
  simp

theorem throughFirst_append {marker : Str} {pre : List Str} {hdr : Str} (rest : List Str)
    (hpre : ∀ l ∈ pre, Contains l marker = false) (hhdr : Contains hdr marker = true) :
    throughFirst marker (pre ++ hdr :: rest) = pre ++ [hdr] := by
  induction pre with
  | nil => simp [throughFirst, hhdr]
  | cons l pre ih =>
    have h1 := ih (fun x hx => hpre x (by simp [hx]))
    have h2 := hpre l (by simp)
    simp [throughFirst, h1, h2]

theorem afterFirst_append {marker : Str} {pre : List Str} {hdr : Str} (rest : List Str)
    (hpre : ∀ l ∈ pre, Contains l marker = false) (hhdr : Contains hdr marker = true) :
    afterFirst marker (pre ++ hdr :: rest) = rest := by
  induction pre with
  | nil => simp [afterFirst, hhdr]
  | cons l pre ih =>
    have h1 := ih (fun x hx => hpre x (by simp [hx]))
    have h2 := hpre l (by simp)
    simp [afterFirst, h1, h2]

theorem takeWhile_append_marker {marker : Str} {body : List Str} {e : Str} (rest : List Str)
    (hbody : ∀ l ∈ body, Contains l marker = false) (he : Contains e marker = true) :
    (body ++ e :: rest).takeWhile (fun l => !Contains l marker) = body := by
  induction body with
  | nil => simp [he]
  | cons l body ih =>
    have h1 := ih (fun x hx => hbody x (by simp [hx]))
    have h2 := hbody l (by simp)
    simp [h1, h2]

theorem entry_terminated (n : Str) : ∃ b, B "// " ++ n ++ B "\n" = b ++ [10] :=
  ⟨B "// " ++ n, by have h2 : B "\n" = [10] := by decide
                    rw [h2]⟩

/-- Schemas that agree on the names and on the messages outside a registry have the same
new messages. -/
theorem filter_unregistered {names : List Str} {l l' : List Message}
    (h : List.Forall₂ (fun m m' => m.Name = m'.Name ∧ (isInSlice names m.Name = false → m = m'))
      l l') :
    l.filter (fun m => !isInSlice names m.Name) = l'.filter (fun m => !isInSlice names m.Name) := by
  induction h with
  | nil => rfl
  | @cons m m' l l' hm _ ih =>
    obtain ⟨hn, heq⟩ := hm
    by_cases hin : isInSlice names m.Name = true
    · have hin' : isInSlice names m'.Name = true := by rw [← hn]; exact hin
      simp [hin, hin', ih]
    · simp only [Bool.not_eq_true] at hin
      have := heq hin
      subst this
      simp [hin, ih]

/-- The reads of a merged artifact: the lines of the existing one, with lines inserted
after each registry and after the type body. -/
theorem reads_merged {pre reg mid creg body : List Str} {hdr e1 chdr e2 : Str}
    (hlines : ∀ l ∈ pre ++ hdr :: (reg ++ e1 :: (mid ++ chdr :: (creg ++ e2 :: body))), IsLine l)
    {n nc bl cl : Str} (hn : n = [] ∨ ∃ b, n = b ++ [10]) (hnc : nc = [] ∨ ∃ b, nc = b ++ [10])
    (hbl : bl = [] ∨ ∃ b, bl = b ++ [10]) (hcl : cl = [] ∨ ∃ b, cl = b ++ [10]) :
    ∃ nl ncl bll,
      reads (pre.flatten ++ hdr ++ reg.flatten ++ n ++ e1 ++ (mid.flatten ++ chdr) ++ creg.flatten
          ++ nc ++ e2 ++ body.flatten ++ bl ++ cl ++ B "// Type Record End\n")
        = pre ++ hdr :: ((reg ++ nl) ++ e1 :: (mid ++ chdr :: ((creg ++ ncl) ++ e2 ::
            (body ++ bll)))) := by
  obtain ⟨nl, hnl1, rfl⟩ := lines_of_terminated n hn
  obtain ⟨ncl, hncl1, rfl⟩ := lines_of_terminated nc hnc
  obtain ⟨bll, hbll1, rfl⟩ := lines_of_terminated bl hbl
  obtain ⟨cll, hcll1, rfl⟩ := lines_of_terminated cl hcl
  refine ⟨nl, ncl, bll ++ cll ++ [B "// Type Record End\n", []], ?_⟩
  have hEnd : IsLine (B "// Type Record End\n") := IsLine_of_isLine (by decide)
  have hlist : ∀ l ∈ pre ++ hdr :: ((reg ++ nl) ++ e1 :: (mid ++ chdr :: ((creg ++ ncl) ++ e2 ::
      (body ++ (bll ++ cll ++ [B "// Type Record End\n"]))))), IsLine l := by
    intro l hl
    simp only [List.mem_append, List.mem_cons, List.mem_singleton, List.not_mem_nil,
      or_false] at hl
    have hl0 := hlines l
    simp only [List.mem_append, List.mem_cons, List.mem_singleton, List.not_mem_nil,
      or_false] at hl0
    rcases hl with h | h | (h | h) | h | h | h | (h | h) | h | h | (h | h) | h
    · exact hl0 (Or.inl h)
    · exact hl0 (Or.inr (Or.inl h))
    · exact hl0 (Or.inr (Or.inr (Or.inl h)))
    · exact hnl1 l h
    · exact hl0 (Or.inr (Or.inr (Or.inr (Or.inl h))))
    · exact hl0 (Or.inr (Or.inr (Or.inr (Or.inr (Or.inl h)))))
    · exact hl0 (Or.inr (Or.inr (Or.inr (Or.inr (Or.inr (Or.inl h))))))
    · exact hl0 (Or.inr (Or.inr (Or.inr (Or.inr (Or.inr (Or.inr (Or.inl h)))))))
    · exact hncl1 l h
    · exact hl0 (Or.inr (Or.inr (Or.inr (Or.inr (Or.inr (Or.inr (Or.inr (Or.inl h))))))))
    · exact hl0 (Or.inr (Or.inr (Or.inr (Or.inr (Or.inr (Or.inr (Or.inr (Or.inr h))))))))
    · exact hbll1 l h
    · exact hcll1 l h
    · rw [h]; exact hEnd
  have hflat := reads_lines_append hlist []
  have hsame : pre.flatten ++ hdr ++ reg.flatten ++ nl.flatten ++ e1 ++ (mid.flatten ++ chdr)
        ++ creg.flatten ++ ncl.flatten ++ e2 ++ body.flatten ++ bll.flatten ++ cll.flatten
        ++ B "// Type Record End\n"
      = (pre ++ hdr :: ((reg ++ nl) ++ e1 :: (mid ++ chdr :: ((creg ++ ncl) ++ e2 ::
          (body ++ (bll ++ cll ++ [B "// Type Record End\n"])))))).flatten ++ [] := by
    simp
  rw [hsame, hflat]
  simp [reads]

/-! ## Lemmas on enums -/


theorem appendField_ok {e : Enum} {ef : EnumField} (h : ∀ f ∈ e.Fields, f.tag ≠ ef.tag) :
    e.AppendField ef = .ok { e with Fields := e.Fields ++ [ef] } := by
  unfold Enum.AppendField
  have hnone : e.Fields.find? (fun f => f.tag == ef.tag) = none := by
    rw [List.find?_eq_none]
    intro f hf
    simpa using h f hf
  rw [hnone]

theorem appendField_error {e : Enum} {ef : EnumField} (h : ∃ f ∈ e.Fields, f.tag = ef.tag) :
    ∃ err, e.AppendField ef = .error err := by
  unfold Enum.AppendField
  cases hfind : e.Fields.find? (fun f => f.tag == ef.tag) with
  | some f => exact ⟨_, rfl⟩
  | none =>
    rw [List.find?_eq_none] at hfind
    obtain ⟨f, hf, hft⟩ := h
    exact absurd (by simpa using hft) (hfind f hf)

theorem taggedFields_tag_ge (toUpper : Str → Str) (ss : List Str) :
    ∀ i, ∀ f ∈ taggedFields toUpper i ss, (i : Int) ≤ f.tag := by
  induction ss with
  | nil => intro i f hf; simp [taggedFields] at hf
  | cons s ss ih =>
    intro i f hf
    simp only [taggedFields, List.mem_cons] at hf
    rcases hf with rfl | hf
    · simp
    · have := ih (i + 1) f hf
      push_cast at this
      omega

theorem taggedFields_getElem (toUpper : Str → Str) (ss : List Str) :
    ∀ (i j : Nat), (taggedFields toUpper i ss)[j]?
      = ss[j]?.map (fun s => ({ name := replaceNonWord (toUpper s), tag := ((i + j : Nat) : Int) } : EnumField)) := by
  induction ss with
  | nil => intro i j; simp [taggedFields]
  | cons s ss ih =>
    intro i j
    cases j with
    | zero => simp [taggedFields]
    | succ j =>
      simp only [taggedFields, List.getElem?_cons_succ, ih]
      congr 1
      funext x
      congr 2
      omega

theorem taggedFields_length (toUpper : Str → Str) (ss : List Str) :
    ∀ i, (taggedFields toUpper i ss).length = ss.length := by
  induction ss with
  | nil => intro i; rfl
  | cons s ss ih => intro i; simp [taggedFields, ih]

/-- The loop of `newEnumFromStrings` from index `i` on, when the tags already in the enum
are below `i`. -/
theorem newEnumFromStringsLoop_ok (toUpper : Str → Str) (ss : List Str) :
    ∀ (e : Enum) (i : Nat), (∀ f ∈ e.Fields, f.tag < (i : Int)) →
      newEnumFromStringsLoop toUpper e i ss
        = .ok { e with Fields := e.Fields ++ taggedFields toUpper i ss } := by
  induction ss with
  | nil =>
    intro e i _
    simp [newEnumFromStringsLoop, taggedFields]
  | cons s ss ih =>
    intro e i h
    have hok : e.AppendField (NewEnumField toUpper s i)
        = .ok { e with Fields := e.Fields ++ [NewEnumField toUpper s i] } :=
      appendField_ok (fun f hf => by
        have := h f hf
        simp only [NewEnumField]
        omega)
    have hih := ih { e with Fields := e.Fields ++ [NewEnumField toUpper s i] } (i + 1) (by
        intro f hf
        simp only [List.mem_append, List.mem_singleton] at hf
        rcases hf with hf | hf
        · have := h f hf
          push_cast
          omega
        · subst hf
          simp only [NewEnumField]
          push_cast
          omega)
    simp only [newEnumFromStringsLoop, hok, hih]
    simp [taggedFields, NewEnumField]

theorem isWord_iff (c : Nat) : isWord c = true ↔ c ∈ wordCharacters := by
  have hw : wordCharacters = [97, 98, 99, 100, 101, 102, 103, 104, 105, 106, 107, 108, 109, 110,
      111, 112, 113, 114, 115, 116, 117, 118, 119, 120, 121, 122, 65, 66, 67, 68, 69, 70, 71, 72,
      73, 74, 75, 76, 77, 78, 79, 80, 81, 82, 83, 84, 85, 86, 87, 88, 89, 90, 48, 49, 50, 51, 52,
      53, 54, 55, 56, 57, 95] := by decide
  rw [hw]
  simp only [isWord, Bool.or_eq_true, Bool.and_eq_true, decide_eq_true_eq, List.mem_cons,
    List.mem_singleton, List.not_mem_nil, or_false]
  omega

theorem replaceNonWord_foldRuns : ∀ (s : Str),
    replaceNonWord s = foldRuns false s
      ∧ ∀ c cs, s = c :: cs → c ∉ wordCharacters → replaceNonWord s = 95 :: foldRuns true s
  | [] => ⟨rfl, fun c cs h _ => absurd h (by simp)⟩
  | [c] => by
    by_cases hc : c ∈ wordCharacters
    · have hw := (isWord_iff c).mpr hc
      refine ⟨by simp [replaceNonWord, foldRuns, hw, hc], ?_⟩
      intro c1 cs h hn
      injection h with h1 h2
      subst h1
      exact absurd hc hn
    · have hw : isWord c = false := by
        rw [← Bool.not_eq_true, isWord_iff]; exact hc
      refine ⟨by simp [replaceNonWord, foldRuns, hw, hc], ?_⟩
      intro c1 cs h _
      simp [replaceNonWord, foldRuns, hw, hc]
  | c :: d :: r => by
    obtain ⟨ih1, ih2⟩ := replaceNonWord_foldRuns (d :: r)
    by_cases hc : c ∈ wordCharacters
    · have hw := (isWord_iff c).mpr hc
      refine ⟨by simp only [replaceNonWord, foldRuns, hw, hc, if_true, ih1], ?_⟩
      intro c1 cs h hn
      injection h with h1 h2
      subst h1
      exact absurd hc hn
    · have hw : isWord c = false := by
        rw [← Bool.not_eq_true, isWord_iff]; exact hc
      by_cases hd : d ∈ wordCharacters
      · have hwd := (isWord_iff d).mpr hd
        have h1 : replaceNonWord (c :: d :: r) = 95 :: foldRuns false (d :: r) := by
          simp only [replaceNonWord, hw, hwd, Bool.false_eq_true, if_false, if_true, ih1]
        have h2 : foldRuns true (d :: r) = foldRuns false (d :: r) := by
          simp only [foldRuns, hd, if_true]
        refine ⟨?_, fun _ _ _ _ => ?_⟩
        · rw [h1]; simp [foldRuns, hc, hd]
        · rw [h1]; simp [foldRuns, hc, hd]
      · have hwd : isWord d = false := by
          rw [← Bool.not_eq_true, isWord_iff]; exact hd
        have h1 : replaceNonWord (c :: d :: r) = 95 :: foldRuns true (d :: r) := by
          simp only [replaceNonWord, hw, hwd, Bool.false_eq_true, if_false]
          exact ih2 d r rfl hd
        refine ⟨?_, fun _ _ _ _ => ?_⟩
        · rw [h1]
          have : foldRuns false (c :: d :: r) = [95] ++ foldRuns true (d :: r) := by
            simp only [foldRuns, hc, hd, if_false, Bool.false_eq_true]
          rw [this]; rfl
        · rw [h1]
          have : foldRuns true (c :: d :: r) = [] ++ foldRuns true (d :: r) := by
            simp only [foldRuns, hc, hd, if_false, if_true]
          rw [this]; rfl

theorem foldNonWord_enum (s : Str) :
    ∀ (rest pre : Str), s = pre ++ rest →
      (rest.enumFrom pre.length).flatMap (fun p =>
          if p.2 ∈ wordCharacters then [p.2]
          else if p.1 = 0 ∨ s.getD (p.1 - 1) 0 ∈ wordCharacters then [95]
          else [])
        = foldRuns (decide (¬ (pre.length = 0 ∨ s.getD (pre.length - 1) 0 ∈ wordCharacters))) rest := by
  intro rest
  induction rest with
  | nil => intro pre _; rfl
  | cons c cs ih =>
    intro pre hs
    have hnext := ih (pre ++ [c]) (by rw [hs]; simp)
    have hget : s.getD pre.length 0 = c := by
      rw [hs, List.getD_eq_getElem?_getD, List.getElem?_append_right (Nat.le_refl _)]
      simp
    simp only [List.length_append, List.length_singleton, Nat.add_sub_cancel, hget,
      Nat.add_one_ne_zero, false_or] at hnext
    simp only [List.enumFrom_cons, List.flatMap_cons, hnext, foldRuns, decide_eq_true_eq]
    by_cases hc : c ∈ wordCharacters
    · rw [if_pos hc, if_pos hc, decide_eq_false (not_not.mpr hc)]
      rfl
    · rw [if_neg hc, if_neg hc, decide_eq_true hc]
      by_cases hp : pre.length = 0 ∨ s.getD (pre.length - 1) 0 ∈ wordCharacters
      · rw [if_pos hp, if_neg (not_not.mpr hp)]
      · rw [if_neg hp, if_pos hp]

theorem replaceNonWord_fold (s : Str) : replaceNonWord s = foldNonWord s := by
  rw [(replaceNonWord_foldRuns s).1]
  have h := foldNonWord_enum s s [] rfl
  simp only [List.length_nil, true_or, not_true_eq_false, decide_False] at h
  rw [← h]
  rfl

/-! ## Lemmas on the extraction -/

theorem parseColumn_table (toLower toUpper : Str → Str) (s : Schema) (msg : Message)
    (col : Column) (hcol : toLower col.DataType ∈ typeTable.map Prod.fst) :
    parseColumn toLower toUpper s msg col
      = some { schema := s, msg := msg.AppendField (fieldOfColumn toLower col), err := none } := by
  simp only [typeTable, List.map, List.mem_cons, List.not_mem_nil, or_false] at hcol
  rcases hcol with h | h | h | h | h | h | h | h | h | h | h | h | h | h | h | h | h | h | h
    | h | h | h | h | h <;>
    (unfold parseColumn fieldOfColumn; simp only [h]; rfl)

theorem mapGet_keyed (f : Str → Message) (ns : List Str) (n : Str) :
    mapGet n (ns.map (fun k => (k, f k))) = if n ∈ ns then some (f n) else none := by
  induction ns with
  | nil => simp [mapGet]
  | cons k ks ih =>
    simp only [List.map_cons, mapGet, ih, List.mem_cons]
    by_cases h : k = n
    · subst h; simp
    · have h2 : ¬ n = k := fun e => h e.symm
      simp [h, h2]

theorem mapSet_keyed (f : Str → Message) (ns : List Str) (n : Str) (v : Message) :
    mapSet n v (ns.map (fun k => (k, f k))) = ns.map (fun k => (k, if k = n then v else f k)) := by
  simp only [mapSet, List.map_map]
  apply List.map_congr_left
  intro k _
  by_cases h : k = n <;> simp [h]

theorem mapGet_append_none {n : Str} {a : MessageMap} (b : MessageMap) (h : mapGet n a = none) :
    mapGet n (a ++ b) = mapGet n b := by
  induction a with
  | nil => rfl
  | cons p ps ih =>
    obtain ⟨k, m⟩ := p
    simp only [mapGet] at h
    simp only [List.cons_append, mapGet]
    by_cases hk : k = n
    · simp [hk] at h
    · simp only [hk, if_false] at h ⊢
      exact ih h

theorem firstSeen_append (l : List Str) (x : Str) :
    firstSeen (l ++ [x]) = if x ∈ firstSeen l then firstSeen l else firstSeen l ++ [x] := by
  simp [firstSeen, List.foldl_append]

theorem mem_firstSeen (l : List Str) (n : Str) : n ∈ firstSeen l ↔ n ∈ l := by
  induction l using List.reverseRecOn with
  | nil => simp [firstSeen]
  | append_singleton l x ih =>
    rw [firstSeen_append]
    by_cases hx : x ∈ firstSeen l
    · simp only [hx, if_true, List.mem_append, List.mem_singleton, ih]
      constructor
      · exact Or.inl
      · rintro (h | h)
        · exact h
        · subst h; exact ih.mp hx
    · simp only [hx, if_false, List.mem_append, List.mem_singleton, ih]

theorem nodup_firstSeen (l : List Str) : (firstSeen l).Nodup := by
  induction l using List.reverseRecOn with
  | nil => simp [firstSeen]
  | append_singleton l x ih =>
    rw [firstSeen_append]
    by_cases hx : x ∈ firstSeen l
    · simpa [hx] using ih
    · simp only [hx, if_false]
      exact List.Nodup.append ih (List.nodup_singleton x) (by simpa using hx)

theorem tableGroup_append_other (snakeToCamel toLower : Str → Str) (l : List Column) (c : Column)
    (k : Str) (h : snakeToCamel c.TableName ≠ k) :
    tableGroup snakeToCamel toLower (l ++ [c]) k = tableGroup snakeToCamel toLower l k := by
  simp [tableGroup, List.filter_append, List.find?_append, List.filter_cons, h]

theorem tableGroup_append_old (snakeToCamel toLower : Str → Str) (l : List Column) (c : Column)
    (h : snakeToCamel c.TableName ∈ l.map (fun c => snakeToCamel c.TableName)) :
    tableGroup snakeToCamel toLower (l ++ [c]) (snakeToCamel c.TableName)
      = (tableGroup snakeToCamel toLower l (snakeToCamel c.TableName)).AppendField
          (fieldOfColumn toLower c) := by
  obtain ⟨c1, hc1, hn⟩ := List.mem_map.mp h
  have hsome : (l.find? (fun x => decide (snakeToCamel x.TableName = snakeToCamel c.TableName))).isSome := by
    rw [List.find?_isSome]
    exact ⟨c1, hc1, by simpa using hn⟩
  obtain ⟨c2, hc2⟩ := Option.isSome_iff_exists.mp hsome
  simp [tableGroup, Message.AppendField, List.filter_append, List.find?_append, List.filter_cons, hc2]

theorem tableGroup_append_new (snakeToCamel toLower : Str → Str) (l : List Column) (c : Column)
    (h : snakeToCamel c.TableName ∉ l.map (fun c => snakeToCamel c.TableName)) :
    tableGroup snakeToCamel toLower (l ++ [c]) (snakeToCamel c.TableName)
      = { Name := snakeToCamel c.TableName, Comment := c.TableComment
          Fields := [fieldOfColumn toLower c] } := by
  have hall : ∀ x ∈ l, ¬ snakeToCamel x.TableName = snakeToCamel c.TableName := by
    intro x hx e
    exact h (List.mem_map.mpr ⟨x, hx, e⟩)
  have hfind : l.find? (fun x => decide (snakeToCamel x.TableName = snakeToCamel c.TableName)) = none := by
    rw [List.find?_eq_none]
    intro x hx
    simpa using hall x hx
  have hfilter : l.filter (fun x => decide (snakeToCamel x.TableName = snakeToCamel c.TableName)) = [] := by
    rw [List.filter_eq_nil_iff]
    intro x hx
    simpa using hall x hx
  simp [tableGroup, List.filter_append, List.find?_append, List.filter_cons, hfind, hfilter]

theorem addColumn_groupMap (snakeToCamel toLower : Str → Str) (l : List Column) (c : Column) :
    addColumn snakeToCamel toLower (groupMap snakeToCamel toLower l) c
      = groupMap snakeToCamel toLower (l ++ [c]) := by
  unfold addColumn groupMap
  rw [List.map_append, List.map_singleton, firstSeen_append, mapGet_keyed]
  by_cases hin : snakeToCamel c.TableName ∈ firstSeen (l.map (fun c => snakeToCamel c.TableName))
  · have hmem := (mem_firstSeen _ _).mp hin
    simp only [hin, if_true]
    rw [mapGet_keyed, mapSet_keyed]
    simp only [hin, if_true, Option.getD_some]
    apply List.map_congr_left
    intro k _
    by_cases hk : k = snakeToCamel c.TableName
    · subst hk
      simp only [if_true]
      rw [tableGroup_append_old snakeToCamel toLower l c hmem]
    · simp only [hk, if_false]
      rw [tableGroup_append_other snakeToCamel toLower l c k (fun e => hk e.symm)]
  · have hmem : snakeToCamel c.TableName ∉ l.map (fun c => snakeToCamel c.TableName) :=
      fun h => hin ((mem_firstSeen _ _).mpr h)
    simp only [hin, if_false]
    have hnone : mapGet (snakeToCamel c.TableName)
        ((firstSeen (l.map (fun c => snakeToCamel c.TableName))).map
          (fun n => (n, tableGroup snakeToCamel toLower l n))) = none := by
      rw [mapGet_keyed]; simp [hin]
    rw [mapGet_append_none _ hnone]
    simp only [mapGet, if_true, Option.getD_some, mapSet, List.map_append, List.map_map,
      List.map_cons, List.map_nil]
    congr 1
    · apply List.map_congr_left
      intro k hk
      have hne : k ≠ snakeToCamel c.TableName := fun e => hin (e ▸ hk)
      simp only [Function.comp, hne, if_false]
      rw [tableGroup_append_other snakeToCamel toLower l c k (fun e => hne e.symm)]
    · rw [tableGroup_append_new snakeToCamel toLower l c hmem]
      rfl

theorem foldl_addColumn (snakeToCamel toLower : Str → Str) (l : List Column) :
    l.foldl (addColumn snakeToCamel toLower) [] = groupMap snakeToCamel toLower l := by
  induction l using List.reverseRecOn with
  | nil => rfl
  | append_singleton l c ih =>
    rw [List.foldl_append, ih]
    exact addColumn_groupMap snakeToCamel toLower l c

theorem typesFromColumnsLoop_table (snakeToCamel toLower toUpper : Str → Str)
    (ignoreTables : List Str) (cols : List Column) :
    ∀ (s : Schema) (mm : MessageMap),
      (∀ c ∈ cols, c.TableName ∉ ignoreTables → toLower c.DataType ∈ typeTable.map Prod.fst) →
      typesFromColumnsLoop snakeToCamel toLower toUpper ignoreTables s mm cols
        = some { schema := s
                 messageMap := (keptColumns ignoreTables cols).foldl
                   (addColumn snakeToCamel toLower) mm
                 err := none } := by
  induction cols with
  | nil => intro s mm _; rfl
  | cons c cs ih =>
    intro s mm h
    have hcs : ∀ c ∈ cs, c.TableName ∉ ignoreTables → toLower c.DataType ∈ typeTable.map Prod.fst :=
      fun x hx => h x (List.mem_cons_of_mem _ hx)
    unfold typesFromColumnsLoop
    by_cases hig : c.TableName ∈ ignoreTables
    · simp only [hig, if_true]
      rw [ih s mm hcs]
      simp [keptColumns, List.filter_cons, hig]
    · simp only [hig, if_false]
      rw [parseColumn_table toLower toUpper s _ c (h c (List.mem_cons_self _ _) hig)]
      simp only []
      rw [ih s _ hcs]
      simp only [keptColumns, List.filter_cons, hig, not_false_eq_true, decide_True, if_true,
        List.foldl_cons]
      rfl

theorem finishColumn_schema (s : Schema) (msg : Message) (col : Column) (fieldType : Str) :
    (finishColumn s msg col fieldType).schema = s := by
  unfold finishColumn
  split <;> rfl

theorem finishColumn_msg_name (s : Schema) (msg : Message) (col : Column) (fieldType : Str) :
    (finishColumn s msg col fieldType).msg.Name = msg.Name := by
  unfold finishColumn
  split <;> rfl

theorem schema_enums_nil (s : Schema) : ({ s with Enums := s.Enums ++ [] } : Schema) = s := by
  cases s
  simp

theorem parseColumn_shape {toLower toUpper : Str → Str} {s : Schema} {msg : Message}
    {col : Column} {p : Parsed} (h : parseColumn toLower toUpper s msg col = some p) :
    (∃ es, p.schema = { s with Enums := s.Enums ++ es }) ∧ p.msg.Name = msg.Name := by
  have hfin : ∀ ft, some (finishColumn s msg col ft) = some p →
      (∃ es, p.schema = { s with Enums := s.Enums ++ es }) ∧ p.msg.Name = msg.Name := by
    intro ft hft
    injection hft with hft
    subst hft
    exact ⟨⟨[], by rw [finishColumn_schema, schema_enums_nil]⟩, finishColumn_msg_name s msg col ft⟩
  unfold parseColumn at h
  simp only [] at h
  split_ifs at h
  · exact hfin _ h
  · split at h
    · exact absurd h (by simp)
    · split at h
      · injection h with h
        subst h
        exact ⟨⟨[], (schema_enums_nil s).symm⟩, rfl⟩
      · injection h with h
        subst h
        exact ⟨⟨[_], by rw [finishColumn_schema]⟩, finishColumn_msg_name _ msg col _⟩
  all_goals exact hfin _ h

theorem mapGet_mem {n : Str} {m : Message} {mm : MessageMap} (h : mapGet n mm = some m) :
    (n, m) ∈ mm := by
  induction mm with
  | nil => simp [mapGet] at h
  | cons p ps ih =>
    obtain ⟨k, v⟩ := p
    simp only [mapGet] at h
    by_cases hk : k = n
    · simp only [hk, if_true, Option.some.injEq] at h
      subst hk; subst h
      exact List.mem_cons_self _ _
    · simp only [hk, if_false] at h
      exact List.mem_cons_of_mem _ (ih h)

theorem mapGet_none {n : Str} {mm : MessageMap} (h : mapGet n mm = none) :
    n ∉ mm.map Prod.fst := by
  induction mm with
  | nil => simp
  | cons p ps ih =>
    obtain ⟨k, v⟩ := p
    simp only [mapGet] at h
    by_cases hk : k = n
    · simp [hk] at h
    · simp only [hk, if_false] at h
      simp only [List.map_cons, List.mem_cons, not_or]
      exact ⟨fun e => hk e.symm, ih h⟩

theorem keysOK_mapSet {n : Str} {v : Message} {mm : MessageMap} (h : KeysOK mm)
    (hv : v.Name = n) : KeysOK (mapSet n v mm) := by
  have hkeys : (mapSet n v mm).map Prod.fst = mm.map Prod.fst := by
    simp only [mapSet, List.map_map]
    apply List.map_congr_left
    intro p _
    by_cases hp : p.1 = n <;> simp [hp]
  refine ⟨hkeys ▸ h.1, ?_⟩
  intro p hp
  simp only [mapSet, List.mem_map] at hp
  obtain ⟨q, hq, hqp⟩ := hp
  by_cases hqn : q.1 = n
  · simp only [hqn, if_true] at hqp
    subst hqp
    exact hv
  · simp only [hqn, if_false] at hqp
    subst hqp
    exact h.2 q hq

theorem keysOK_added {n : Str} {mm : MessageMap} (comment : Str) (h : KeysOK mm) :
    KeysOK (match mapGet n mm with
      | some _ => mm
      | none => mm ++ [(n, { Name := n, Comment := comment, Fields := [] })]) := by
  cases hget : mapGet n mm with
  | some m => exact h
  | none =>
    refine ⟨?_, ?_⟩
    · simp only [List.map_append, List.map_cons, List.map_nil]
      exact List.Nodup.append h.1 (List.nodup_singleton n) (by simpa using mapGet_none hget)
    · intro p hp
      rcases List.mem_append.mp hp with hp | hp
      · exact h.2 p hp
      · rw [List.mem_singleton.mp hp]

theorem keysOK_getD {n : Str} {mm : MessageMap} (comment : Str) (h : KeysOK mm) :
    ((mapGet n mm).getD { Name := n, Comment := comment, Fields := [] }).Name = n := by
  cases hget : mapGet n mm with
  | some m => exact h.2 (n, m) (mapGet_mem hget)
  | none => rfl

theorem schema_enums_append (s : Schema) (es es2 : List Enum) :
    ({ ({ s with Enums := s.Enums ++ es } : Schema) with
        Enums := ({ s with Enums := s.Enums ++ es } : Schema).Enums ++ es2 } : Schema)
      = { s with Enums := s.Enums ++ (es ++ es2) } := by
  simp [List.append_assoc]

theorem typesFromColumnsLoop_inv (snakeToCamel toLower toUpper : Str → Str)
    (ignoreTables : List Str) (cols : List Column) :
    ∀ (s : Schema) (mm : MessageMap) (r : ColumnsRun),
      typesFromColumnsLoop snakeToCamel toLower toUpper ignoreTables s mm cols = some r →
      KeysOK mm →
      (∃ es, r.schema = { s with Enums := s.Enums ++ es }) ∧ KeysOK r.messageMap := by
  induction cols with
  | nil =>
    intro s mm r h hk
    simp only [typesFromColumnsLoop, Option.some.injEq] at h
    subst h
    exact ⟨⟨[], (schema_enums_nil s).symm⟩, hk⟩
  | cons c cs ih =>
    intro s mm r h hk
    unfold typesFromColumnsLoop at h
    by_cases hig : c.TableName ∈ ignoreTables
    · simp only [hig, if_true] at h
      exact ih s mm r h hk
    · simp only [hig, if_false] at h
      have hk1 := keysOK_added (n := snakeToCamel c.TableName) c.TableComment hk
      have hname := keysOK_getD (n := snakeToCamel c.TableName) c.TableComment hk1
      split at h
      · exact absurd h (by simp)
      · rename_i p hp
        obtain ⟨⟨es, hes⟩, hpn⟩ := parseColumn_shape hp
        have hk2 := keysOK_mapSet (v := p.msg) hk1 (hpn.trans hname)
        split at h
        · injection h with h
          subst h
          exact ⟨⟨es, hes⟩, hk2⟩
        · obtain ⟨⟨es2, hes2⟩, hk3⟩ := ih _ _ r h hk2
          refine ⟨⟨es ++ es2, ?_⟩, hk3⟩
          rw [hes2, hes, schema_enums_append]

theorem strLt_cons (a b : Nat) (as bs : Str) :
    strLt (a :: as) (b :: bs) = true ↔ a < b ∨ (a = b ∧ strLt as bs = true) := by
  simp [strLt]

theorem strLt_asymm : ∀ (a b : Str), strLt a b = true → strLt b a = false
  | [], [], h => by simp [strLt] at h
  | [], _ :: _, _ => rfl
  | _ :: _, [], h => by simp [strLt] at h
  | a :: as, b :: bs, h => by
    rw [strLt_cons] at h
    rw [← Bool.not_eq_true, strLt_cons]
    rintro (h2 | ⟨h2, h3⟩)
    · rcases h with h | ⟨h, _⟩ <;> omega
    · rcases h with h | ⟨_, h⟩
      · omega
      · rw [strLt_asymm as bs h] at h3
        exact absurd h3 (by simp)

theorem strLt_le_trans : ∀ (a b c : Str), strLt b a = false → strLt c b = false → strLt c a = false
  | [], _, [], _, _ => rfl
  | [], _, _ :: _, _, _ => rfl
  | _ :: _, [], _, h, _ => by simp [strLt] at h
  | _ :: _, _ :: _, [], _, h => by simp [strLt] at h
  | a :: as, b :: bs, c :: cs, h1, h2 => by
    rw [← Bool.not_eq_true, strLt_cons] at h1 h2 ⊢
    rw [not_or, not_and] at h1 h2
    rintro (h3 | ⟨h3, h4⟩)
    · omega
    · subst h3
      have hba : b = c := by omega
      subst hba
      have e1 := Bool.eq_false_iff.mpr (h1.2 rfl)
      have e2 := Bool.eq_false_iff.mpr (h2.2 rfl)
      rw [strLt_le_trans as bs cs e1 e2] at h4
      exact absurd h4 (by simp)

theorem strLt_antisymm : ∀ (a b : Str), strLt a b = false → strLt b a = false → a = b
  | [], [], _, _ => rfl
  | [], _ :: _, h, _ => by simp [strLt] at h
  | _ :: _, [], _, h => by simp [strLt] at h
  | a :: as, b :: bs, h1, h2 => by
    rw [← Bool.not_eq_true, strLt_cons, not_or, not_and] at h1 h2
    have hab : a = b := by omega
    subst hab
    rw [strLt_antisymm as bs (Bool.eq_false_iff.mpr (h1.2 rfl)) (Bool.eq_false_iff.mpr (h2.2 rfl))]

theorem sortsBy_sortByName {α : Type} (name : α → Str) :
    SortsBy (fun a b => strLt (name a) (name b)) (sortByName name) := by
  intro l
  have htotal : IsTotal α (fun a b => strLt (name b) (name a) = false) :=
    ⟨fun a b => by
      cases h : strLt (name b) (name a)
      · exact Or.inl rfl
      · exact Or.inr (strLt_asymm _ _ h)⟩
  have htrans : IsTrans α (fun a b => strLt (name b) (name a) = false) :=
    ⟨fun a b c h1 h2 => strLt_le_trans (name a) (name b) (name c) h1 h2⟩
  exact ⟨List.perm_insertionSort _ l, List.sorted_insertionSort _ l⟩

theorem strictly_sorted_of_nodup {α : Type} (name : α → Str) {l : List α}
    (hsorted : l.Pairwise (fun a b => strLt (name b) (name a) = false))
    (hnodup : (l.map name).Nodup) :
    l.Pairwise (fun a b => strLt (name a) (name b) = true) := by
  have hne : l.Pairwise (fun a b => name a ≠ name b) := List.pairwise_map.mp hnodup
  refine (hsorted.and hne).imp ?_
  intro a b h
  cases hlt : strLt (name a) (name b)
  · exact absurd (strLt_antisymm _ _ hlt h.1) h.2
  · rfl

theorem typesFromColumns_ok {snakeToCamel toLower toUpper : Str → Str}
    {enumerate : List Message → List Message} {s : Schema} {cols : List Column}
    {ignoreTables : List Str} {r : Extracted}
    (hrun : typesFromColumns snakeToCamel toLower toUpper enumerate s cols ignoreTables = some r)
    (herr : r.err = none) :
    ∃ mm es, KeysOK mm
      ∧ r.schema.Messages = s.Messages ++ enumerate (mm.map Prod.snd)
      ∧ r.schema.Enums = s.Enums ++ es := by
  unfold typesFromColumns at hrun
  split at hrun
  · exact absurd hrun (by simp)
  · rename_i r0 hr0
    obtain ⟨⟨es, hes⟩, hk⟩ := typesFromColumnsLoop_inv snakeToCamel toLower toUpper ignoreTables
      cols s [] r0 hr0 ⟨List.nodup_nil, fun p hp => absurd hp (List.not_mem_nil p)⟩
    split at hrun
    · injection hrun with hrun
      subst hrun
      exact absurd herr (by simp)
    · injection hrun with hrun
      subst hrun
      exact ⟨r0.messageMap, es, hk, by simp [hes], by simp [hes]⟩

theorem keysOK_names {mm : MessageMap} (h : KeysOK mm) :
    ((mm.map Prod.snd).map Message.Name).Nodup := by
  have : (mm.map Prod.snd).map Message.Name = mm.map Prod.fst := by
    rw [List.map_map]
    exact List.map_congr_left (fun p hp => h.2 p hp)
  rw [this]
  exact h.1

/-! ## Lemmas on the order of the messages -/

theorem sorted_unique {sort : List Message → List Message}
    (hsort : SortsBy MessageCollection.Less sort) {l1 l2 : List Message} (hperm : l1.Perm l2)
    (hnodup : (l1.map Message.Name).Nodup) : sort l1 = sort l2 := by
  have hp : (sort l1).Perm (sort l2) := ((hsort l1).1.trans hperm).trans (hsort l2).1.symm
  have hn1 : ((sort l1).map Message.Name).Nodup :=
    (((hsort l1).1).map Message.Name).nodup_iff.mpr hnodup
  have hn2 : ((sort l2).map Message.Name).Nodup :=
    ((hp.map Message.Name).nodup_iff).mp hn1
  have hs1 := strictly_sorted_of_nodup Message.Name (hsort l1).2 hn1
  have hs2 := strictly_sorted_of_nodup Message.Name (hsort l2).2 hn2
  have hanti : IsAntisymm Message (fun a b => strLt a.Name b.Name = true) :=
    ⟨fun a b h1 h2 => by rw [strLt_asymm _ _ h1] at h2; exact absurd h2 (by simp)⟩
  exact List.eq_of_perm_of_sorted hp hs1 hs2

theorem GenerateSchema_enumerate (snakeToCamel toLower toUpper : Str → Str)
    (enumerate1 enumerate2 : List Message → List Message) (sortImports : List Str → List Str)
    (sortMessages : List Message → List Message) (sortEnums : List Enum → List Enum)
    (columns : Except Str (List Column)) (ignoreTables : List Str) (serviceName dir : Str)
    (h1 : ∀ l, (enumerate1 l).Perm l) (h2 : ∀ l, (enumerate2 l).Perm l)
    (hsort : SortsBy MessageCollection.Less sortMessages) :
    GenerateSchema snakeToCamel toLower toUpper enumerate1 sortImports sortMessages sortEnums
        columns ignoreTables serviceName dir
      = GenerateSchema snakeToCamel toLower toUpper enumerate2 sortImports sortMessages sortEnums
        columns ignoreTables serviceName dir := by
  unfold GenerateSchema
  cases columns with
  | error e => rfl
  | ok cols =>
    simp only []
    split_ifs
    · rfl
    · unfold typesFromColumns
      cases hloop : typesFromColumnsLoop snakeToCamel toLower toUpper ignoreTables
          { Syntax := synatx, ServiceName := serviceName, Dir := dir, Imports := [], Messages := [],
            CusMessages := [], Enums := [], GenerateCurdMethod := [] } [] cols with
      | none => rfl
      | some r0 =>
        obtain ⟨⟨es, hes⟩, hk⟩ := typesFromColumnsLoop_inv snakeToCamel toLower toUpper
          ignoreTables cols _ [] r0 hloop
          ⟨List.nodup_nil, fun p hp => absurd hp (List.not_mem_nil p)⟩
        simp only []
        cases herr : r0.err with
        | some e => rfl
        | none =>
          simp only [hes, List.nil_append]
          rw [sorted_unique hsort ((h1 _).trans (h2 _).symm)
            ((((h1 (r0.messageMap.map Prod.snd)).map Message.Name).nodup_iff).mpr (keysOK_names hk))]

/-! ## Lemmas on the lines of a block -/

theorem contains_slashes_repeated (t : Str) :
    Contains (B "[]*" ++ t) (B "//") = Contains t (B "//") := by
  have h1 : B "[]*" = [91, 93, 42] := by decide
  have h2 : B "//" = [47, 47] := by decide
  rw [h1, h2]
  simp [Contains, List.isPrefixOf]

theorem protoFields_total (camelToSnake : Str → Str)
    (hfield : ∀ line, protoField camelToSnake line ≠ none) (lines : List Str) :
    ∃ fs, protoFields camelToSnake lines = some fs ∧ fs.length ≤ lines.length := by
  induction lines with
  | nil => exact ⟨[], rfl, Nat.le_refl _⟩
  | cons l ls ih =>
    obtain ⟨fs, hfs, hlen⟩ := ih
    cases hl : protoField camelToSnake l with
    | none => exact absurd hl (hfield l)
    | some r =>
      cases r with
      | none => exact ⟨fs, by simp [protoFields, hl, hfs], by simp; omega⟩
      | some f => exact ⟨f :: fs, by simp [protoFields, hl, hfs], by simp; omega⟩

theorem protoField_eq (camelToSnake : Str → Str) (line : Str) :
    protoField camelToSnake line
      = if (tokens line).length < 7
            ∨ Contains ((tokens line).getD (typeIndex line) []) (B "//") = true then some none
        else some (some
                { Typ := (if isRepeated line then B "[]*" else [])
                    ++ (tokens line).getD (typeIndex line) []
                  Name := (tokens line).getD (typeIndex line + 1) []
                  Comment := removeSlashes ((tokens line).getD (typeIndex line + 4) [])
                  ColumnName := camelToSnake ((tokens line).getD (typeIndex line + 1) []) }) := by
  unfold protoField typeIndex isRepeated tokens
  generalize splitByte 32 line = toks
  rcases toks with _ | ⟨a0, _ | ⟨a1, _ | ⟨a2, _ | ⟨a3, _ | ⟨a4, _ | ⟨a5, _ | ⟨a6, _ | ⟨a7, _ | ⟨a8, r⟩⟩⟩⟩⟩⟩⟩⟩⟩
  all_goals try (simp; done)
  · by_cases hc : Contains a2 (B "//") = true <;> simp [hc, NewMessageField]
  · by_cases hr : a2 = B "repeated"
    · subst hr
      by_cases hc : Contains a3 (B "//") = true <;>
        simp [hc, NewMessageField, contains_slashes_repeated]
    · by_cases hc : Contains a2 (B "//") = true <;> simp [hr, hc, NewMessageField]
  · by_cases hc : Contains a2 (B "//") = true <;> simp [hc, NewMessageField]

theorem protoField_ne_none (camelToSnake : Str → Str) (line : Str) :
    protoField camelToSnake line ≠ none := by
  rw [protoField_eq]
  split <;> simp


theorem protoMessages_missing (find : Str → Str → Option Str) (snakeToCamel camelToSnake : Str → Str)
    (text : Str) (vs : List Str) :
    ∀ (acc : List Message), (∃ v ∈ vs, find v text = none) →
      protoMessages find snakeToCamel camelToSnake text acc vs = none := by
  induction vs with
  | nil => intro acc h; obtain ⟨v, hv, _⟩ := h; exact absurd hv (List.not_mem_nil v)
  | cons v vs ih =>
    intro acc h
    unfold protoMessages
    cases hf : find v text with
    | none => rfl
    | some block =>
      have htail : ∃ w ∈ vs, find w text = none := by
        obtain ⟨w, hw, hwn⟩ := h
        rcases List.mem_cons.mp hw with e | hw
        · subst e; rw [hf] at hwn; exact absurd hwn (by simp)
        · exact ⟨w, hw, hwn⟩
      simp only []
      split
      · exact ih acc htail
      · split
        · rfl
        · exact ih _ htail

/-! ## Lemmas on the types of the fields -/

theorem finishColumn_typed (s : Schema) (msg : Message) (col : Column) (fieldType : Str)
    (h : msg.Typed) : (finishColumn s msg col fieldType).msg.Typed := by
  unfold finishColumn
  split
  · exact h
  · rename_i hne
    intro f hf
    simp only [Message.AppendField, List.mem_append, List.mem_singleton] at hf
    rcases hf with hf | hf
    · exact h f hf
    · subst hf
      exact hne

theorem parseColumn_typed {toLower toUpper : Str → Str} {s : Schema} {msg : Message}
    {col : Column} {p : Parsed} (h : parseColumn toLower toUpper s msg col = some p)
    (hmsg : msg.Typed) : p.msg.Typed := by
  have hfin : ∀ (s0 : Schema) (ft : Str), some (finishColumn s0 msg col ft) = some p → p.msg.Typed := by
    intro s0 ft hft
    injection hft with hft
    subst hft
    exact finishColumn_typed s0 msg col ft hmsg
  unfold parseColumn at h
  simp only [] at h
  split_ifs at h
  · exact hfin _ _ h
  · split at h
    · exact absurd h (by simp)
    · split at h
      · injection h with h
        subst h
        exact hmsg
      · exact hfin _ _ h
  all_goals exact hfin _ _ h

theorem typed_added {n : Str} {mm : MessageMap} (comment : Str) (h : ∀ p ∈ mm, p.2.Typed) :
    ∀ p ∈ (match mapGet n mm with
      | some _ => mm
      | none => mm ++ [(n, ({ Name := n, Comment := comment, Fields := [] } : Message))]),
      p.2.Typed := by
  intro p hp
  split at hp
  · exact h p hp
  · rcases List.mem_append.mp hp with hp | hp
    · exact h p hp
    · rw [List.mem_singleton.mp hp]
      intro f hf
      exact absurd hf (List.not_mem_nil f)

theorem typed_getD {n : Str} {mm : MessageMap} (comment : Str) (h : ∀ p ∈ mm, p.2.Typed) :
    ((mapGet n mm).getD { Name := n, Comment := comment, Fields := [] }).Typed := by
  cases hget : mapGet n mm with
  | some m => exact h _ (mapGet_mem hget)
  | none =>
    intro f hf
    exact absurd hf (List.not_mem_nil f)

theorem typed_mapSet {n : Str} {v : Message} {mm : MessageMap} (h : ∀ p ∈ mm, p.2.Typed)
    (hv : v.Typed) : ∀ p ∈ mapSet n v mm, p.2.Typed := by
  intro p hp
  simp only [mapSet, List.mem_map] at hp
  obtain ⟨q, hq, hqp⟩ := hp
  by_cases hqn : q.1 = n
  · simp only [hqn, if_true] at hqp
    subst hqp
    exact hv
  · simp only [hqn, if_false] at hqp
    subst hqp
    exact h q hq

theorem typesFromColumnsLoop_typed (snakeToCamel toLower toUpper : Str → Str)
    (ignoreTables : List Str) (cols : List Column) :
    ∀ (s : Schema) (mm : MessageMap) (r : ColumnsRun),
      typesFromColumnsLoop snakeToCamel toLower toUpper ignoreTables s mm cols = some r →
      (∀ p ∈ mm, p.2.Typed) → ∀ p ∈ r.messageMap, p.2.Typed := by
  induction cols with
  | nil =>
    intro s mm r h hk
    simp only [typesFromColumnsLoop, Option.some.injEq] at h
    subst h
    exact hk
  | cons c cs ih =>
    intro s mm r h hk
    unfold typesFromColumnsLoop at h
    by_cases hig : c.TableName ∈ ignoreTables
    · simp only [hig, if_true] at h
      exact ih s mm r h hk
    · simp only [hig, if_false] at h
      have hk1 := typed_added (n := snakeToCamel c.TableName) c.TableComment hk
      have hmsg := typed_getD (n := snakeToCamel c.TableName) c.TableComment hk1
      split at h
      · exact absurd h (by simp)
      · rename_i p hp
        have hp2 := typed_mapSet (n := snakeToCamel c.TableName) hk1 (parseColumn_typed hp hmsg)
        split at h
        · injection h with h
          subst h
          exact hp2
        · exact ih _ _ r h hp2

theorem GenerateSchema_typed (snakeToCamel toLower toUpper : Str → Str)
    (enumerate : List Message → List Message) (sortImports : List Str → List Str)
    (sortMessages : List Message → List Message) (sortEnums : List Enum → List Enum)
    (columns : Except Str (List Column)) (ignoreTables : List Str) (serviceName dir : Str)
    (sch : Schema) (henum : ∀ l, (enumerate l).Perm l) (hsort : ∀ l, (sortMessages l).Perm l)
    (hok : GenerateSchema snakeToCamel toLower toUpper enumerate sortImports sortMessages sortEnums
      columns ignoreTables serviceName dir = some (.ok sch)) :
    ∀ m ∈ sch.Messages, ∀ f ∈ m.Fields, f.Typ ≠ [] := by
  unfold GenerateSchema at hok
  split at hok
  · exact absurd hok (by simp)
  · rename_i cols
    split_ifs at hok
    · exact absurd hok (by simp)
    · simp only [] at hok
      split at hok
      · exact absurd hok (by simp)
      · rename_i r hr
        split at hok
        · exact absurd hok (by simp)
        · rename_i herr
          simp only [Option.some.injEq, Except.ok.injEq] at hok
          subst hok
          unfold typesFromColumns at hr
          split at hr
          · exact absurd hr (by simp)
          · rename_i r0 hr0
            have hmm := typesFromColumnsLoop_typed snakeToCamel toLower toUpper ignoreTables cols
              _ [] r0 hr0 (fun p hp => absurd hp (List.not_mem_nil p))
            obtain ⟨⟨es, hes⟩, _⟩ := typesFromColumnsLoop_inv snakeToCamel toLower toUpper
              ignoreTables cols _ [] r0 hr0
              ⟨List.nodup_nil, fun p hp => absurd hp (List.not_mem_nil p)⟩
            split at hr
            · injection hr with hr
              subst hr
              exact absurd herr (by simp)
            · injection hr with hr
              subst hr
              intro m hm
              have hm1 := (hsort _).mem_iff.mp hm
              simp only [hes, List.nil_append] at hm1
              have hm2 := (henum _).mem_iff.mp hm1
              obtain ⟨p, hp, hpm⟩ := List.mem_map.mp hm2
              subst hpm
              exact hmm p hp

/-! ## Lemmas on the directive scan -/

theorem directiveNamesFuel_unended (fuel : Nat) :
    ∀ (rs strs : List Str), (∀ l ∈ rs, Contains l (B "Struct Gen End") = false) →
      ∃ names, directiveNamesFuel fuel rs strs = .error names
        ∧ names.length = strs.length + fuel := by
  induction fuel with
  | zero => intro rs strs _; exact ⟨strs, rfl, rfl⟩
  | succ fuel ih =>
    intro rs strs h
    have hread : Contains (readString rs).1 (B "Struct Gen End") = false := by
      cases rs with
      | nil => decide
      | cons l ls => exact h l (List.mem_cons_self _ _)
    have hrest : ∀ l ∈ (readString rs).2, Contains l (B "Struct Gen End") = false := by
      cases rs with
      | nil => intro l hl; exact absurd hl (List.not_mem_nil l)
      | cons l ls => intro x hx; exact h x (List.mem_cons_of_mem _ hx)
    obtain ⟨names, hn, hlen⟩ := ih (readString rs).2
      (strs ++ [TrimSpace (removeSlashes (readString rs).1)]) hrest
    refine ⟨names, ?_, ?_⟩
    · simp only [directiveNamesFuel, hread, Bool.false_eq_true, if_false, hn]
    · rw [hlen, List.length_append, List.length_singleton]
      omega

theorem directiveNames_unended (rs : List Str)
    (h : ∀ l ∈ rs, Contains l (B "Struct Gen End") = false) : directiveNames rs = .diverges := by
  induction rs with
  | nil => rfl
  | cons l ls ih =>
    have hl := h l (List.mem_cons_self _ _)
    simp only [directiveNames, hl, Bool.false_eq_true, if_false,
      ih (fun x hx => h x (List.mem_cons_of_mem _ hx))]

theorem directiveNames_done (rs : List Str) :
    ∀ (names rest strs : List Str), directiveNames rs = .done (names, rest) →
      ∃ fuel, directiveNamesFuel fuel rs strs = .ok (strs ++ names, rest) := by
  induction rs with
  | nil => intro names rest strs h; simp [directiveNames] at h
  | cons l ls ih =>
    intro names rest strs h
    cases hl : Contains l (B "Struct Gen End") with
    | true =>
      simp only [directiveNames, hl, if_true, Run.done.injEq, Prod.mk.injEq] at h
      obtain ⟨h1, h2⟩ := h
      subst h1; subst h2
      exact ⟨1, by simp [directiveNamesFuel, readString, hl]⟩
    | false =>
      simp only [directiveNames, hl, Bool.false_eq_true, if_false] at h
      cases hr : directiveNames ls with
      | done r =>
        rw [hr] at h
        simp only [Run.done.injEq, Prod.mk.injEq] at h
        obtain ⟨h1, h2⟩ := h
        subst h1; subst h2
        obtain ⟨fuel, hf⟩ := ih r.1 r.2 (strs ++ [TrimSpace (removeSlashes l)]) hr
        refine ⟨fuel + 1, ?_⟩
        simp only [directiveNamesFuel, readString, hl, Bool.false_eq_true, if_false, hf,
          List.append_assoc, List.singleton_append]
      | fault => rw [hr] at h; exact absurd h (by simp)
      | diverges => rw [hr] at h; exact absurd h (by simp)

theorem directiveScan_unended (pre : List Str) (line : Str) (rest : List Str)
    (hpre : ∀ l ∈ pre, Contains l (B "Api Struct Gen") = false)
    (hline : Contains line (B "Api Struct Gen") = true) (hrest : rest ≠ [])
    (hend : ∀ l ∈ rest, Contains l (B "Struct Gen End") = false) :
    directiveScan (pre ++ line :: rest) = .diverges := by
  induction pre with
  | nil =>
    have hne : rest.isEmpty = false := by
      cases rest with
      | nil => exact absurd rfl hrest
      | cons _ _ => rfl
    simp only [List.nil_append, directiveScan, hne, Bool.false_eq_true, if_false, hline, if_true]
    exact directiveNames_unended rest hend
  | cons p ps ih =>
    have hp := hpre p (List.mem_cons_self _ _)
    have hne : (ps ++ line :: rest).isEmpty = false := by
      cases ps <;> rfl
    have h := ih (fun x hx => hpre x (List.mem_cons_of_mem _ hx))
    rw [List.cons_append, directiveScan, hne]
    simpa [hp] using h

/-! ## Lemmas on the type-body blocks -/

theorem defaultFields_declared (camel : Str → Str) (m : Message) :
    defaultFields camel m.Fields = declaredFields camel m := by
  unfold defaultFields declaredFields
  have h1 : TrimSpace (B "version") = B "version" := by decide
  have h2 : TrimSpace (B "del_state") = B "del_state" := by decide
  have h3 : TrimSpace (B "delete_time") = B "delete_time" := by decide
  induction m.Fields with
  | nil => rfl
  | cons f fs ih =>
    rw [List.filterMap_cons, List.filter_cons, ih]
    by_cases hf : TrimSpace f.Name ∈ [B "version", B "del_state", B "delete_time"]
    · have hin : isInSlice [B "version", B "del_state", B "delete_time"] f.Name = true := by
        simp only [List.mem_cons, List.mem_singleton, List.not_mem_nil, or_false] at hf
        simp only [isInSlice, List.any_cons, List.any_nil, h1, h2, h3, Bool.or_false,
          Bool.or_eq_true, beq_iff_eq]
        rcases hf with h | h | h
        · exact Or.inl h.symm
        · exact Or.inr (Or.inl h.symm)
        · exact Or.inr (Or.inr h.symm)
      simp [hin, hf]
    · have hin : isInSlice [B "version", B "del_state", B "delete_time"] f.Name = false := by
        simp only [List.mem_cons, List.mem_singleton, List.not_mem_nil, or_false, not_or] at hf
        rw [← Bool.not_eq_true]
        simp only [isInSlice, List.any_cons, List.any_nil, h1, h2, h3, Bool.or_false,
          Bool.or_eq_true, beq_iff_eq, not_or]
        exact ⟨fun e => hf.1 e.symm, fun e => hf.2.1 e.symm, fun e => hf.2.2 e.symm⟩
      simp [hin, hf]

theorem message_string_declaration (m : Message) :
    Message.String m
      = typeDeclaration m.Name (m.Fields.map (fun f =>
          fieldLine (FirstUpper f.Name) f.Typ f.ColumnName (B "  ; //" ++ f.Comment))) := by
  have h : B "\"`  ; //" = B "\"`" ++ B "  ; //" := by decide
  simp only [Message.String, typeDeclaration, fieldLine, List.flatMap_map, h, List.append_assoc]

theorem messageBlock_tableBlock (camel : Str → Str) (m : Message) :
    messageBlock camel m = tableBlock camel m := by
  have e1 : B "--------------------------------" ++ B "\n" = B "--------------------------------\n" := by
    decide
  have e2 : B "\"`   //" = B "\"`" ++ B "   //" := by decide
  have e3 : B "  Create" = B "  " ++ B "Create" := by decide
  have e4 : B "  Update" = B "  " ++ B "Update" := by decide
  have e5 : B "  Query" = B "  " ++ B "Query" := by decide
  have e6 : B "Resp \x7b\n" = B "Resp" ++ B " \x7b\n" := by decide
  have e7 : B "Req \x7b\n" = B "Req" ++ B " \x7b\n" := by decide
  have e8 : B "    Id   int64  `json:\"id\"`   \n" = B "    Id   int64  `json:\"id\"`   " ++ B "\n" := by
    decide
  have e9 : B "    Id   int64  `form:\"id,optional\"`   \n"
      = B "    Id   int64  `form:\"id,optional\"`   " ++ B "\n" := by decide
  have e10 : B "    PageNo   int64  `form:\"page_no,optional\"`   \n"
      = B "    PageNo   int64  `form:\"page_no,optional\"`   " ++ B "\n" := by decide
  have e11 : B "    PageSize   int64  `form:\"page_size,optional\"`   \n"
      = B "    PageSize   int64  `form:\"page_size,optional\"`   " ++ B "\n" := by decide
  have e12 : B "    CurrPage   int64  `json:\"curr_page\"`   \n"
      = B "    CurrPage   int64  `json:\"curr_page\"`   " ++ B "\n" := by decide
  have e13 : B "    TotalPage   int64  `json:\"total_page\"`   \n"
      = B "    TotalPage   int64  `json:\"total_page\"`   " ++ B "\n" := by decide
  have e14 : B "    TotalCount   int64  `json:\"total_count\"`   \n"
      = B "    TotalCount   int64  `json:\"total_count\"`   " ++ B "\n" := by decide
  have e15 : B "   []" = B "   " ++ B "[]" := by decide
  have e16 : B "\"`   \n" = B "\"`" ++ (B "   " ++ B "\n") := by decide
  have e17 : B ")" ++ B "\n\n" = B ")\n\n" := by decide
  have e18 : B "\n" ++ B "\n" = B "\n\n" := by decide
  unfold messageBlock tableBlock messageBanner messageTypes Message.GenApiDefault
    Message.GenApiDefaultResp Message.GenApiUpdateReq Message.GenApiUpdateResp
    Message.GenApiQueryListReq Message.GenApiQueryListResp
  rw [message_string_declaration, defaultFields_declared]
  simp only [typeDeclaration, fieldLine, List.flatMap_map, List.flatMap_cons, List.flatMap_nil,
    List.append_nil, e2, e3, e4, e5, e6, e7, e8, e9, e10, e11, e12, e13, e14, e15, e16,
    List.append_assoc]
  simp only [← List.append_assoc, e1, e17, e18]

theorem cusBlock_customBlock (camel : Str → Str) (m : Message) :
    cusBlock camel m = customBlock camel m := by
  have e1 : B "//--------------------------------" ++ B "customize_proto"
      = B "//--------------------------------customize_proto" := by decide
  have e2 : B "--------------------------------" ++ B "\n" = B "--------------------------------\n" := by
    decide
  have e17 : B ")" ++ B "\n\n" = B ")\n\n" := by decide
  have e18 : B "\n" ++ B "\n" = B "\n\n" := by decide
  unfold cusBlock customBlock cusBanner Message.GenApiDefault
  rw [message_string_declaration, defaultFields_declared]
  simp only [List.append_assoc, e2, e17, e18]
  simp only [← List.append_assoc, e1]

/-! ## The params merge -/

/-- C1 (as stated, refuted): the fresh artifact of the empty schema is well formed and the
schema whose only message is named `type Record End` has names and comments with no newline
and no sentinel text, yet merging it a second time does not give the text of the first
merge: the first merge writes the type name `CreateType Record EndResp`, which the second
merge takes for the `Type Record End` sentinel. The same happens with a field whose type,
which is neither a name nor a comment, is `Type Record End`. -/
theorem updateParamString_not_idempotent_capitalised :
    wellFormedParams paramsEmpty = true
      ∧ namesAndCommentsPlain schemaLowerSentinel = true
      ∧ (schemaLowerSentinel.UpdateParamString id paramsEmpty).isSome = true
      ∧ (schemaLowerSentinel.UpdateParamString id paramsEmpty).bind
          (schemaLowerSentinel.UpdateParamString id)
        ≠ schemaLowerSentinel.UpdateParamString id paramsEmpty
      ∧ namesAndCommentsPlain schemaSentinelType = true
      ∧ (schemaSentinelType.UpdateParamString id paramsEmpty).bind
          (schemaSentinelType.UpdateParamString id)
        ≠ schemaSentinelType.UpdateParamString id paramsEmpty := by
  decide

/-- C1 (amended): idempotence of the params merge. For every well-formed existing params
artifact and every schema whose texts that reach the artifact (message names and comments,
camel-cased field names, field types, column names and comments) contain no newline and no
sentinel text, the names also not after their first letter is upper-cased: the merge
completes when every registry line has at least three bytes, and merging the schema into
the result of merging it yields exactly the text of the first merge. -/
theorem updateParamString_idempotent (camel : Str → Str) (s : Schema) (file : Str)
    (hfile : wellFormedParams file = true) (hs : schemaPlain camel s = true) :
    ((∀ l ∈ tableRegistryLines file ++ customRegistryLines file, 3 ≤ l.length) →
        (s.UpdateParamString camel file).isSome = true)
      ∧ (s.UpdateParamString camel file).bind (s.UpdateParamString camel)
          = s.UpdateParamString camel file := by
  obtain ⟨pre, hdr, reg, e1, mid, chdr, creg, e2, body, e3, tail, hreads, htail, hpre, hhdr,
    hreg, he1, hmid, hchdr, hcreg, he2, hbody, he3⟩ := wellFormed_layout hfile
  constructor
  · intro hlen
    have hT : tableRegistryLines file = reg := by
      simp only [tableRegistryLines, hreads, afterFirst_append _ hpre hhdr,
        takeWhile_append_marker _ hreg he1]
    have hC : customRegistryLines file = creg := by
      simp only [customRegistryLines, hreads, afterFirst_append _ hpre hhdr,
        afterFirst_append _ hreg he1, afterFirst_append _ hmid hchdr,
        takeWhile_append_marker _ hcreg he2]
    rw [hT, hC] at hlen
    rw [updateParamString_of_reads camel s file hreads hpre hhdr
      (fun l hl => ⟨hreg l hl, hlen l (List.mem_append_left _ hl)⟩) he1 hmid hchdr
      (fun l hl => ⟨hcreg l hl, hlen l (List.mem_append_right _ hl)⟩) he2]
    rfl
  by_cases hreg3 : ∃ l ∈ reg, l.length < 3
  · rw [updateParamString_fault_table camel s file hreads hpre hhdr hreg hreg3]
    rfl
  · have hreg' : ∀ l ∈ reg, Contains l (B "Exist Table End") = false ∧ 3 ≤ l.length :=
      fun l hl => ⟨hreg l hl, by
        by_contra hlt
        exact hreg3 ⟨l, hl, by omega⟩⟩
    by_cases hcreg3 : ∃ l ∈ creg, l.length < 3
    · rw [updateParamString_fault_custom camel s file hreads hpre hhdr hreg' he1 hmid hchdr
        hcreg hcreg3]
      rfl
    · have hcreg' : ∀ l ∈ creg, Contains l (B "Customize Type End") = false ∧ 3 ≤ l.length :=
        fun l hl => ⟨hcreg l hl, by
          by_contra hlt
          exact hcreg3 ⟨l, hl, by omega⟩⟩
      obtain ⟨out, h1, h2⟩ := updateParamString_twice camel s file hreads htail hpre hhdr hreg'
        he1 hmid hchdr hcreg' he2 hbody he3 hs
      rw [h1]
      exact h2

/-- C1 (witness): merging the tables `A`, `B`, `C` into the fresh artifact of `A` and `B`
completes, and a second merge gives the same text. -/
theorem updateParamString_idempotent_witness :
    wellFormedParams paramsAB = true ∧ schemaPlain id schemaABC = true
      ∧ (schemaABC.UpdateParamString id paramsAB).isSome = true
      ∧ (schemaABC.UpdateParamString id paramsAB).bind (schemaABC.UpdateParamString id)
          = schemaABC.UpdateParamString id paramsAB :=
  ⟨by decide, by decide,
    (updateParamString_idempotent id schemaABC paramsAB (by decide) (by decide)).1 (by decide),
    (updateParamString_idempotent id schemaABC paramsAB (by decide) (by decide)).2⟩

/-- C3: additive-only guarantee of the params merge. Whenever the merge completes, the
lines of the existing artifact's type-body region (after the `Customize Type End` sentinel,
before the first line containing `Type Record End`) appear in the merged output
contiguously, in the same order and byte for byte, whatever the schema holds. -/
theorem updateParamString_keeps_type_body (camel : Str → Str) (s : Schema) (file out : Str)
    (h : s.UpdateParamString camel file = some out) :
    (typeBodyReads file).flatten <:+: out := by
  simp only [Schema.UpdateParamString] at h
  split at h
  · exact absurd h (by simp)
  · next r2 h2 =>
    split at h
    · exact absurd h (by simp)
    · next r5 h5 =>
      simp only [Option.some.injEq] at h
      subst h
      have hrest : r5.rest = afterRegistries file := by
        rw [scanRegistry_rest h5, copyThrough_rest, scanRegistry_rest h2, copyThrough_rest]
        rfl
      rw [hrest, copyBody_eq]
      exact (List.infix_append _ _ _).trans
        ((List.prefix_append _ _).isInfix.trans (List.prefix_append _ _).isInfix)

/-- C3 (witness): the hand-edited type body of `A` is kept when a schema in which `A` has
other fields is merged. -/
theorem updateParamString_keeps_type_body_witness :
    Contains ((schemaAChanged.UpdateParamString id paramsAEdited).getD [])
        (B "    Extra   string  `json:\"extra\"`  ; //added by hand\n") = true
      ∧ (typeBodyReads paramsAEdited).flatten
          <:+: (schemaAChanged.UpdateParamString id paramsAEdited).getD [] :=
  ⟨by decide,
    updateParamString_keeps_type_body id schemaAChanged paramsAEdited _ (by decide)⟩

/-- C4 (as stated, refuted): the registry of the artifact holds the one entry `A` and the
message of the schema is named `A` followed by a space, a name that is not in the registry;
the merge adds no line and no block for it and writes the artifact back as it is. -/
theorem updateParamString_trimmed_name :
    entryNames (tableRegistryLines paramsAEdited) = [B "A"]
      ∧ schemaASpace.Messages.map Message.Name = [B "A "]
      ∧ B "A " ∉ [B "A"]
      ∧ schemaASpace.UpdateParamString id paramsAEdited = some paramsAEdited := by
  refine ⟨?_, ?_, ?_, ?_⟩ <;> decide!

/-- C4 (amended): set-difference correctness of the params merge. For an existing artifact
whose table registry holds the lines `registry` (entry names `E`) and a schema with messages
`M`, the merge writes, right after the registry lines and immediately before the
`Exist Table End` sentinel, exactly one line `// <name>` for each message of `M` whose name,
taken without the white space around it, is not in `E`, in model order, and appends after
the existing type body exactly one type-body block for each such message (banner, `type (`,
the type of the message and its five sibling types, `)`) and none for any other message; the
custom-type registry is treated the same way. For names without white space around them the
new messages are those whose name is not in `E`. -/
theorem updateParamString_set_difference (camel : Str → Str) (s : Schema)
    (pre registry mid custom : List Str) (header tableEnd customHeader customEnd rest : Str)
    (hlines : ∀ l ∈ pre ++ header :: (registry ++ tableEnd :: (mid ++ customHeader ::
      (custom ++ [customEnd]))), isLine l = true)
    (hpre : ∀ l ∈ pre, Contains l (B "Already Exist Table") = false)
    (hheader : Contains header (B "Already Exist Table") = true)
    (hregistry : ∀ l ∈ registry, Contains l (B "Exist Table End") = false ∧ 3 ≤ l.length)
    (htableEnd : Contains tableEnd (B "Exist Table End") = true)
    (hmid : ∀ l ∈ mid, Contains l (B "Proto Customize Type") = false)
    (hcustomHeader : Contains customHeader (B "Proto Customize Type") = true)
    (hcustom : ∀ l ∈ custom, Contains l (B "Customize Type End") = false ∧ 3 ≤ l.length)
    (hcustomEnd : Contains customEnd (B "Customize Type End") = true) :
    s.UpdateParamString camel
        ((pre ++ header :: (registry ++ tableEnd :: (mid ++ customHeader ::
          (custom ++ [customEnd])))).flatten ++ rest)
      = some (pre.flatten ++ header ++ registry.flatten
          ++ (newMessages (entryNames registry) s.Messages).flatMap
              (fun m => B "// " ++ m.Name ++ B "\n")
          ++ tableEnd
          ++ (mid.flatten ++ customHeader) ++ custom.flatten
          ++ (newMessages (entryNames custom) s.CusMessages).flatMap
              (fun m => B "// " ++ m.Name ++ B "\n")
          ++ customEnd
          ++ ((reads rest).takeWhile (fun l => !Contains l (B "Type Record End"))).flatten
          ++ (newMessages (entryNames registry) s.Messages).flatMap (tableBlock camel)
          ++ (newMessages (entryNames custom) s.CusMessages).flatMap (customBlock camel)
          ++ B "// Type Record End\n")
      ∧ ((∀ m ∈ s.Messages, TrimSpace m.Name = m.Name) →
          newMessages (entryNames registry) s.Messages
            = s.Messages.filter (fun m => decide (m.Name ∉ entryNames registry))) := by
  have hreads : reads ((pre ++ header :: (registry ++ tableEnd :: (mid ++ customHeader ::
        (custom ++ [customEnd])))).flatten ++ rest)
      = pre ++ header :: (registry ++ tableEnd :: (mid ++ customHeader ::
        (custom ++ customEnd :: reads rest))) := by
    rw [reads_lines_append (fun l hl => IsLine_of_isLine (hlines l hl))]
    simp
  constructor
  · rw [updateParamString_of_reads camel s _ hreads hpre hheader hregistry htableEnd hmid
      hcustomHeader hcustom hcustomEnd, filter_new, filter_new, copyBody_eq,
      show messageBlock camel = tableBlock camel from funext (messageBlock_tableBlock camel),
      show cusBlock camel = customBlock camel from funext (cusBlock_customBlock camel)]
  · intro hnames
    unfold newMessages
    apply List.filter_congr
    intro m hm
    rw [hnames m hm]

/-- C4 (witness): with the registry `A`, `B`, the tables `A`, `B`, `C` and the custom message
`D` the merge adds the line `// C` before the `Exist Table End` sentinel, the line `// D` to
the custom-type registry, and after the existing type body the block of `C` and the block
of `D`. -/
theorem updateParamString_set_difference_witness :
    newMessages (entryNames registryAB) schemaABCD.Messages = [sampleMessage "C"]
      ∧ schemaABCD.UpdateParamString id
          (B "syntax = \"v1\"\n\n// Already Exist Table:\n// A\n// B\n// Exist Table End\n\n"
            ++ B "// Proto Customize Type:\n// Customize Type End\n\n// Type Record Start\n"
            ++ B "type (\n  A \x7b\n  \x7d\n  B \x7b\n  \x7d\n)\n\n// Type Record End\n")
        = some (B "syntax = \"v1\"\n\n// Already Exist Table:\n// A\n// B\n// C\n"
            ++ B "// Exist Table End\n\n// Proto Customize Type:\n// D\n// Customize Type End\n\n"
            ++ B "// Type Record Start\ntype (\n  A \x7b\n  \x7d\n  B \x7b\n  \x7d\n)\n\n"
            ++ B "//--------------------------------C--------------------------------\n"
            ++ B "type (\n"
            ++ B "  C \x7b\n    Id   int64  `json:\"id\"`  ; //key\n  \x7d\n\n\n"
            ++ B "  CreateCResp \x7b\n    Id   int64  `json:\"id\"`   \n  \x7d\n\n"
            ++ B "  UpdateCReq \x7b\n    Id   int64  `json:\"id\"`   //key\n  \x7d\n\n"
            ++ B "  UpdateCResp \x7b\n    Id   int64  `json:\"id\"`   \n  \x7d\n\n"
            ++ B "  QueryCReq \x7b\n    Id   int64  `form:\"id,optional\"`   \n"
            ++ B "    PageNo   int64  `form:\"page_no,optional\"`   \n"
            ++ B "    PageSize   int64  `form:\"page_size,optional\"`   \n  \x7d\n\n"
            ++ B "  QueryCResp \x7b\n    CList   []C  `json:\"c_list\"`   \n"
            ++ B "    CurrPage   int64  `json:\"curr_page\"`   \n"
            ++ B "    TotalPage   int64  `json:\"total_page\"`   \n"
            ++ B "    TotalCount   int64  `json:\"total_count\"`   \n  \x7d\n"
            ++ B ")\n\n"
            ++ B "//--------------------------------customize_protoD"
            ++ B "--------------------------------\n"
            ++ B "type (\n"
            ++ B "  D \x7b\n    Id   int64  `json:\"id\"`  ; //key\n  \x7d\n\n\n"
            ++ B ")\n\n"
            ++ B "// Type Record End\n")
      ∧ schemaABCD.UpdateParamString id
          ((preAB ++ B "// Already Exist Table:\n" :: (registryAB ++ B "// Exist Table End\n" ::
            ([B "\n"] ++ B "// Proto Customize Type:\n" ::
              ([] ++ [B "// Customize Type End\n"])))).flatten ++ restShort)
        = some (preAB.flatten ++ B "// Already Exist Table:\n" ++ registryAB.flatten
            ++ (newMessages (entryNames registryAB) schemaABCD.Messages).flatMap
                (fun m => B "// " ++ m.Name ++ B "\n")
            ++ B "// Exist Table End\n"
            ++ ([B "\n"].flatten ++ B "// Proto Customize Type:\n") ++ ([] : List Str).flatten
            ++ (newMessages (entryNames []) schemaABCD.CusMessages).flatMap
                (fun m => B "// " ++ m.Name ++ B "\n")
            ++ B "// Customize Type End\n"
            ++ ((reads restShort).takeWhile (fun l => !Contains l (B "Type Record End"))).flatten
            ++ (newMessages (entryNames registryAB) schemaABCD.Messages).flatMap (tableBlock id)
            ++ (newMessages (entryNames []) schemaABCD.CusMessages).flatMap (customBlock id)
            ++ B "// Type Record End\n") :=
  ⟨by decide, by decide!,
    (updateParamString_set_difference id schemaABCD preAB registryAB [B "\n"] []
      (B "// Already Exist Table:\n") (B "// Exist Table End\n") (B "// Proto Customize Type:\n")
      (B "// Customize Type End\n") restShort (by decide) (by decide) (by decide) (by decide)
      (by decide) (by decide) (by decide) (by decide) (by decide)).1⟩

/-- C5 (as stated, refuted): the lines of an existing artifact are not always a subsequence
of the lines of the merged output. The text after the `Type Record End` sentinel is not
written back, and an artifact that ends inside its custom-type registry has its last line
joined with the text written after it. -/
theorem updateParamString_drops_lines :
    (emptySchema.UpdateParamString id paramsTrailing).isSome = true
      ∧ ¬ (reads paramsTrailing).Sublist
          (reads ((emptySchema.UpdateParamString id paramsTrailing).getD []))
      ∧ (emptySchema.UpdateParamString id paramsUnterminated).isSome = true
      ∧ ¬ (reads paramsUnterminated).Sublist
          (reads ((emptySchema.UpdateParamString id paramsUnterminated).getD [])) := by
  decide

/-- C5 (amended): the params merge preserves what precedes the `Type Record End` sentinel.
For every well-formed existing params artifact and every schema, whenever the merge
completes, the lines of the existing artifact that precede the `Type Record End` line of
its type-body region form a subsequence of the lines of the merged output: each is kept
byte for byte and in order, and only lines are inserted (that sentinel line is written back
as `// Type Record End` and the text after it is not kept). -/
theorem updateParamString_keeps_lines (camel : Str → Str) (s : Schema) (file out : Str)
    (hfile : wellFormedParams file = true) (h : s.UpdateParamString camel file = some out) :
    (readsBeforeRecordEnd file).Sublist (reads out) := by
  obtain ⟨pre, hdr, reg, e1, mid, chdr, creg, e2, body, e3, tail, hreads, htail, hpre, hhdr,
    hreg, he1, hmid, hchdr, hcreg, he2, hbody, he3⟩ := wellFormed_layout hfile
  have hreg' : ∀ l ∈ reg, Contains l (B "Exist Table End") = false ∧ 3 ≤ l.length :=
    fun l hl => ⟨hreg l hl, by
      by_contra hlt
      rw [updateParamString_fault_table camel s file hreads hpre hhdr hreg ⟨l, hl, by omega⟩] at h
      exact absurd h (by simp)⟩
  have hcreg' : ∀ l ∈ creg, Contains l (B "Customize Type End") = false ∧ 3 ≤ l.length :=
    fun l hl => ⟨hcreg l hl, by
      by_contra hlt
      rw [updateParamString_fault_custom camel s file hreads hpre hhdr hreg' he1 hmid hchdr hcreg
        ⟨l, hl, by omega⟩] at h
      exact absurd h (by simp)⟩
  rw [updateParamString_of_reads camel s file hreads hpre hhdr hreg' he1 hmid hchdr hcreg' he2,
    Option.some.injEq, copyBody_append _ hbody he3] at h
  subst h
  have hlines : ∀ l ∈ pre ++ hdr :: (reg ++ e1 :: (mid ++ chdr :: (creg ++ e2 :: body))),
      IsLine l :=
    IsLine_of_reads file (e3 :: tail) (by rw [hreads]; simp) (by simp)
  obtain ⟨nl, ncl, bll, hout⟩ := reads_merged hlines
    (terminated_flatMap _ _ (fun (m : Message) _ => entry_terminated m.Name))
    (terminated_flatMap _ _ (fun (m : Message) _ => entry_terminated m.Name))
    (terminated_flatMap _ _ (fun m _ => messageBlock_terminated camel m))
    (terminated_flatMap _ _ (fun m _ => cusBlock_terminated camel m))
  rw [hout]
  have hbefore : readsBeforeRecordEnd file
      = pre ++ hdr :: (reg ++ e1 :: (mid ++ chdr :: (creg ++ e2 :: body))) := by
    simp only [readsBeforeRecordEnd, typeBodyReads, afterRegistries, hreads,
      throughFirst_append _ hpre hhdr, afterFirst_append _ hpre hhdr,
      throughFirst_append _ hreg he1, afterFirst_append _ hreg he1,
      throughFirst_append _ hmid hchdr, afterFirst_append _ hmid hchdr,
      throughFirst_append _ hcreg he2, afterFirst_append _ hcreg he2,
      takeWhile_append_marker _ hbody he3]
    simp
  rw [hbefore]
  exact List.Sublist.append (List.Sublist.refl _) (List.Sublist.cons₂ _
    (List.Sublist.append (List.sublist_append_left _ _) (List.Sublist.cons₂ _
      (List.Sublist.append (List.Sublist.refl _) (List.Sublist.cons₂ _
        (List.Sublist.append (List.sublist_append_left _ _) (List.Sublist.cons₂ _
          (List.sublist_append_left _ _))))))))

/-- C5 (witness): the lines of the fresh artifact of `A` and `B` before its
`Type Record End` line are kept when `A`, `B`, `C` are merged. -/
theorem updateParamString_keeps_lines_witness :
    B "// B\n" ∈ readsBeforeRecordEnd paramsAB
      ∧ (readsBeforeRecordEnd paramsAB).Sublist
          (reads ((schemaABC.UpdateParamString id paramsAB).getD [])) :=
  ⟨by decide, updateParamString_keeps_lines id schemaABC paramsAB _ (by decide) (by decide!)⟩

/-- C6: an already-registered message is never re-rendered. Two schemas with the same
message and custom-message names in the same order, which differ only in messages whose
name is listed in the artifact's table registry and in custom messages whose name is listed
in its custom-type registry, are merged into the same text (or fault alike). -/
theorem updateParamString_ignores_registered (camel : Str → Str) (s s' : Schema) (file : Str)
    (hmsgs : List.Forall₂ (fun m m' => m.Name = m'.Name
      ∧ (isInSlice (tableRegistry file) m.Name = false → m = m')) s.Messages s'.Messages)
    (hcus : List.Forall₂ (fun m m' => m.Name = m'.Name
      ∧ (isInSlice (customRegistry file) m.Name = false → m = m')) s.CusMessages s'.CusMessages) :
    s.UpdateParamString camel file = s'.UpdateParamString camel file := by
  simp only [Schema.UpdateParamString, copyThrough_rest]
  cases h2 : scanRegistry (B "Exist Table End")
      (afterFirst (B "Already Exist Table") (reads file)) with
  | none => rfl
  | some r2 =>
    simp only
    rw [scanRegistry_rest h2]
    cases h5 : scanRegistry (B "Customize Type End") (afterFirst (B "Proto Customize Type")
        (afterFirst (B "Exist Table End") (afterFirst (B "Already Exist Table") (reads file)))) with
    | none => rfl
    | some r5 =>
      have e2 : r2.names = tableRegistry file := scanRegistry_names h2
      have e5 : r5.names = customRegistry file := scanRegistry_names h5
      simp only [e2, e5, filter_unregistered hmsgs, filter_unregistered hcus]

/-- C6 (witness): `A` is registered in the hand-edited artifact, so a schema in which `A`
has other fields and another comment is merged into the same text. -/
theorem updateParamString_ignores_registered_witness :
    schemaA ≠ schemaAChanged ∧ isInSlice (tableRegistry paramsAEdited) (B "A") = true
      ∧ schemaA.UpdateParamString id paramsAEdited
          = schemaAChanged.UpdateParamString id paramsAEdited :=
  ⟨by decide, by decide,
    updateParamString_ignores_registered id schemaA schemaAChanged paramsAEdited
      (List.Forall₂.cons ⟨rfl, by decide⟩ List.Forall₂.nil) List.Forall₂.nil⟩

/-- C7 (the code faults): `UpdateParamString` slices `line[3:]` before it looks at the end
of file, so the merge faults on the empty text, on a text with no `Already Exist Table`
header, on a text that ends inside the table registry, and on a registry holding a line
shorter than three bytes, whatever the schema. -/
theorem updateParamString_faults_on_truncated (camel : Str → Str) (s : Schema) :
    s.UpdateParamString camel [] = none
      ∧ s.UpdateParamString camel (B "syntax = \"v1\"\n") = none
      ∧ s.UpdateParamString camel (B "// Already Exist Table:\n// A\n") = none
      ∧ s.UpdateParamString camel (B "// Already Exist Table:\n\n// Exist Table End\n") = none :=
  ⟨rfl, rfl, rfl, rfl⟩

/-! ## The service merge -/

/-- C2 (the code is not idempotent): for the schema of the one table `A` and the fresh
service artifact of that schema, each merge writes the `Exist Table End` line once more
than it found it, so the second merge differs from the first. -/
theorem updateString_not_idempotent :
    (schemaA.UpdateString (B "insert") (B "update") (B "query")
        (schemaA.CreateString (B "insert") (B "update") (B "query"))).isSome = true
      ∧ (schemaA.UpdateString (B "insert") (B "update") (B "query")
          (schemaA.CreateString (B "insert") (B "update") (B "query"))).bind
            (schemaA.UpdateString (B "insert") (B "update") (B "query"))
        ≠ schemaA.UpdateString (B "insert") (B "update") (B "query")
            (schemaA.CreateString (B "insert") (B "update") (B "query")) := by
  decide

/-! ## The field type mapper -/

/-- C8: the type-mapping table. For every column whose native type, lower-cased, is one of
the native types of the table, `parseColumn` returns no error, leaves the schema as it is
and appends exactly one field to the message, carrying the mapped type of the table, the
column name as name and as column name, and the column comment. -/
theorem parseColumn_mapped (toLower toUpper : Str → Str) (s : Schema) (msg : Message)
    (col : Column) (native mapped : Str) (htable : (native, mapped) ∈ typeTable)
    (hcol : toLower col.DataType = native) :
    parseColumn toLower toUpper s msg col
      = some { schema := s
               msg := { msg with Fields := msg.Fields ++
                 [{ Typ := mapped, Name := col.ColumnName, Comment := col.ColumnComment,
                    ColumnName := col.ColumnName }] }
               err := none } := by
  simp only [typeTable, List.mem_cons, Prod.mk.injEq, List.mem_singleton, List.not_mem_nil,
    or_false] at htable
  rcases htable with h | h | h | h | h | h | h | h | h | h | h | h | h | h | h | h | h | h | h
    | h | h | h | h | h <;>
    (obtain ⟨h1, h2⟩ := h; subst h1; subst h2; unfold parseColumn; simp only [hcol]; rfl)

/-- C8 (witness): a `VARCHAR` column is mapped to `string`. -/
theorem parseColumn_mapped_witness :
    parseColumn asciiLower asciiUpper emptySchema emptyMessage varcharColumn
      = some { schema := emptySchema
               msg := { emptyMessage with Fields := emptyMessage.Fields ++
                 [{ Typ := B "string", Name := varcharColumn.ColumnName,
                    Comment := varcharColumn.ColumnComment,
                    ColumnName := varcharColumn.ColumnName }] }
               err := none } :=
  parseColumn_mapped asciiLower asciiUpper emptySchema emptyMessage varcharColumn (B "varchar")
    (B "string") (by decide) (by decide)

/-- C9: an unmappable type is a hard error. For every column whose lower-cased native type
is outside the vocabulary of the switch, `parseColumn` returns an error whose text carries
the native type, the table name and the column name, and leaves the message and the schema
as they are. -/
theorem parseColumn_unmapped (toLower toUpper : Str → Str) (s : Schema) (msg : Message)
    (col : Column) (hcol : toLower col.DataType ∉ vocabulary) :
    parseColumn toLower toUpper s msg col
      = some { schema := s, msg := msg
               err := some (B "no compatible go type found for `" ++ col.DataType
                  ++ B "`. column: `" ++ col.TableName ++ B "`.`" ++ col.ColumnName ++ B "`") } := by
  simp only [vocabulary, typeTable, List.map, List.mem_cons, List.not_mem_nil, or_false,
    not_or] at hcol
  obtain ⟨a1, a2, a3, a4, a5, a6, a7, a8, a9, a10, a11, a12, a13, a14, a15, a16, a17, a18, a19,
    a20, a21, a22, a23, a24, a25, a26⟩ := hcol
  unfold parseColumn
  simp only [List.mem_cons, List.not_mem_nil, or_false, a1, a2, a3, a4, a5, a6, a7, a8, a9, a10,
    a11, a12, a13, a14, a15, a16, a17, a18, a19, a20, a21, a22, a23, a24, a25, a26, or_self,
    if_false]
  rfl

/-- C9 (witness): a `geometry` column is refused. -/
theorem parseColumn_unmapped_witness :
    parseColumn asciiLower asciiUpper emptySchema emptyMessage geometryColumn
      = some { schema := emptySchema, msg := emptyMessage
               err := some (B "no compatible go type found for `" ++ geometryColumn.DataType
                  ++ B "`. column: `" ++ geometryColumn.TableName ++ B "`.`"
                  ++ geometryColumn.ColumnName ++ B "`") } :=
  parseColumn_unmapped asciiLower asciiUpper emptySchema emptyMessage geometryColumn (by decide)

/-- C10 (the code refuses every enum column): for the column `kind` of type
`enum('a','b')`, `parseColumn` builds the enum with the fields `A = 0`, `B = 1` and adds it
to the schema, but under the empty name, so the field type is empty and the call returns the
error of an unmapped type without appending a field to the message. -/
theorem parseColumn_enum_is_refused :
    parseColumn asciiLower asciiUpper emptySchema emptyMessage enumColumn
      = some { schema := { emptySchema with
                 Enums := [{ Name := [], Comment := B "kinds"
                             Fields := [{ name := B "A", tag := 0 }, { name := B "B", tag := 1 }] }] }
               msg := emptyMessage
               err := some (B "no compatible go type found for `enum`. column: `t`.`kind`") } := by
  decide


/-! ## Enums -/

/-- C11: enum tag assignment. For every list of strings `ss`, `newEnumFromStrings` succeeds
and returns an enum with the given name and comment and exactly `len(ss)` fields, whose
`i`-th field has tag `i` and the name of `ss[i]` upper-cased with every maximal run of
non-word characters replaced by one underscore. -/
theorem newEnumFromStrings_tags (toUpper : Str → Str) (name comment : Str) (ss : List Str) :
    ∃ e, newEnumFromStrings toUpper name comment ss = .ok e
      ∧ e.Name = name ∧ e.Comment = comment ∧ e.Fields.length = ss.length
      ∧ ∀ i : Nat, e.Fields[i]?
          = ss[i]?.map (fun s => ({ name := foldNonWord (toUpper s), tag := (i : Int) } : EnumField)) := by
  refine ⟨{ Name := name, Comment := comment, Fields := taggedFields toUpper 0 ss }, ?_, rfl, rfl,
    taggedFields_length toUpper ss 0, ?_⟩
  · have := newEnumFromStringsLoop_ok toUpper ss { Name := name, Comment := comment, Fields := [] } 0
      (by simp)
    simpa [newEnumFromStrings] using this
  · intro i
    have h := taggedFields_getElem toUpper ss 0 i
    simp only [replaceNonWord_fold] at h
    simpa using h

/-- C11 (witness): the values `a`, `b`, `c` give the fields `A = 0`, `B = 1`, `C = 2`; the
values `on hold`, `n/a -- x`, `ok!` and `_x_` give `ON_HOLD = 0`, `N_A_X = 1`, `OK_ = 2` and
`_X_ = 3`, each run of non-word characters giving one underscore. -/
theorem newEnumFromStrings_tags_witness :
    newEnumFromStrings asciiUpper (B "Kind") (B "kinds") [B "a", B "b", B "c"]
        = .ok { Name := B "Kind", Comment := B "kinds"
                Fields := [{ name := B "A", tag := 0 }, { name := B "B", tag := 1 },
                           { name := B "C", tag := 2 }] }
      ∧ newEnumFromStrings asciiUpper (B "State") (B "states")
          [B "on hold", B "n/a -- x", B "ok!", B "_x_"]
        = .ok { Name := B "State", Comment := B "states"
                Fields := [{ name := B "ON_HOLD", tag := 0 }, { name := B "N_A_X", tag := 1 },
                           { name := B "OK_", tag := 2 }, { name := B "_X_", tag := 3 }] }
      ∧ foldNonWord (B "N/A -- X") = B "N_A_X" ∧ foldNonWord (B "  ON  HOLD") = B "_ON_HOLD"
      ∧ ∃ e, newEnumFromStrings asciiUpper (B "State") (B "states")
            [B "on hold", B "n/a -- x", B "ok!", B "_x_"] = .ok e
          ∧ e.Name = B "State" ∧ e.Comment = B "states"
          ∧ e.Fields.length = [B "on hold", B "n/a -- x", B "ok!", B "_x_"].length
          ∧ ∀ i : Nat, e.Fields[i]? = [B "on hold", B "n/a -- x", B "ok!", B "_x_"][i]?.map
              (fun s => ({ name := foldNonWord (asciiUpper s), tag := (i : Int) } : EnumField)) :=
  ⟨rfl, rfl, by decide, by decide,
    newEnumFromStrings_tags asciiUpper (B "State") (B "states")
      [B "on hold", B "n/a -- x", B "ok!", B "_x_"]⟩

/-- C12: enum tag collision. `Enum.AppendField` returns an error exactly when a field
already in the enum has the tag of the new field; on error the enum is unchanged, on
success the new field is appended as the last field; so an enum built from no field through
calls of `AppendField`, failed ones included, has pairwise distinct tags. -/
theorem appendField_collision :
    (∀ (e : Enum) (ef : EnumField),
        (∃ err, e.AppendField ef = .error err) ↔ ∃ f ∈ e.Fields, f.tag = ef.tag)
      ∧ (∀ (e : Enum) (ef : EnumField) (err : Str),
          e.AppendField ef = .error err → e.afterAppendField ef = e)
      ∧ (∀ (e e1 : Enum) (ef : EnumField), e.AppendField ef = .ok e1 →
          e1 = { e with Fields := e.Fields ++ [ef] } ∧ e.afterAppendField ef = e1)
      ∧ (∀ (name comment : Str) (fs : List EnumField),
          ((fs.foldl Enum.afterAppendField { Name := name, Comment := comment, Fields := [] }).Fields.map
            EnumField.tag).Nodup) := by
  have hcases : ∀ (e : Enum) (ef : EnumField),
      ((∃ f ∈ e.Fields, f.tag = ef.tag) ∧ ∃ err, e.AppendField ef = .error err)
        ∨ ((∀ f ∈ e.Fields, f.tag ≠ ef.tag)
            ∧ e.AppendField ef = .ok { e with Fields := e.Fields ++ [ef] }) := by
    intro e ef
    by_cases h : ∃ f ∈ e.Fields, f.tag = ef.tag
    · exact Or.inl ⟨h, appendField_error h⟩
    · have h' : ∀ f ∈ e.Fields, f.tag ≠ ef.tag := fun f hf hft => h ⟨f, hf, hft⟩
      exact Or.inr ⟨h', appendField_ok h'⟩
  refine ⟨?_, ?_, ?_, ?_⟩
  · intro e ef
    rcases hcases e ef with ⟨h1, h2⟩ | ⟨h1, h2⟩
    · exact ⟨fun _ => h1, fun _ => h2⟩
    · constructor
      · rintro ⟨err, herr⟩
        rw [h2] at herr
        exact absurd herr (by simp)
      · rintro ⟨f, hf, hft⟩
        exact absurd hft (h1 f hf)
  · intro e ef err h
    simp [Enum.afterAppendField, h]
  · intro e e1 ef h
    rcases hcases e ef with ⟨_, err, h2⟩ | ⟨_, h2⟩
    · rw [h2] at h
      exact absurd h (by simp)
    · rw [h2] at h
      simp only [Except.ok.injEq] at h
      subst h
      simp [Enum.afterAppendField, h2]
  · intro name comment fs
    have hstep : ∀ (e : Enum) (ef : EnumField), (e.Fields.map EnumField.tag).Nodup →
        ((e.afterAppendField ef).Fields.map EnumField.tag).Nodup := by
      intro e ef hnd
      rcases hcases e ef with ⟨_, err, h2⟩ | ⟨h1, h2⟩
      · simpa [Enum.afterAppendField, h2] using hnd
      · simp only [Enum.afterAppendField, h2, List.map_append, List.map_cons, List.map_nil]
        rw [List.nodup_append]
        refine ⟨hnd, by simp, ?_⟩
        intro t ht hts
        simp only [List.mem_singleton] at hts
        subst hts
        obtain ⟨f, hf, hft⟩ := List.mem_map.mp ht
        exact h1 f hf hft
    have hfold : ∀ (fs : List EnumField) (e : Enum), (e.Fields.map EnumField.tag).Nodup →
        ((fs.foldl Enum.afterAppendField e).Fields.map EnumField.tag).Nodup := by
      intro fs
      induction fs with
      | nil => intro e h; exact h
      | cons f fs ih => intro e h; exact ih _ (hstep e f h)
    exact hfold fs _ (by simp)

/-- C12 (witness): a second field with the tag 1 is refused and leaves the enum as it is. -/
theorem appendField_collision_witness :
    (∃ err, Enum.AppendField { Name := B "Kind", Comment := [], Fields := [{ name := B "A", tag := 1 }] }
        { name := B "B", tag := 1 } = .error err)
      ∧ Enum.afterAppendField { Name := B "Kind", Comment := [], Fields := [{ name := B "A", tag := 1 }] }
          { name := B "B", tag := 1 }
        = { Name := B "Kind", Comment := [], Fields := [{ name := B "A", tag := 1 }] } :=
  ⟨(appendField_collision.1 _ _).mpr ⟨_, List.mem_singleton.mpr rfl, rfl⟩, by decide⟩

/-! ## Column mode: grouping and order -/

/-- C17: column-mode grouping. For every column list in which all columns outside the
ignored tables have a type of the type-mapping table, `typesFromColumns` returns no error and
appends to the messages of the schema, in the order its map enumerates them, exactly one
message per distinct camel-cased table name among the columns whose table is not ignored;
the comment of that message is the table comment of the first such column with that name and
its fields are the fields of the columns with that name, one for one and in input order. -/
theorem typesFromColumns_groups (snakeToCamel toLower toUpper : Str → Str)
    (enumerate : List Message → List Message) (s : Schema) (cols : List Column)
    (ignoreTables : List Str) (henum : ∀ l, (enumerate l).Perm l)
    (hmap : ∀ c ∈ cols, c.TableName ∉ ignoreTables → toLower c.DataType ∈ typeTable.map Prod.fst) :
    ∃ added : List Message,
      typesFromColumns snakeToCamel toLower toUpper enumerate s cols ignoreTables
        = some { schema := { s with Messages := s.Messages ++ added }, err := none }
      ∧ added.Perm (tableGroups snakeToCamel toLower (keptColumns ignoreTables cols))
      ∧ (added.map Message.Name).Nodup
      ∧ (∀ n, n ∈ added.map Message.Name
          ↔ ∃ c ∈ cols, c.TableName ∉ ignoreTables ∧ snakeToCamel c.TableName = n)
      ∧ ∀ m ∈ added,
          (∃ c, (keptColumns ignoreTables cols).find? (fun c => snakeToCamel c.TableName = m.Name)
                  = some c ∧ m.Comment = c.TableComment)
          ∧ m.Fields = ((keptColumns ignoreTables cols).filter
              (fun c => snakeToCamel c.TableName = m.Name)).map (fieldOfColumn toLower) := by
  have hnames : (tableGroups snakeToCamel toLower (keptColumns ignoreTables cols)).map Message.Name
      = firstSeen ((keptColumns ignoreTables cols).map (fun c => snakeToCamel c.TableName)) := by
    unfold tableGroups
    rw [List.map_map]
    exact (List.map_congr_left (fun n _ => rfl)).trans (List.map_id _)
  have hperm := henum (tableGroups snakeToCamel toLower (keptColumns ignoreTables cols))
  refine ⟨enumerate (tableGroups snakeToCamel toLower (keptColumns ignoreTables cols)), ?_, hperm,
    ?_, ?_, ?_⟩
  · unfold typesFromColumns
    rw [typesFromColumnsLoop_table snakeToCamel toLower toUpper ignoreTables cols s [] hmap,
      foldl_addColumn]
    unfold groupMap tableGroups
    simp only [List.map_map]
    rfl
  · rw [(hperm.map Message.Name).nodup_iff, hnames]
    exact nodup_firstSeen _
  · intro n
    rw [(hperm.map Message.Name).mem_iff, hnames, mem_firstSeen]
    simp only [keptColumns, List.mem_map, List.mem_filter, decide_eq_true_eq]
    constructor
    · rintro ⟨c, ⟨hc, hig⟩, hn⟩
      exact ⟨c, hc, hig, hn⟩
    · rintro ⟨c, hc, hig, hn⟩
      exact ⟨c, ⟨hc, hig⟩, hn⟩
  · intro m hm
    have hm2 := hperm.mem_iff.mp hm
    simp only [tableGroups, List.mem_map] at hm2
    obtain ⟨n, hn, hmn⟩ := hm2
    subst hmn
    obtain ⟨c1, hc1, hcn⟩ := List.mem_map.mp ((mem_firstSeen _ _).mp hn)
    have hsome : ((keptColumns ignoreTables cols).find?
        (fun x => decide (snakeToCamel x.TableName = n))).isSome := by
      rw [List.find?_isSome]
      exact ⟨c1, hc1, by simpa using hcn⟩
    obtain ⟨c2, hc2⟩ := Option.isSome_iff_exists.mp hsome
    exact ⟨⟨c2, hc2, by simp [tableGroup, hc2]⟩, rfl⟩

/-- C17 (witness): two columns of the table `t`, one of the table `s` and one of the ignored
table `log`, with a map that enumerates its messages in reverse. -/
theorem typesFromColumns_groups_witness :
    typesFromColumns id asciiLower asciiUpper List.reverse emptySchema
        [varcharColumn, otherColumn, intColumn, ignoredColumn] [B "log"]
      = some { schema := { emptySchema with Messages :=
                 [{ Name := B "s", Comment := B "the s"
                    Fields := [{ Typ := B "int64", Name := B "day", Comment := B "the day",
                                 ColumnName := B "day" }] },
                  { Name := B "t", Comment := []
                    Fields := [{ Typ := B "string", Name := B "title", Comment := B "the title",
                                 ColumnName := B "title" },
                               { Typ := B "int64", Name := B "id", Comment := B "the key",
                                 ColumnName := B "id" }] }] }
               err := none }
      ∧ ∃ added : List Message,
          typesFromColumns id asciiLower asciiUpper List.reverse emptySchema
              [varcharColumn, otherColumn, intColumn, ignoredColumn] [B "log"]
            = some { schema := { emptySchema with Messages := emptySchema.Messages ++ added }
                     err := none }
          ∧ added.Perm (tableGroups id asciiLower
              (keptColumns [B "log"] [varcharColumn, otherColumn, intColumn, ignoredColumn])) :=
  ⟨by decide,
    (typesFromColumns_groups id asciiLower asciiUpper List.reverse emptySchema
      [varcharColumn, otherColumn, intColumn, ignoredColumn] [B "log"]
      (fun l => List.reverse_perm l) (by decide)).imp (fun _ h => ⟨h.1, h.2.1⟩)⟩

/-- C18 (as stated, refuted): on a column of an enumerated type `typesFromColumns` returns an
error, and the schema has gained an enum. -/
theorem typesFromColumns_error_adds_enum :
    typesFromColumns id asciiLower asciiUpper id emptySchema [enumColumn] []
      = some { schema := { emptySchema with
                 Enums := [{ Name := [], Comment := B "kinds"
                             Fields := [{ name := B "A", tag := 0 }, { name := B "B", tag := 1 }] }] }
               err := some (B "no compatible go type found for `enum`. column: `t`.`kind`") }
      ∧ emptySchema.Enums = [] := by
  decide

/-- C18 (amended): no message of a failed extraction reaches the schema. For every schema
`s` and column list, if `typesFromColumns` returns an error then `s` is as it was before the
call but for enums appended to its `Enums` (the enums of the enum columns parsed before the
failure): no message has been added; and `GenerateSchema`, on such a failure, returns the
error and no schema. -/
theorem typesFromColumns_error_keeps_messages (snakeToCamel toLower toUpper : Str → Str)
    (enumerate : List Message → List Message) (s : Schema) (cols : List Column)
    (ignoreTables : List Str) (r : Extracted) (e : Str)
    (hrun : typesFromColumns snakeToCamel toLower toUpper enumerate s cols ignoreTables = some r)
    (herr : r.err = some e) :
    (∃ es, r.schema = { s with Enums := s.Enums ++ es })
      ∧ ∀ (sortImports : List Str → List Str) (sortMessages : List Message → List Message)
          (sortEnums : List Enum → List Enum) (serviceName dir : Str),
          s = freshSchema serviceName dir →
          GenerateSchema snakeToCamel toLower toUpper enumerate sortImports sortMessages sortEnums
            (.ok cols) ignoreTables serviceName dir = some (.error e) := by
  constructor
  · unfold typesFromColumns at hrun
    split at hrun
    · exact absurd hrun (by simp)
    · rename_i r0 hr0
      obtain ⟨hes, _⟩ := typesFromColumnsLoop_inv snakeToCamel toLower toUpper ignoreTables cols
        s [] r0 hr0 ⟨List.nodup_nil, fun p hp => absurd hp (List.not_mem_nil p)⟩
      split at hrun
      · injection hrun with hrun
        subst hrun
        exact hes
      · injection hrun with hrun
        subst hrun
        exact absurd herr (by simp)
  · intro sortImports sortMessages sortEnums serviceName dir hs
    have hcols : ¬ cols.length = 0 := by
      intro h0
      rw [List.length_eq_zero] at h0
      subst h0
      simp only [typesFromColumns, typesFromColumnsLoop, Option.some.injEq] at hrun
      subst hrun
      exact absurd herr (by simp)
    subst hs
    unfold GenerateSchema
    simp only [hcols, if_false]
    unfold freshSchema at hrun
    rw [hrun]
    simp only [herr]

/-- C18 (witness): the error of the enum column. -/
theorem typesFromColumns_error_keeps_messages_witness :
    (∃ es, ({ emptySchema with
               Enums := [{ Name := [], Comment := B "kinds"
                           Fields := [{ name := B "A", tag := 0 }, { name := B "B", tag := 1 }] }] }
             : Schema) = { emptySchema with Enums := emptySchema.Enums ++ es })
      ∧ ∀ (sortImports : List Str → List Str) (sortMessages : List Message → List Message)
          (sortEnums : List Enum → List Enum) (serviceName dir : Str),
          emptySchema = freshSchema serviceName dir →
          GenerateSchema id asciiLower asciiUpper id sortImports sortMessages sortEnums
            (.ok [enumColumn]) [] serviceName dir
            = some (.error (B "no compatible go type found for `enum`. column: `t`.`kind`")) :=
  typesFromColumns_error_keeps_messages id asciiLower asciiUpper id emptySchema [enumColumn] []
    { schema := { emptySchema with
        Enums := [{ Name := [], Comment := B "kinds"
                    Fields := [{ name := B "A", tag := 0 }, { name := B "B", tag := 1 }] }] }
      err := some (B "no compatible go type found for `enum`. column: `t`.`kind`") }
    (B "no compatible go type found for `enum`. column: `t`.`kind`") (by decide) rfl

/-- C19: the order after a successful column-mode extraction. With `sort.Sort` a sort by
`Less` and a map that enumerates each of its messages once, the schema `GenerateSchema`
returns has its messages in strictly increasing order of name (sorted and free of duplicate
names) and its enums in non-decreasing order of name. -/
theorem GenerateSchema_sorted (snakeToCamel toLower toUpper : Str → Str)
    (enumerate : List Message → List Message) (sortImports : List Str → List Str)
    (sortMessages : List Message → List Message) (sortEnums : List Enum → List Enum)
    (columns : Except Str (List Column)) (ignoreTables : List Str) (serviceName dir : Str)
    (sch : Schema) (henum : ∀ l, (enumerate l).Perm l)
    (hmessages : SortsBy MessageCollection.Less sortMessages)
    (henums : SortsBy EnumCollection.Less sortEnums)
    (hok : GenerateSchema snakeToCamel toLower toUpper enumerate sortImports sortMessages sortEnums
      columns ignoreTables serviceName dir = some (.ok sch)) :
    sch.Messages.Pairwise (fun a b => strLt a.Name b.Name = true)
      ∧ sch.Enums.Pairwise (fun a b => strLt b.Name a.Name = false) := by
  unfold GenerateSchema at hok
  split at hok
  · exact absurd hok (by simp)
  · rename_i cols
    split_ifs at hok
    · exact absurd hok (by simp)
    · simp only [] at hok
      split at hok
      · exact absurd hok (by simp)
      · rename_i r hr
        split at hok
        · exact absurd hok (by simp)
        · rename_i herr
          obtain ⟨mm, es, hk, hm, _⟩ := typesFromColumns_ok hr herr
          simp only [Option.some.injEq, Except.ok.injEq] at hok
          subst hok
          refine ⟨?_, (henums r.schema.Enums).2⟩
          have hnodup : ((sortMessages r.schema.Messages).map Message.Name).Nodup := by
            rw [(((hmessages r.schema.Messages).1).map Message.Name).nodup_iff, hm, List.nil_append,
              ((henum _).map Message.Name).nodup_iff]
            exact keysOK_names hk
          exact strictly_sorted_of_nodup Message.Name (hmessages r.schema.Messages).2 hnodup

/-- C19 (witness): three columns of the tables `t` and `s`, sorted by insertion. -/
theorem GenerateSchema_sorted_witness :
    List.Pairwise (fun a b => strLt a.Name b.Name = true)
        ([{ Name := B "s", Comment := B "the s"
            Fields := [{ Typ := B "int64", Name := B "day", Comment := B "the day",
                         ColumnName := B "day" }] },
          { Name := B "t", Comment := []
            Fields := [{ Typ := B "string", Name := B "title", Comment := B "the title",
                         ColumnName := B "title" },
                       { Typ := B "int64", Name := B "id", Comment := B "the key",
                         ColumnName := B "id" }] }] : List Message)
      ∧ List.Pairwise (fun a b => strLt b.Name a.Name = false) ([] : List Enum) :=
  GenerateSchema_sorted id asciiLower asciiUpper id id (sortByName Message.Name)
    (sortByName Enum.Name) (.ok [varcharColumn, otherColumn, intColumn, ignoredColumn]) [B "log"]
    (B "svc") (B "dir")
    { Syntax := synatx, ServiceName := B "svc", Dir := B "dir", Imports := []
      Messages :=
        [{ Name := B "s", Comment := B "the s"
           Fields := [{ Typ := B "int64", Name := B "day", Comment := B "the day",
                        ColumnName := B "day" }] },
         { Name := B "t", Comment := []
           Fields := [{ Typ := B "string", Name := B "title", Comment := B "the title",
                        ColumnName := B "title" },
                      { Typ := B "int64", Name := B "id", Comment := B "the key",
                        ColumnName := B "id" }] }]
      CusMessages := [], Enums := [], GenerateCurdMethod := [] }
    (fun l => List.Perm.refl l) (sortsBy_sortByName Message.Name) (sortsBy_sortByName Enum.Name)
    rfl

/-! ## Definition-block mode -/

/-- C20 (the code leaves the custom messages unsorted): for a proto file whose directive
lists the message `B` before the message `A`, `GenerateProtoType` returns a schema whose
`CusMessages` are `B`, `A`, in the order listed, whatever `sort.Sort` does: it sorts
`Imports`, `Messages` and `Enums` only. -/
theorem GenerateProtoType_keeps_listed_order (sortImports : List Str → List Str)
    (sortMessages : List Message → List Message) (sortEnums : List Enum → List Enum) :
    ∃ sch, GenerateProtoType findMessageBlock id id sortImports sortMessages sortEnums none
        (B "svc") (some protoListed) (B "dir") = .done sch
      ∧ sch.CusMessages.map Message.Name = [B "B", B "A"]
      ∧ ¬ sch.CusMessages.Pairwise (fun a b => strLt b.Name a.Name = false) := by
  have h : typesFromProto findMessageBlock id id
      { Syntax := synatx, ServiceName := B "svc", Dir := B "dir", Imports := [], Messages := [],
        CusMessages := [], Enums := [], GenerateCurdMethod := [] } protoListed
      = .done { Syntax := synatx, ServiceName := B "svc", Dir := B "dir", Imports := [],
                Messages := []
                CusMessages :=
                  [{ Name := B "B", Comment := []
                     Fields := [{ Typ := B "string", Name := B "name", Comment := [],
                                  ColumnName := B "name" }] },
                   { Name := B "A", Comment := []
                     Fields := [{ Typ := B "int64", Name := B "id", Comment := [],
                                  ColumnName := B "id" }] }]
                Enums := [], GenerateCurdMethod := [] } := by
    decide
  simp only [GenerateProtoType, Option.getD_none, h]
  refine ⟨_, rfl, rfl, ?_⟩
  dsimp only
  decide

/-! ## Determinism of the fresh generation -/

/-- C21: determinism of the fresh generation. For every answer of the database, two runs of
`GenerateSchema` that differ in the order in which the message map is enumerated return the
same result (`sort.Sort` being a sort by `Less`): the same error, or schemas with the same
`Messages` sequence, and so the same text of `CreateParamString`. -/
theorem GenerateSchema_deterministic (snakeToCamel toLower toUpper camel : Str → Str)
    (enumerate1 enumerate2 : List Message → List Message) (sortImports : List Str → List Str)
    (sortMessages : List Message → List Message) (sortEnums : List Enum → List Enum)
    (columns : Except Str (List Column)) (ignoreTables : List Str) (serviceName dir : Str)
    (h1 : ∀ l, (enumerate1 l).Perm l) (h2 : ∀ l, (enumerate2 l).Perm l)
    (hsort : SortsBy MessageCollection.Less sortMessages) :
    GenerateSchema snakeToCamel toLower toUpper enumerate1 sortImports sortMessages sortEnums
        columns ignoreTables serviceName dir
      = GenerateSchema snakeToCamel toLower toUpper enumerate2 sortImports sortMessages sortEnums
        columns ignoreTables serviceName dir
      ∧ ∀ sch1 sch2 : Schema,
          GenerateSchema snakeToCamel toLower toUpper enumerate1 sortImports sortMessages sortEnums
              columns ignoreTables serviceName dir = some (.ok sch1) →
          GenerateSchema snakeToCamel toLower toUpper enumerate2 sortImports sortMessages sortEnums
              columns ignoreTables serviceName dir = some (.ok sch2) →
          sch1.Messages = sch2.Messages
            ∧ Schema.CreateParamString camel sch1 = Schema.CreateParamString camel sch2 := by
  have h := GenerateSchema_enumerate snakeToCamel toLower toUpper enumerate1 enumerate2 sortImports
    sortMessages sortEnums columns ignoreTables serviceName dir h1 h2 hsort
  refine ⟨h, ?_⟩
  intro sch1 sch2 e1 e2
  rw [h, e2] at e1
  simp only [Option.some.injEq, Except.ok.injEq] at e1
  subst e1
  exact ⟨rfl, rfl⟩

/-- C21 (witness): the map enumerated in the order of insertion and in the reverse order. -/
theorem GenerateSchema_deterministic_witness :
    GenerateSchema id asciiLower asciiUpper id id (sortByName Message.Name) (sortByName Enum.Name)
        (.ok [varcharColumn, otherColumn, intColumn, ignoredColumn]) [B "log"] (B "svc") (B "dir")
      = GenerateSchema id asciiLower asciiUpper List.reverse id (sortByName Message.Name)
          (sortByName Enum.Name) (.ok [varcharColumn, otherColumn, intColumn, ignoredColumn])
          [B "log"] (B "svc") (B "dir") :=
  (GenerateSchema_deterministic id asciiLower asciiUpper id id List.reverse id
    (sortByName Message.Name) (sortByName Enum.Name)
    (.ok [varcharColumn, otherColumn, intColumn, ignoredColumn]) [B "log"] (B "svc") (B "dir")
    (fun l => List.Perm.refl l) (fun l => List.reverse_perm l)
    (sortsBy_sortByName Message.Name)).1

/-! ## The service artifact: the method subset -/

/-- C22 (as stated, refuted): with the method subset that has no element, the fresh service
artifact declares no endpoint at all for a message: the entry of the message is its banner
line, and the artifact of the schema with the message `A` has no handler. -/
theorem CreateString_no_method :
    schemaA.GenerateCurdMethod = []
      ∧ ∀ INSERT UPDATE QUERY : Str,
          (∀ m, serviceEntry INSERT UPDATE QUERY schemaA m = serviceBanner m)
            ∧ Contains (Schema.CreateString INSERT UPDATE QUERY schemaA) (B "@handler") = false := by
  refine ⟨rfl, fun INSERT UPDATE QUERY => ⟨fun m => ?_, ?_⟩⟩
  · simp [serviceEntry, serviceBanner, schemaA, emptySchema, isInSlice]
  · have h : Schema.CreateString INSERT UPDATE QUERY schemaA = Schema.CreateString [] [] [] schemaA := by
      simp [Schema.CreateString, serviceEntry, schemaA, emptySchema, isInSlice]
    rw [h]
    decide

/-- C22 (amended): the CRUD-method default. For every schema whose method subset is a single
selector that is empty or only white space, the fresh service artifact declares for each
message exactly the two query endpoints, query-list and query-detail, after its banner line,
and no create or update endpoint; for a subset with no element it declares no endpoint. -/
theorem CreateString_blank_method (INSERT UPDATE QUERY : Str) (s : Schema) (x : Str)
    (hmethods : s.GenerateCurdMethod = [x]) (hblank : TrimSpace x = []) :
    (∀ m, serviceEntry INSERT UPDATE QUERY s m = serviceBanner m ++ queryEntries m)
      ∧ Schema.CreateString INSERT UPDATE QUERY s
        = B "syntax = \"" ++ s.Syntax ++ B "\"\n" ++ B "\n" ++ B "import (\n"
          ++ (B "\t\"" ++ (s.ServiceName ++ B "Param.api") ++ B "\" \n") ++ B ")" ++ B "\n"
          ++ B "// Already Exist Table:\n"
          ++ s.Messages.flatMap (fun m => B "// " ++ m.Name ++ B "\n")
          ++ B "// Exist Table End\n" ++ B "\n"
          ++ (if s.Enums.length > 0 then
                B "// Enums Record Start\n" ++ s.Enums.flatMap (fun e => e.String ++ B "\n")
                  ++ B "// Enums Record End\n"
              else [])
          ++ B "\n" ++ B "// ------------------------------------ \n" ++ B "// api Func\n"
          ++ B "// ------------------------------------ \n\n"
          ++ (B "service " ++ s.ServiceName ++ B "\x7b\n"
                ++ s.Messages.flatMap (fun m => serviceBanner m ++ queryEntries m)
                ++ B "\t // Service Record End\n" ++ B "\x7d")
      ∧ ∀ s0 : Schema, s0.GenerateCurdMethod = [] →
          ∀ m, serviceEntry INSERT UPDATE QUERY s0 m = serviceBanner m := by
  have hentry : ∀ m, serviceEntry INSERT UPDATE QUERY s m = serviceBanner m ++ queryEntries m := by
    intro m
    simp [serviceEntry, serviceBanner, hmethods, hblank]
  refine ⟨hentry, ?_, ?_⟩
  · unfold Schema.CreateString
    rw [show serviceEntry INSERT UPDATE QUERY s = fun m => serviceBanner m ++ queryEntries m from
      funext hentry]
  · intro s0 h0 m
    simp [serviceEntry, serviceBanner, h0, isInSlice]

/-- C22 (witness): the subset whose one selector is a space. -/
theorem CreateString_blank_method_witness :
    (∀ m, serviceEntry (B "insert") (B "update") (B "query") schemaABlank m
        = serviceBanner m ++ queryEntries m)
      ∧ Contains (Schema.CreateString (B "insert") (B "update") (B "query") schemaABlank)
          (B "@handler  queryAList") = true
      ∧ Contains (Schema.CreateString (B "insert") (B "update") (B "query") schemaABlank)
          (B "@handler  create") = false :=
  ⟨(CreateString_blank_method (B "insert") (B "update") (B "query") schemaABlank (B " ") rfl
      (by decide)).1, by decide, by decide⟩

/-! ## Definition-block mode: the lines of a block -/

/-- C23: the line tolerance of the definition-block mode. For every line of a block the
field extraction of `typesFromProto` either skips the line or gives exactly one field and
never indexes a token out of range; the line is skipped exactly when it has fewer than 7
space-separated tokens or its type token (token 2, or token 3 after a `repeated` qualifier
on a line of 8 tokens) contains `//`; otherwise the field has that token as its type, with
`[]*` before it for a `repeated` line, the next token as its name and the token four places
after the type as its comment. So the field loop ends without a fault on every block. -/
theorem protoField_tolerant (camelToSnake : Str → Str) (line : Str) :
    protoField camelToSnake line ≠ none
      ∧ (protoField camelToSnake line = some none
          ↔ (tokens line).length < 7
            ∨ Contains ((tokens line).getD (typeIndex line) []) (B "//") = true)
      ∧ (¬ ((tokens line).length < 7
            ∨ Contains ((tokens line).getD (typeIndex line) []) (B "//") = true) →
          protoField camelToSnake line
            = some (some
                { Typ := (if isRepeated line then B "[]*" else [])
                    ++ (tokens line).getD (typeIndex line) []
                  Name := (tokens line).getD (typeIndex line + 1) []
                  Comment := removeSlashes ((tokens line).getD (typeIndex line + 4) [])
                  ColumnName := camelToSnake ((tokens line).getD (typeIndex line + 1) []) }))
      ∧ ∀ lines, ∃ fs, protoFields camelToSnake lines = some fs ∧ fs.length ≤ lines.length := by
  refine ⟨protoField_ne_none camelToSnake line, ?_, ?_,
    protoFields_total camelToSnake (protoField_ne_none camelToSnake)⟩
  · rw [protoField_eq]
    constructor
    · intro h
      by_contra hn
      rw [if_neg hn] at h
      exact absurd h (by simp)
    · intro h
      rw [if_pos h]
  · intro h
    rw [protoField_eq, if_neg h]

/-- C23 (witness): a plain line, a `repeated` line, a comment line and a short line. -/
theorem protoField_tolerant_witness :
    protoField id (B "  int64 id = 1; // key")
        = some (some { Typ := B "int64", Name := B "id", Comment := [], ColumnName := B "id" })
      ∧ protoField id (B "  repeated Item items = 2; //list")
        = some (some { Typ := B "[]*Item", Name := B "items", Comment := B "list",
                       ColumnName := B "items" })
      ∧ protoField id (B "  // a line of comment with words") = some none
      ∧ protoField id (B "  int64 id = 1;") = some none
      ∧ protoField id (B "  int64 id = 1; // key") ≠ none :=
  ⟨by decide, by decide, by decide, by decide,
    (protoField_tolerant id (B "  int64 id = 1; // key")).1⟩

/-- C24 (the code faults on a listed name without a block): for every text and every
directive list, when a listed name has no `message <Name> ...` block in the text, so that
`FindStringSubmatch` returns nil, `typesFromProto` indexes element 0 of the nil slice and
faults: the name is not skipped and no message is extracted, and `GenerateProtoType`, which
does not recover, faults with it. -/
theorem typesFromProto_faults_on_missing_block (find : Str → Str → Option Str)
    (snakeToCamel camelToSnake : Str → Str) (sortImports : List Str → List Str)
    (sortMessages : List Message → List Message) (sortEnums : List Enum → List Enum)
    (s : Schema) (serviceName dir file : Str) (names : List Str) (rest : List Str)
    (hscan : directiveScan (reads file) = .done (names, rest))
    (hmissing : ∃ v ∈ names, find v rest.flatten = none) :
    typesFromProto find snakeToCamel camelToSnake s file = .fault
      ∧ GenerateProtoType find snakeToCamel camelToSnake sortImports sortMessages sortEnums
          (some s) serviceName (some file) dir = .fault := by
  have h : ∀ s0 : Schema, typesFromProto find snakeToCamel camelToSnake s0 file = .fault := by
    intro s0
    unfold typesFromProto
    rw [hscan]
    simp only []
    rw [protoMessages_missing find snakeToCamel camelToSnake rest.flatten names s0.CusMessages
      hmissing]
  refine ⟨h s, ?_⟩
  unfold GenerateProtoType
  simp only [Option.getD_some]
  rw [h]

/-- C24 (witness): the directive lists `A`, which the file declares, and `Missing`, which
it does not. -/
theorem typesFromProto_faults_on_missing_block_witness :
    findMessageBlock (B "A") (B "message A \x7b\n  int64 id = 1; // key\n\x7d\n")
        = some (B "message A \x7b\n  int64 id = 1; // key\n\x7d")
      ∧ typesFromProto findMessageBlock id id emptySchema protoMissing = .fault
      ∧ GenerateProtoType findMessageBlock id id id id id (some emptySchema) (B "svc")
          (some protoMissing) (B "dir") = .fault :=
  ⟨by decide,
    typesFromProto_faults_on_missing_block findMessageBlock id id id id id emptySchema (B "svc")
      (B "dir") protoMissing [B "A", B "Missing"]
      [B "message A \x7b\n", B "  int64 id = 1; // key\n", B "\x7d\n", []]
      (by decide) ⟨B "Missing", by decide, by decide⟩⟩

/-! ## The types of the fields -/

/-- C25 (the definition-block mode gives fields of empty type): for a proto file whose
block is indented by four spaces, `typesFromProto` gives the message `A` a field whose type
is empty (and whose name is empty): the type is token 2 of the line split at single spaces,
which is empty when the line starts with more than two spaces. -/
theorem typesFromProto_empty_type :
    typesFromProto findMessageBlock id id emptySchema protoIndented
        = .done { emptySchema with
            CusMessages := [{ Name := B "A", Comment := []
                              Fields := [{ Typ := [], Name := [], Comment := B "=",
                                           ColumnName := [] }] }] }
      ∧ protoField id (B "    int64 id = 1; // key")
        = some (some { Typ := [], Name := [], Comment := B "=", ColumnName := [] }) := by
  decide

/-! ## The fresh params artifact: the type blocks -/

/-- C29 (the code closes the type blocks of the table messages once): `CreateParamString`
writes the closing line `)` once after the loop over the messages, not once per message.
For a schema with two messages the artifact has two opening lines `type (` and one closing
line, the second block opening inside the first; for a schema with no message it has a
closing line and no opening line. For one message the blocks are balanced, as they are in
the blocks `UpdateParamString` adds, which end with the closing line each. -/
theorem CreateParamString_unbalanced :
    (textLines (Schema.CreateParamString id schemaAB)).count (B "type (") = 2
      ∧ (textLines (Schema.CreateParamString id schemaAB)).count (B ")") = 1
      ∧ blocksBalanced false (textLines (Schema.CreateParamString id schemaAB)) = false
      ∧ (textLines (Schema.CreateParamString id emptySchema)).count (B "type (") = 0
      ∧ (textLines (Schema.CreateParamString id emptySchema)).count (B ")") = 1
      ∧ blocksBalanced false (textLines (Schema.CreateParamString id emptySchema)) = false
      ∧ blocksBalanced false (textLines (Schema.CreateParamString id schemaA)) = true
      ∧ blocksBalanced false
          (textLines (messageBlock id (sampleMessage "A") ++ messageBlock id (sampleMessage "B")))
        = true := by
  refine ⟨?_, ?_, ?_, ?_, ?_, ?_, ?_, ?_⟩ <;> decide!

/-! ## Definition-block mode: the end of the directive scan -/

/-- C30 (the directive scan does not end without the closing marker): when a read of the
file contains `Api Struct Gen` and no later read contains `Struct Gen End`, the inner loop
of `typesFromProto`, which ignores the error of `ReadString`, has not ended after any
number of iterations: at the end of the file it reads the empty string again and again and
adds an empty name each time, so after `fuel` iterations it holds `fuel` names. The scan and
`typesFromProto` never return. -/
theorem directiveScan_never_ends (find : Str → Str → Option Str)
    (snakeToCamel camelToSnake : Str → Str) (s : Schema) (file : Str) (pre : List Str)
    (line : Str) (rest : List Str) (hreads : reads file = pre ++ line :: rest)
    (hpre : ∀ l ∈ pre, Contains l (B "Api Struct Gen") = false)
    (hline : Contains line (B "Api Struct Gen") = true) (hrest : rest ≠ [])
    (hend : ∀ l ∈ rest, Contains l (B "Struct Gen End") = false) :
    (∀ fuel, ∃ names, directiveNamesFuel fuel rest [] = .error names ∧ names.length = fuel)
      ∧ directiveScan (reads file) = .diverges
      ∧ typesFromProto find snakeToCamel camelToSnake s file = .diverges := by
  have hscan : directiveScan (reads file) = .diverges := by
    rw [hreads]
    exact directiveScan_unended pre line rest hpre hline hrest hend
  refine ⟨?_, hscan, ?_⟩
  · intro fuel
    obtain ⟨names, h1, h2⟩ := directiveNamesFuel_unended fuel rest [] hend
    exact ⟨names, h1, by simpa using h2⟩
  · unfold typesFromProto
    rw [hscan]

/-- C30 (witness): a proto file with the opening marker and no closing marker; after seven
iterations of the inner loop the names are `A`, the three lines of the block and three empty
names, the file being exhausted after the fifth read. -/
theorem directiveScan_never_ends_witness :
    directiveNamesFuel 7
        [B "// A\n", B "message A \x7b\n", B "  int64 id = 1; // key\n", B "\x7d\n", []] []
        = .error [B "A", B "message A \x7b", B "int64 id = 1;  key", B "\x7d", [], [], []]
      ∧ typesFromProto findMessageBlock id id emptySchema protoUnended = .diverges :=
  ⟨rfl,
    (directiveScan_never_ends findMessageBlock id id emptySchema protoUnended
      [B "syntax = \"proto3\";\n"] (B "// Api Struct Gen\n")
      [B "// A\n", B "message A \x7b\n", B "  int64 id = 1; // key\n", B "\x7d\n", []]
      (by decide) (by decide) (by decide) (by decide) (by decide)).2.2⟩

end Apigen

namespace Generator

open Apigen

/-! # Properties of the logic generator -/

/-- C13 (as stated, refuted): for the endpoint `CreateOrder` with the request type
`OrderFilter` the rule of the specification gives Create, while the switch selects no curd
template: its create, delete and update cases compare with the whole request type name. -/
theorem genLogicFunction_keeps_filter_in_create :
    classifyStripped (B "CreateOrder") (B "OrderFilter") = .Create
      ∧ (genLogicFunction id (B "CreateOrder") (B "OrderFilter")).text.kind = .Unclassified
      ∧ classifyStripped (B "DeleteOrder") (B "OrderFilter") = .Delete
      ∧ (genLogicFunction id (B "DeleteOrder") (B "OrderFilter")).text.kind = .Unclassified
      ∧ classifyStripped (B "UpdateOrder") (B "OrderFilter") = .Update
      ∧ (genLogicFunction id (B "UpdateOrder") (B "OrderFilter")).text.kind = .Unclassified := by
  decide

/-- C13 (amended): the naming-convention dispatch rule. For every endpoint name `e` and
request type name `r` (both camel-cased), with `b` the name `r` without its first `Filter`,
the endpoint is classified Create if `e = "Create"+r`, else Delete if `e = "Delete"+r`, else
QueryDetail if `e = "Query"+b+"Detail"`, else QueryList if `e = "Query"+b+"List"`, else
Update if `e = "Update"+r`, else Unclassified. -/
theorem genLogicFunction_dispatch (camelCase : Str → Str) (rpcName requestType : Str) :
    (genLogicFunction camelCase rpcName requestType).text.kind
      = classify (camelCase rpcName) (camelCase requestType) := by
  unfold genLogicFunction classify
  split_ifs <;> rfl

/-- C14 (as stated, refuted): for the endpoint `QueryOrderFilterList` with the request type
`OrderFilter` the switch selects no curd template and sets no model name. -/
theorem genLogicFunction_query_filter_list :
    genLogicFunction id (B "QueryOrderFilterList") (B "OrderFilter")
      = { text := .loaded, modelName := [], HasSqlc := false, HasUtil := false, HasModel := false } := by
  decide

/-- C14 (amended): the endpoint named `QueryOrderList` with the request type `OrderFilter`
is classified as QueryList: the query-list template is selected and the model name is
`Order`. -/
theorem genLogicFunction_query_list (camelCase : Str → Str)
    (hname : camelCase (B "QueryOrderList") = B "QueryOrderList")
    (hrequest : camelCase (B "OrderFilter") = B "OrderFilter") :
    genLogicFunction camelCase (B "QueryOrderList") (B "OrderFilter")
      = { text := .QueryLogic, modelName := B "Order", HasSqlc := false, HasUtil := true,
          HasModel := true } := by
  unfold genLogicFunction
  rw [hname, hrequest]
  decide

/-- C14 (witness): with names that are in camel case already. -/
theorem genLogicFunction_query_list_witness :
    genLogicFunction id (B "QueryOrderList") (B "OrderFilter")
      = { text := .QueryLogic, modelName := B "Order", HasSqlc := false, HasUtil := true,
          HasModel := true } :=
  genLogicFunction_query_list id rfl rfl

/-- C15 (as stated, refuted): for the endpoint `CreateOrderReq` with the request type
`Order`, whose base type is `Order`, the switch selects no curd template. -/
theorem genLogicFunction_create_order_req :
    removeFirst (B "Filter") (B "Order") = B "Order"
      ∧ genLogicFunction id (B "CreateOrderReq") (B "Order")
        = { text := .loaded, modelName := [], HasSqlc := false, HasUtil := false,
            HasModel := false } := by
  decide

/-- C15 (amended): the endpoint named `CreateOrderReq` is classified as Create exactly when
its request type is `OrderReq`, the name being `Create` followed by the whole request type
name; for every request type whose base type is `Order` it is Unclassified. -/
theorem genLogicFunction_create (camelCase : Str → Str)
    (hname : camelCase (B "CreateOrderReq") = B "CreateOrderReq") :
    (∀ requestType, (genLogicFunction camelCase (B "CreateOrderReq") requestType).text = .CreateLogic
        ↔ camelCase requestType = B "OrderReq")
      ∧ (∀ requestType, removeFirst (B "Filter") (camelCase requestType) = B "Order" →
        (genLogicFunction camelCase (B "CreateOrderReq") requestType).text = .loaded) := by
  constructor
  · intro requestType
    constructor
    · intro h
      unfold genLogicFunction at h
      rw [hname] at h
      split_ifs at h with h1
      · have h2 : B "CreateOrderReq" = B "Create" ++ B "OrderReq" := by decide
        rw [h2] at h1
        exact (List.append_cancel_left h1).symm
    · intro hr
      unfold genLogicFunction
      rw [hname, hr]
      decide
  · intro requestType hr
    have hne : camelCase requestType ≠ B "OrderReq" := by
      intro h
      rw [h] at hr
      revert hr
      decide
    have hcreate : B "CreateOrderReq" ≠ B "Create" ++ camelCase requestType := by
      intro h
      apply hne
      have h2 : B "CreateOrderReq" = B "Create" ++ B "OrderReq" := by decide
      rw [h2] at h
      exact (List.append_cancel_left h).symm
    have hC : B "CreateOrderReq" = 67 :: B "reateOrderReq" := by decide
    have hD : B "Delete" = 68 :: B "elete" := by decide
    have hQ : B "Query" = 81 :: B "uery" := by decide
    have hU : B "Update" = 85 :: B "pdate" := by decide
    unfold genLogicFunction
    rw [hname, if_neg hcreate, hr]
    have h1 : ¬ B "CreateOrderReq" = B "Delete" ++ camelCase requestType := by
      rw [hC, hD]; simp
    have h2 : ¬ B "CreateOrderReq" = B "Query" ++ B "Order" ++ B "Detail" := by decide
    have h3 : ¬ B "CreateOrderReq" = B "Query" ++ B "Order" ++ B "List" := by decide
    have h4 : ¬ B "CreateOrderReq" = B "Update" ++ camelCase requestType := by
      rw [hC, hU]; simp
    rw [if_neg h1, if_neg h2, if_neg h3, if_neg h4]

/-- C15 (witness): with names that are in camel case already: Create with the request type
`OrderReq`, and with no other; Unclassified with `OrderFilter` and with `Order`. -/
theorem genLogicFunction_create_witness :
    (genLogicFunction id (B "CreateOrderReq") (B "OrderReq")).text = .CreateLogic
      ∧ (genLogicFunction id (B "CreateOrderReq") (B "OrderFilter")).text = .loaded
      ∧ (genLogicFunction id (B "CreateOrderReq") (B "Order")).text ≠ .CreateLogic :=
  ⟨((genLogicFunction_create id rfl).1 (B "OrderReq")).mpr rfl,
    (genLogicFunction_create id rfl).2 (B "OrderFilter") (by decide),
    fun h => absurd (((genLogicFunction_create id rfl).1 (B "Order")).mp h) (by decide)⟩

/-- C16 (the code misses the fallback after a panic): when the lookup panics,
`getPrimaryKey` stops the panic but returns no error, because its deferred function tests
`err` and not the recovered value; the caller then binds the empty key name and the empty
zero-value literal, not `Id` and `0`. When `Scan` returns an error the fallback is taken. -/
theorem primaryKeyBinding_after_panic (camelCase toLower title : Str → Str) (requestType : Str) :
    primaryKeyBinding camelCase toLower title (fun _ => Lookup.panics) requestType = ([], [])
      ∧ ∀ err, primaryKeyBinding camelCase toLower title (fun _ => Lookup.failed err) requestType
          = (B "Id", B "0") :=
  ⟨rfl, fun _ => rfl⟩

/-! ## The table name -/

theorem snakeLoop_enum (s : Str) :
    ∀ (rest pre : Str), s = pre ++ rest →
      snakeLoop pre.length (pre.any (fun c => c ≠ 95)) rest
        = (rest.enumFrom pre.length).flatMap (fun p =>
            (if p.1 ≠ 0 ∧ 65 ≤ p.2 ∧ p.2 ≤ 90 ∧ (s.take p.1).any (fun c => c ≠ 95) then [95]
              else []) ++ [p.2]) := by
  intro rest
  induction rest with
  | nil => intro pre _; rfl
  | cons d ds ih =>
    intro pre hs
    have htake : s.take pre.length = pre := by rw [hs]; simp
    have hnext := ih (pre ++ [d]) (by rw [hs]; simp)
    have hany : (pre ++ [d]).any (fun c => decide (c ≠ 95)) = (pre.any (fun c => decide (c ≠ 95)) || decide (d ≠ 95)) := by
      simp [List.any_append]
    rw [List.length_append, List.length_singleton, hany] at hnext
    simp only [snakeLoop, List.enumFrom_cons, List.flatMap_cons, htake, hnext, gt_iff_lt,
      Nat.pos_iff_ne_zero, List.append_assoc, List.singleton_append]

theorem snakeLoop_withUnderscores (s : Str) : snakeLoop 0 false s = withUnderscores s := by
  have h := snakeLoop_enum s s [] rfl
  simpa [withUnderscores, List.enum] using h

theorem snakeLoop_ascii : ∀ (s : Str) (i : Nat) (j : Bool), (∀ c ∈ s, c < 128) →
    ∀ c ∈ snakeLoop i j s, c < 128
  | [], _, _, _ => by intro c hc; simp [snakeLoop] at hc
  | d :: ds, i, j, h => by
    intro c hc
    simp only [snakeLoop, List.mem_append, List.mem_cons] at hc
    rcases hc with hc | hc | hc
    · split at hc
      · rw [List.mem_singleton.mp hc]; omega
      · exact absurd hc (List.not_mem_nil c)
    · rw [hc]; exact h d (List.mem_cons_self _ _)
    · exact snakeLoop_ascii ds _ _ (fun x hx => h x (List.mem_cons_of_mem _ hx)) c hc

theorem snakeLoop_lower : ∀ (s : Str) (i : Nat) (j : Bool), (∀ c ∈ s, ¬ (65 ≤ c ∧ c ≤ 90)) →
    snakeLoop i j s = s
  | [], _, _, _ => rfl
  | d :: ds, i, j, h => by
    have hd := h d (List.mem_cons_self _ _)
    have hds := snakeLoop_lower ds (i + 1) (j || decide (d ≠ 95))
      (fun x hx => h x (List.mem_cons_of_mem _ hx))
    simp only [snakeLoop, hds]
    rw [if_neg (fun hc => hd ⟨hc.2.1, hc.2.2.1⟩)]
    rfl

theorem asciiLower_lower (s : Str) : ∀ c ∈ asciiLower s, ¬ (65 ≤ c ∧ c ≤ 90) := by
  intro c hc
  simp only [asciiLower, List.mem_map] at hc
  obtain ⟨a, _, ha⟩ := hc
  split at ha <;> omega

theorem asciiLower_ascii (s : Str) (h : ∀ c ∈ s, c < 128) : ∀ c ∈ asciiLower s, c < 128 := by
  intro c hc
  simp only [asciiLower, List.mem_map] at hc
  obtain ⟨a, ha, hac⟩ := hc
  have := h a ha
  split at hac <;> omega

theorem asciiLower_of_lower (s : Str) (h : ∀ c ∈ s, ¬ (65 ≤ c ∧ c ≤ 90)) : asciiLower s = s := by
  unfold asciiLower
  conv_rhs => rw [← List.map_id s]
  apply List.map_congr_left
  intro c hc
  rw [if_neg (h c hc)]
  rfl

theorem snakeLoop_word (w rest : Str) (i : Nat) (j : Bool) (hw : isCamelWord w = true) :
    snakeLoop i j (w ++ rest)
      = (if i > 0 ∧ j = true then [95] else []) ++ w ++ snakeLoop (i + w.length) true rest := by
  cases w with
  | nil => simp [isCamelWord] at hw
  | cons u t =>
    simp only [isCamelWord, Bool.and_eq_true, decide_eq_true_eq, List.all_eq_true,
      Bool.decide_eq_true] at hw
    obtain ⟨hu, ht⟩ := hw
    have htail : ∀ (t : Str) (k : Nat), (∀ d ∈ t, ¬ (65 ≤ d ∧ d ≤ 90)) →
        snakeLoop k true (t ++ rest) = t ++ snakeLoop (k + t.length) true rest := by
      intro t
      induction t with
      | nil => intro k _; rfl
      | cons d ds ih =>
        intro k h
        have hd := h d (List.mem_cons_self _ _)
        simp only [List.cons_append, snakeLoop, Bool.true_or, List.length_cons, List.append_eq]
        rw [if_neg (fun hc => hd ⟨hc.2.1, hc.2.2.1⟩), ih (k + 1) (fun x hx => h x (List.mem_cons_of_mem _ hx))]
        simp only [List.nil_append, List.cons.injEq, true_and]
        congr 2
        omega
    have hj : (j || decide (u ≠ 95)) = true := by
      have : u ≠ 95 := by omega
      simp [this]
    simp only [List.cons_append, snakeLoop, hj, List.length_cons, List.append_eq]
    rw [htail t (i + 1) (fun d hd => by simpa using ht d hd)]
    have hup : (i > 0 ∧ 65 ≤ u ∧ u ≤ 90 ∧ j = true) ↔ (i > 0 ∧ j = true) := by
      constructor
      · rintro ⟨a, _, _, b⟩; exact ⟨a, b⟩
      · rintro ⟨a, b⟩; exact ⟨a, hu.1, hu.2, b⟩
    simp only [hup, List.append_assoc, List.cons_append]
    have hk : i + 1 + t.length = i + (t.length + 1) := by omega
    rw [hk]

theorem snakeLoop_words : ∀ (ws : List Str) (i : Nat) (j : Bool),
    (∀ w ∈ ws, isCamelWord w = true) → (i > 0 → j = true) →
    snakeLoop i j ws.flatten
      = (if i > 0 ∧ ws ≠ [] then [95] else []) ++ [95].intercalate ws
  | [], _, _, _, _ => by simp [snakeLoop, List.intercalate]
  | [w], i, j, h, hij => by
    have hw := h w (List.mem_singleton_self w)
    have := snakeLoop_word w [] i j hw
    simp only [List.append_nil] at this
    simp only [List.flatten_cons, List.flatten_nil, List.append_nil, this, snakeLoop,
      List.intercalate, List.intersperse, ne_eq, List.cons_ne_self, not_false_eq_true, and_true]
    by_cases hi : i > 0
    · simp [hi, hij hi]
    · simp [hi]
  | w :: w2 :: ws, i, j, h, hij => by
    have hw := h w (List.mem_cons_self _ _)
    have hlen : w.length > 0 := by
      cases w with
      | nil => simp [isCamelWord] at hw
      | cons _ _ => simp
    have hrest := snakeLoop_words (w2 :: ws) (i + w.length) true
      (fun x hx => h x (List.mem_cons_of_mem _ hx)) (fun _ => rfl)
    rw [List.flatten_cons, snakeLoop_word w _ i j hw, hrest]
    have hpos : i + w.length > 0 := by omega
    simp only [hpos, ne_eq, reduceCtorEq, not_false_eq_true, and_self, if_true, List.intercalate,
      List.intersperse, List.flatten_cons, List.append_assoc, List.singleton_append,
      List.cons_ne_self, and_true]
    by_cases hi : i > 0
    · simp [hi, hij hi]
    · simp [hi]

theorem asciiLower_intersperse : ∀ (ws : List Str),
    (ws.intersperse [95]).map asciiLower = (ws.map asciiLower).intersperse [95]
  | [] => rfl
  | [_] => rfl
  | w :: w2 :: ws => by
    have h := asciiLower_intersperse (w2 :: ws)
    simp only [List.intersperse, List.map_cons] at h ⊢
    rw [h]
    rfl

/-- C26: the camel-to-snake table name. For every ASCII string `s`, on which
`strings.ToLower` lower-cases the letters `A`-`Z`, `snakeString(s)` is `s` lower-cased with
one underscore before each upper-case letter that is not at index 0 and has a byte other than
the underscore somewhere before it; the result has no upper-case ASCII letter,
`snakeString(snakeString(s)) = snakeString(s)`, and an upper-camel name made of words gives
the lower-cased words joined by single underscores. -/
theorem snakeString_spec (toLower : Str → Str)
    (htoLower : ∀ x, isAscii x = true → toLower x = asciiLower x) (s : Str)
    (hs : isAscii s = true) :
    snakeString toLower s = asciiLower (withUnderscores s)
      ∧ (∀ c ∈ snakeString toLower s, ¬ (65 ≤ c ∧ c ≤ 90))
      ∧ snakeString toLower (snakeString toLower s) = snakeString toLower s
      ∧ ∀ ws : List Str, s = ws.flatten → (∀ w ∈ ws, isCamelWord w = true) →
          snakeString toLower s = [95].intercalate (ws.map asciiLower) := by
  have hs2 : ∀ c ∈ s, c < 128 := by simpa [isAscii] using hs
  have hloop : isAscii (snakeLoop 0 false s) = true := by
    simpa [isAscii] using snakeLoop_ascii s 0 false hs2
  have h1 : snakeString toLower s = asciiLower (snakeLoop 0 false s) := htoLower _ hloop
  have hlow := asciiLower_lower (snakeLoop 0 false s)
  have hasc : isAscii (asciiLower (snakeLoop 0 false s)) = true := by
    simpa [isAscii] using asciiLower_ascii _ (snakeLoop_ascii s 0 false hs2)
  refine ⟨by rw [h1, snakeLoop_withUnderscores], by rw [h1]; exact hlow, ?_, ?_⟩
  · rw [h1]
    unfold snakeString
    rw [snakeLoop_lower _ 0 false hlow, htoLower _ hasc, asciiLower_of_lower _ hlow]
  · intro ws hws hwords
    rw [h1, hws, snakeLoop_words ws 0 false hwords (fun h => absurd h (by omega))]
    simp only [gt_iff_lt, Nat.lt_irrefl, false_and, if_false, List.nil_append]
    have hflat : ∀ l : List Str, asciiLower l.flatten = (l.map asciiLower).flatten := by
      intro l
      show List.map _ l.flatten = _
      rw [List.map_flatten]
      rfl
    rw [List.intercalate, hflat, asciiLower_intersperse]
    rfl

/-- C26 (witness): `OrderItem` gives `order_item`. -/
theorem snakeString_spec_witness :
    snakeString asciiLower (B "OrderItem") = B "order_item"
      ∧ snakeString asciiLower (B "OrderItem") = asciiLower (withUnderscores (B "OrderItem"))
      ∧ snakeString asciiLower (B "OrderItem")
        = [95].intercalate ([B "Order", B "Item"].map asciiLower) :=
  ⟨by decide,
    (snakeString_spec asciiLower (fun _ _ => rfl) (B "OrderItem") (by decide)).1,
    (snakeString_spec asciiLower (fun _ _ => rfl) (B "OrderItem") (by decide)).2.2.2
      [B "Order", B "Item"] (by decide) (by decide)⟩

/-! ## The primary key -/

theorem splitByte_ne_nil (sep : Nat) (s : Str) : splitByte sep s ≠ [] := by
  cases s with
  | nil => simp [splitByte]
  | cons c cs =>
    simp only [splitByte]
    split
    · simp
    · split <;> simp

/-- The words of a text after a byte that is not a separator: the first word is a
continuation and is not capitalised. -/
theorem titleLoop_words : ∀ (c : Str) (prev : Nat), isIdentifier c = true →
    (titleLoop prev (replaceByte 95 32 c)).filter (fun x => x ≠ 32)
      = if (48 ≤ prev ∧ prev ≤ 57) ∨ (97 ≤ prev ∧ prev ≤ 122) ∨ (65 ≤ prev ∧ prev ≤ 90) ∨ prev = 95
        then (splitByte 95 c).head?.getD [] ++ (splitByte 95 c).tail.flatMap capitalise
        else (splitByte 95 c).flatMap capitalise
  | [], prev, _ => by
    simp [titleLoop, replaceByte, splitByte, capitalise]
  | d :: ds, prev, h => by
    have hd : (48 ≤ d ∧ d ≤ 57) ∨ (97 ≤ d ∧ d ≤ 122) ∨ (65 ≤ d ∧ d ≤ 90) ∨ d = 95 := by
      simpa [isIdentifier] using (List.all_eq_true.mp h) d (List.mem_cons_self _ _)
    have hds : isIdentifier ds = true := by
      simp only [isIdentifier, List.all_eq_true] at h ⊢
      exact fun x hx => h x (List.mem_cons_of_mem _ hx)
    by_cases h95 : d = 95
    · subst h95
      have ih := titleLoop_words ds 32 hds
      simp only [show ¬ ((48 ≤ 32 ∧ 32 ≤ 57) ∨ (97 ≤ 32 ∧ 32 ≤ 122) ∨ (65 ≤ 32 ∧ 32 ≤ 90) ∨ 32 = 95)
        by omega, if_false] at ih
      have hrep : replaceByte 95 32 (95 :: ds) = 32 :: replaceByte 95 32 ds := by
        simp [replaceByte]
      rw [hrep]
      simp only [titleLoop, splitByte, if_true, List.head?_cons, Option.getD_some,
        List.nil_append, List.tail_cons, List.flatMap_cons, capitalise]
      have hdrop : ∀ y : Nat, (y = 32) → ∀ r : Str,
          List.filter (fun x => decide (x ≠ 32)) (y :: r) = List.filter (fun x => decide (x ≠ 32)) r := by
        intro y hy r
        simp [List.filter_cons, hy]
      rw [hdrop _ (by split_ifs <;> first | rfl | omega), ih]
      split_ifs <;> rfl
    · have hd2 : (48 ≤ d ∧ d ≤ 57) ∨ (97 ≤ d ∧ d ≤ 122) ∨ (65 ≤ d ∧ d ≤ 90) := by omega
      have ih := titleLoop_words ds d hds
      rw [if_pos hd] at ih
      have hrep : replaceByte 95 32 (d :: ds) = d :: replaceByte 95 32 ds := by
        simp [replaceByte, h95]
      rw [hrep]
      obtain ⟨w, ws, hsplit⟩ := List.exists_cons_of_ne_nil (splitByte_ne_nil 95 ds)
      rw [hsplit] at ih
      simp only [List.head?_cons, Option.getD_some, List.tail_cons] at ih
      have hkeep : ∀ y : Nat, (y ≠ 32) → ∀ r : Str,
          List.filter (fun x => decide (x ≠ 32)) (y :: r) = y :: List.filter (fun x => decide (x ≠ 32)) r := by
        intro y hy r
        simp [List.filter_cons, hy]
      simp only [titleLoop, splitByte, h95, if_false, hsplit, List.head?_cons, Option.getD_some,
        List.tail_cons, List.flatMap_cons, capitalise]
      rw [hkeep _ (by split_ifs <;> omega), ih]
      split_ifs <;> simp

/-- C27 (as stated, refuted): for the key column `order-id` the key name is `Order-Id`,
not the column name with its underscores removed and the first letter of each
underscore-separated word capitalised, which is `Order-id`; for the key column `my col` it
is `MyCol`, not `My col`. -/
theorem getPrimaryKey_other_separators :
    (getPrimaryKey asciiLower asciiTitle (fun _ => .row (B "order-id") (B "int")) (B "Order")).camels
        = B "Order-Id"
      ∧ keyName (B "order-id") = B "Order-id"
      ∧ (getPrimaryKey asciiLower asciiTitle (fun _ => .row (B "my col") (B "int")) (B "Order")).camels
        = B "MyCol"
      ∧ keyName (B "my col") = B "My col" := by
  decide

/-- C27 (amended): the result of a lookup that succeeds. When the lookup gives the key
column `c`, made of ASCII letters, digits and underscores, and the native type `t`,
`getPrimaryKey` returns no error, the key name `c` with its underscores removed and the first
letter of each underscore-separated word capitalised, and the zero-value literal `""` when
`t` is one of `char`, `varchar`, `text`, `longtext`, `mediumtext`, `tinytext` and `0` for
every other `t`. -/
theorem getPrimaryKey_found (toLower title : Str → Str) (queryRow : Str → Lookup)
    (modelName c t : Str) (htitle : ∀ x, isAscii x = true → title x = asciiTitle x)
    (hrow : queryRow (snakeString toLower modelName) = .row c t) (hc : isIdentifier c = true) :
    getPrimaryKey toLower title queryRow modelName
      = { camels := keyName c, mark := zeroLiteral t, err := none } := by
  have hascii : isAscii (replaceByte 95 32 c) = true := by
    simp only [isAscii, isIdentifier, replaceByte, List.all_eq_true, List.mem_map,
      decide_eq_true_eq] at hc ⊢
    rintro x ⟨y, hy, rfl⟩
    have := hc y hy
    split <;> omega
  have hcamel : camel title c = keyName c := by
    unfold camel
    rw [htitle _ hascii]
    have h := titleLoop_words c 32 hc
    rw [if_neg (by omega)] at h
    exact h
  unfold getPrimaryKey
  rw [hrow]
  simp only [hcamel, zeroLiteral]

/-- C27 (witness): the key column `order_id` of type `varchar` and the key column `id` of
type `bigint`. -/
theorem getPrimaryKey_found_witness :
    getPrimaryKey asciiLower asciiTitle (fun _ => .row (B "order_id") (B "varchar")) (B "Order")
        = { camels := B "OrderId", mark := B "\"\"", err := none }
      ∧ getPrimaryKey asciiLower asciiTitle (fun _ => .row (B "id") (B "bigint")) (B "Order")
        = { camels := keyName (B "id"), mark := zeroLiteral (B "bigint"), err := none }
      ∧ keyName (B "id") = B "Id" ∧ zeroLiteral (B "bigint") = B "0" :=
  ⟨by decide,
    getPrimaryKey_found asciiLower asciiTitle (fun _ => .row (B "id") (B "bigint")) (B "Order")
      (B "id") (B "bigint") (fun _ _ => rfl) rfl (by decide),
    by decide, by decide⟩

/-! ## The cases of the switch -/

theorem switchCases_nodup (camelCase : Str → Str) (requestType : Str) :
    ((switchCases camelCase requestType).map Prod.fst).Nodup := by
  have hC : B "Create" = 67 :: B "reate" := by decide
  have hD : B "Delete" = 68 :: B "elete" := by decide
  have hQ : B "Query" = 81 :: B "uery" := by decide
  have hU : B "Update" = 85 :: B "pdate" := by decide
  have hdl : ∀ b : Str, B "Query" ++ b ++ B "Detail" ≠ B "Query" ++ b ++ B "List" := by
    intro b h
    rw [List.append_assoc, List.append_assoc] at h
    have h2 := List.append_cancel_left (List.append_cancel_left h)
    revert h2
    decide
  simp only [switchCases, List.map_cons, List.map_nil, List.nodup_cons, List.mem_cons,
    List.mem_singleton, List.not_mem_nil, not_or, List.nodup_nil, and_true, not_false_eq_true]
  refine ⟨⟨?_, ?_, ?_, ?_⟩, ⟨?_, ?_, ?_⟩, ⟨hdl _, ?_⟩, ?_⟩ <;>
    simp [hC, hD, hQ, hU]

theorem find_perm {l1 l2 : List (Str × Dispatch)} (hperm : l1.Perm l2)
    (hnodup : (l1.map Prod.fst).Nodup) (e : Str) :
    l1.find? (fun c => e = c.1) = l2.find? (fun c => e = c.1) := by
  cases h1 : l1.find? (fun c => decide (e = c.1)) with
  | none =>
    cases h2 : l2.find? (fun c => decide (e = c.1)) with
    | none => rfl
    | some y =>
      have hy := List.mem_of_find?_eq_some h2
      have hp := List.find?_some h2
      rw [List.find?_eq_none] at h1
      exact absurd hp (h1 y (hperm.mem_iff.mpr hy))
  | some x =>
    have hx := List.mem_of_find?_eq_some h1
    have hpx := List.find?_some h1
    cases h2 : l2.find? (fun c => decide (e = c.1)) with
    | none =>
      rw [List.find?_eq_none] at h2
      exact absurd hpx (h2 x (hperm.mem_iff.mp hx))
    | some y =>
      have hy := hperm.mem_iff.mpr (List.mem_of_find?_eq_some h2)
      have hpy := List.find?_some h2
      have hxy : x.1 = y.1 := by
        simp only [decide_eq_true_eq] at hpx hpy
        rw [← hpx, ← hpy]
      rw [List.inj_on_of_nodup_map hnodup hx hy hxy]

theorem genLogicFunction_firstMatch (camelCase : Str → Str) (rpcName requestType : Str) :
    genLogicFunction camelCase rpcName requestType
      = firstMatch (camelCase rpcName) (switchCases camelCase requestType) := by
  unfold genLogicFunction firstMatch switchCases
  generalize camelCase rpcName = e
  by_cases h1 : e = B "Create" ++ camelCase requestType
  · rw [if_pos h1, List.find?_cons_of_pos _ (by simpa using h1)]
    rfl
  rw [if_neg h1, List.find?_cons_of_neg _ (by simpa using h1)]
  by_cases h2 : e = B "Delete" ++ camelCase requestType
  · rw [if_pos h2, List.find?_cons_of_pos _ (by simpa using h2)]
    rfl
  rw [if_neg h2, List.find?_cons_of_neg _ (by simpa using h2)]
  by_cases h3 : e = B "Query" ++ removeFirst (B "Filter") (camelCase requestType) ++ B "Detail"
  · rw [if_pos h3, List.find?_cons_of_pos _ (by simpa using h3)]
    rfl
  rw [if_neg h3, List.find?_cons_of_neg _ (by simpa using h3)]
  by_cases h4 : e = B "Query" ++ removeFirst (B "Filter") (camelCase requestType) ++ B "List"
  · rw [if_pos h4, List.find?_cons_of_pos _ (by simpa using h4)]
    rfl
  rw [if_neg h4, List.find?_cons_of_neg _ (by simpa using h4)]
  by_cases h5 : e = B "Update" ++ camelCase requestType
  · rw [if_pos h5, List.find?_cons_of_pos _ (by simpa using h5)]
    rfl
  rw [if_neg h5, List.find?_cons_of_neg _ (by simpa using h5)]
  rfl

/-- C28: the five patterns of the switch are mutually exclusive. For every endpoint name
and request type at most one of the five cases of `genLogicFunction` has the name as its
pattern, so a switch that takes the cases in any other order selects the same template, the
same model name and the same flags as the first-match-wins switch of the code. -/
theorem genLogicFunction_any_order (camelCase : Str → Str) (rpcName requestType : Str)
    (cases : List (Str × Dispatch)) (hperm : cases.Perm (switchCases camelCase requestType)) :
    ((switchCases camelCase requestType).filter (fun c => c.1 = camelCase rpcName)).length ≤ 1
      ∧ firstMatch (camelCase rpcName) cases = genLogicFunction camelCase rpcName requestType := by
  have hnodup := switchCases_nodup camelCase requestType
  constructor
  · have h := (List.nodup_map_iff_inj_on (List.Nodup.of_map _ hnodup)).mp hnodup
    have hfn : ((switchCases camelCase requestType).filter
        (fun c => decide (c.1 = camelCase rpcName))).Nodup := (List.Nodup.of_map _ hnodup).filter _
    by_contra hlen
    rw [not_le] at hlen
    rcases hf : (switchCases camelCase requestType).filter
        (fun c => decide (c.1 = camelCase rpcName)) with _ | ⟨a, _ | ⟨b, r⟩⟩
    · rw [hf] at hlen; simp at hlen
    · rw [hf] at hlen; simp at hlen
    · have ha : a ∈ (switchCases camelCase requestType).filter
          (fun c => decide (c.1 = camelCase rpcName)) := by rw [hf]; simp
      have hb : b ∈ (switchCases camelCase requestType).filter
          (fun c => decide (c.1 = camelCase rpcName)) := by rw [hf]; simp
      rw [List.mem_filter] at ha hb
      have hab : a = b := h a ha.1 b hb.1 (by
        have e1 := ha.2; have e2 := hb.2
        simp only [decide_eq_true_eq] at e1 e2
        rw [e1, e2])
      rw [hf, hab] at hfn
      simp at hfn
  · rw [genLogicFunction_firstMatch]
    unfold firstMatch
    rw [find_perm hperm.symm hnodup]

/-- C28 (witness): the cases in reverse order, for a query-list endpoint. -/
theorem genLogicFunction_any_order_witness :
    firstMatch (B "QueryOrderList") (switchCases id (B "OrderFilter")).reverse
      = genLogicFunction id (B "QueryOrderList") (B "OrderFilter") :=
  (genLogicFunction_any_order id (B "QueryOrderList") (B "OrderFilter")
    (switchCases id (B "OrderFilter")).reverse (List.reverse_perm _)).2

end Generator
